import Mathlib

/-! Simple-Vector: `RawMemory<T>` and `Vector<T>` (src/vector.h)

A shallow embedding of the two class templates of `src/vector.h` and the
properties of their member functions.

The memory model:

* The free store is a list of blocks, `World.heap`.  A block is a list of
  slots; a slot is `none` (raw, uninitialized memory) or `some x` (a live
  object of the element type with value `x`).  A block that was released by
  `operator delete` is `none` in the heap.
* A `T*` is a `Ptr`: the address of a block and an offset into it.  Address
  `0` is `nullptr`: it designates the empty block, none of whose slots can
  be read or written.  Address `a + 1` designates entry `a` of the heap.
* Reading a slot that is raw or outside its block, assigning to a raw slot,
  destroying a raw slot and forming an invalid pointer are undefined
  behaviour in C++; here they end the computation with a `Fault`, as a
  failed `assert` does.
* `World.stats` counts the special member functions of the element type that
  were run (what an element type with counting constructors observes).
* `size_t` is `Nat`.  A count that the class computes from the size of an
  existing block (`size_ * 2`, `other.size_`) is allocated by
  `RawMemory.Allocate`, where the byte count does not wrap and `operator new`
  succeeds.  A count that the caller chooses (`Vector(n)`, `Reserve(n)`,
  `Resize(n)`) is allocated by `RawMemory.Allocate_on` on a `Machine`: the
  byte count `n * sizeof(T)` is computed modulo `2 ^ size_t_bits` and
  `operator new` may throw `std::bad_alloc`; `Vector.sized_on`,
  `Vector.Reserve_on` and `Vector.Resize_on` are these member functions on a
  machine, and they agree with `Vector.sized`, `Vector.Reserve` and
  `Vector.Resize` when the byte count fits and the allocation succeeds.
* The operations of the element type do not throw, except in
  `Vector.EmplaceBack_or_throw` and `Vector.PushBack_or_throw`, where the
  allocation and the construction of the new element may throw.
* `Vector.eq` compares elements by equality of their values, the
  `operator==` of an element type such as `int`; `Vector.eq_with` takes the
  `operator==` of the element type, which need not be reflexive.
-/

namespace simple_vector

/-- Ways in which a computation stops without returning. -/
inductive Fault where
  /-- A failed `assert`. -/
  | assertion
  /-- An access outside every allocated block, or an invalid pointer. -/
  | bad_access
  /-- A read, assignment or destruction of a slot that holds no live object. -/
  | not_live
  /-- A call of `operator delete` on a block that is not allocated. -/
  | bad_free
  deriving DecidableEq, Repr

/-- The operations of the element type `T` that the container runs. -/
inductive Kind where
  /-- `T()` -/
  | value_construct
  /-- `T(const T&)` -/
  | copy_construct
  /-- `T(T&&)` -/
  | move_construct
  /-- `T(std::forward<Args>(args)...)` -/
  | args_construct
  /-- `T& operator=(const T&)` -/
  | copy_assign
  /-- `T& operator=(T&&)` -/
  | move_assign
  /-- `~T()` -/
  | destroy
  deriving DecidableEq, Repr

/-- How many times each operation of the element type was run. -/
structure Stats where
  value_constructed : Nat
  copy_constructed : Nat
  move_constructed : Nat
  args_constructed : Nat
  copy_assigned : Nat
  move_assigned : Nat
  destroyed : Nat
  deriving DecidableEq, Repr

/-- Record `n` more runs of the operation `k`. -/
def Stats.bump (k : Kind) (n : Nat) (s : Stats) : Stats :=
  match k with
  | .value_construct => { s with value_constructed := s.value_constructed + n }
  | .copy_construct => { s with copy_constructed := s.copy_constructed + n }
  | .move_construct => { s with move_constructed := s.move_constructed + n }
  | .args_construct => { s with args_constructed := s.args_constructed + n }
  | .copy_assign => { s with copy_assigned := s.copy_assigned + n }
  | .move_assign => { s with move_assigned := s.move_assigned + n }
  | .destroy => { s with destroyed := s.destroyed + n }

/-- A block of storage: one slot per element, `none` where no object lives. -/
abbrev Block (α : Type) := List (Option α)

/-- The free store and the operation counters. -/
structure World (α : Type) where
  heap : List (Option (Block α))
  stats : Stats
  deriving DecidableEq, Repr

/-- Computations that read and write the world and may stop with a fault. -/
abbrev Exec (α : Type) := StateT (World α) (Except Fault)

/-- A `T*`: block address and offset. -/
structure Ptr where
  block : Nat
  off : Nat
  deriving DecidableEq, Repr

/-- What the element type `T` provides. -/
structure ElemType (α : Type) where
  /-- The value of `T()`. -/
  value_init : α
  /-- The value an object is left with after it was moved from. -/
  moved_from : α → α
  /-- `std::is_copy_constructible_v<T>` -/
  is_copy_constructible : Bool
  /-- `std::is_nothrow_move_constructible_v<T>` -/
  is_nothrow_move_constructible : Bool

/-- The block at an address, if allocated. -/
def World.block {α : Type} (w : World α) : Nat → Option (Block α)
  | 0 => some []
  | a + 1 => (w.heap[a]?).join

/-- Replace the block at an address. -/
def World.setBlock {α : Type} (w : World α) (a : Nat) (b : Block α) : World α :=
  match a with
  | 0 => w
  | a + 1 => { w with heap := w.heap.set a (some b) }

/-- Read the object `*p`. -/
def load {α : Type} (p : Ptr) : Exec α α := fun w =>
  match w.block p.block with
  | none => .error .bad_access
  | some b =>
    match b[p.off]? with
    | none => .error .bad_access
    | some none => .error .not_live
    | some (some x) => .ok (x, w)

/-- Overwrite the slot at `p`. -/
def store {α : Type} (p : Ptr) (s : Option α) : Exec α Unit := fun w =>
  match w.block p.block with
  | none => .error .bad_access
  | some b =>
    if p.off < b.length then .ok ((), w.setBlock p.block (b.set p.off s))
    else .error .bad_access

/-- Count one run of the operation `k`. -/
def tick {α : Type} (k : Kind) : Exec α Unit := fun w =>
  .ok ((), { w with stats := w.stats.bump k 1 })

/-- The macro `assert(c)`. -/
def assert {α : Type} (c : Prop) [Decidable c] : Exec α Unit := fun w =>
  if c then .ok ((), w) else .error .assertion

/-- Pointer plus offset, `p + k`. -/
def Ptr.add (p : Ptr) (k : Nat) : Ptr := ⟨p.block, p.off + k⟩

/-- Pointer minus offset, `p - k`; a pointer before the block is invalid. -/
def ptr_sub {α : Type} (p : Ptr) (k : Nat) : Exec α Ptr := fun w =>
  if k ≤ p.off then .ok (⟨p.block, p.off - k⟩, w) else .error .bad_access

/-- Number of steps of `std::distance(first, last)`, for the loops
`for (; first != last; ++first)`; `last` must be reachable from `first`. -/
def distance {α : Type} (first last : Ptr) : Exec α Nat := fun w =>
  if first.block = last.block ∧ first.off ≤ last.off then .ok (last.off - first.off, w)
  else .error .bad_access

/-- Placement new `new (p) T()`. -/
def construct_value {α : Type} (E : ElemType α) (p : Ptr) : Exec α Unit := do
  store p (some E.value_init)
  tick .value_construct

/-- Placement new `new (p) T(std::forward<Args>(args)...)`, the arguments
making the value `x`. -/
def construct_args {α : Type} (p : Ptr) (x : α) : Exec α Unit := do
  store p (some x)
  tick .args_construct

/-- Placement new `new (dst) T(*src)`. -/
def construct_copy {α : Type} (dst src : Ptr) : Exec α Unit := do
  let x ← load src
  store dst (some x)
  tick .copy_construct

/-- Placement new `new (dst) T(std::move(*src))`. -/
def construct_move {α : Type} (E : ElemType α) (dst src : Ptr) : Exec α Unit := do
  let x ← load src
  store dst (some x)
  store src (some (E.moved_from x))
  tick .move_construct

/-- The assignment `*dst = *src`. -/
def assign_copy {α : Type} (dst src : Ptr) : Exec α Unit := do
  let x ← load src
  let _ ← load dst
  store dst (some x)
  tick .copy_assign

/-- The assignment `*dst = std::move(*src)`. -/
def assign_move {α : Type} (E : ElemType α) (dst src : Ptr) : Exec α Unit := do
  let x ← load src
  let _ ← load dst
  store dst (some x)
  store src (some (E.moved_from x))
  tick .move_assign

/-- The assignment `*dst = std::move(local)` from a local object of value `x`. -/
def assign_move_local {α : Type} (dst : Ptr) (x : α) : Exec α Unit := do
  let _ ← load dst
  store dst (some x)
  tick .move_assign

/-- `std::destroy_at(p)`. -/
def destroy_at {α : Type} (p : Ptr) : Exec α Unit := do
  let _ ← load p
  store p none
  tick .destroy

/-- `std::uninitialized_value_construct_n(first, n)`. -/
def uninitialized_value_construct_n {α : Type} (E : ElemType α) : Ptr → Nat → Exec α Unit
  | _, 0 => pure ()
  | first, n + 1 => do
    construct_value E first
    uninitialized_value_construct_n E (first.add 1) n

/-- `std::uninitialized_copy_n(first, n, d_first)`. -/
def uninitialized_copy_n {α : Type} : Ptr → Nat → Ptr → Exec α Unit
  | _, 0, _ => pure ()
  | first, n + 1, d_first => do
    construct_copy d_first first
    uninitialized_copy_n (first.add 1) n (d_first.add 1)

/-- `std::uninitialized_move_n(first, n, d_first)`. -/
def uninitialized_move_n {α : Type} (E : ElemType α) : Ptr → Nat → Ptr → Exec α Unit
  | _, 0, _ => pure ()
  | first, n + 1, d_first => do
    construct_move E d_first first
    uninitialized_move_n E (first.add 1) n (d_first.add 1)

/-- `std::destroy_n(first, n)`. -/
def destroy_n {α : Type} : Ptr → Nat → Exec α Unit
  | _, 0 => pure ()
  | first, n + 1 => do
    destroy_at first
    destroy_n (first.add 1) n

/-- The loop of `std::copy`, run `n` times. -/
def copy_n {α : Type} : Ptr → Nat → Ptr → Exec α Unit
  | _, 0, _ => pure ()
  | first, n + 1, d_first => do
    assign_copy d_first first
    copy_n (first.add 1) n (d_first.add 1)

/-- `std::copy(first, last, d_first)`. -/
def std_copy {α : Type} (first last d_first : Ptr) : Exec α Unit := do
  let n ← distance first last
  copy_n first n d_first

/-- The loop of `std::move`, run `n` times. -/
def move_n {α : Type} (E : ElemType α) : Ptr → Nat → Ptr → Exec α Unit
  | _, 0, _ => pure ()
  | first, n + 1, d_first => do
    assign_move E d_first first
    move_n E (first.add 1) n (d_first.add 1)

/-- `std::move(first, last, d_first)`. -/
def std_move {α : Type} (E : ElemType α) (first last d_first : Ptr) : Exec α Unit := do
  let n ← distance first last
  move_n E first n d_first

/-- The loop of `std::move_backward`, `*(--d_last) = std::move(*(--last))`,
run `n` times, `last` being `first + n`. -/
def move_backward_n {α : Type} (E : ElemType α) (first : Ptr) : Nat → Ptr → Exec α Unit
  | 0, _ => pure ()
  | n + 1, d_last => do
    let d ← ptr_sub d_last 1
    assign_move E d (first.add n)
    move_backward_n E first n d

/-- `std::move_backward(first, last, d_last)`. -/
def std_move_backward {α : Type} (E : ElemType α) (first last d_last : Ptr) : Exec α Unit := do
  let n ← distance first last
  move_backward_n E first n d_last

/-- The loop of `std::equal`, run at most `n` times, for an element type whose
`operator==` is equality of values. -/
def equal_n {α : Type} [DecidableEq α] : Ptr → Nat → Ptr → Exec α Bool
  | _, 0, _ => pure true
  | first1, n + 1, first2 => do
    let a ← load first1
    let b ← load first2
    if a = b then equal_n (first1.add 1) n (first2.add 1) else pure false

/-- `std::equal(first1, last1, first2)`, for an element type whose
`operator==` is equality of values. -/
def std_equal {α : Type} [DecidableEq α] (first1 last1 first2 : Ptr) : Exec α Bool := do
  let n ← distance first1 last1
  equal_n first1 n first2

/-- The objects read by `for (p = first; p != first + n; ++p)`. -/
def read_n {α : Type} : Ptr → Nat → Exec α (List α)
  | _, 0 => pure []
  | first, n + 1 => do
    let x ← load first
    let xs ← read_n (first.add 1) n
    pure (x :: xs)

/-! ## `RawMemory<T>` -/

/-- The data members of `RawMemory<T>`. -/
structure RawMemory where
  buffer_ : Nat
  capacity_ : Nat
  deriving DecidableEq, Repr

/-- `RawMemory::Allocate(n)` when `n * sizeof(T)` fits `size_t` and
`operator new` succeeds: a new block of `n` raw slots, `nullptr` when
`n == 0`. -/
def RawMemory.Allocate {α : Type} (n : Nat) : Exec α Nat := fun w =>
  if n ≠ 0 then
    .ok (w.heap.length + 1, { w with heap := w.heap ++ [some (List.replicate n none)] })
  else .ok (0, w)

/-- `RawMemory::Deallocate(buf)`: `operator delete(buf)`, which does nothing
for `nullptr`. -/
def RawMemory.Deallocate {α : Type} (buf : Nat) : Exec α Unit := fun w =>
  match buf with
  | 0 => .ok ((), w)
  | a + 1 =>
    match w.heap[a]? with
    | some (some _) => .ok ((), { w with heap := w.heap.set a none })
    | _ => .error .bad_free

/-- `RawMemory() = default`. -/
def RawMemory.default : RawMemory := ⟨0, 0⟩

/-- `explicit RawMemory(size_t capacity)`, with the allocation of
`RawMemory.Allocate`. -/
def RawMemory.create {α : Type} (capacity : Nat) : Exec α RawMemory := do
  let buffer ← RawMemory.Allocate capacity
  pure ⟨buffer, capacity⟩

/-- `~RawMemory()`. -/
def RawMemory.destructor {α : Type} (m : RawMemory) : Exec α Unit :=
  RawMemory.Deallocate m.buffer_

/-- `RawMemory::operator+(size_t offset)`. -/
def RawMemory.plus {α : Type} (m : RawMemory) (offset : Nat) : Exec α Ptr := do
  assert (offset ≤ m.capacity_)
  pure ⟨m.buffer_, offset⟩

/-- `RawMemory::operator[](size_t index)`, the reference as a pointer. -/
def RawMemory.index {α : Type} (m : RawMemory) (index : Nat) : Exec α Ptr := do
  assert (index < m.capacity_)
  pure ⟨m.buffer_, index⟩

/-- `RawMemory::Swap(RawMemory &other)`: the new `*this` and the new `other`. -/
def RawMemory.Swap (m other : RawMemory) : RawMemory × RawMemory :=
  (⟨other.buffer_, other.capacity_⟩, ⟨m.buffer_, m.capacity_⟩)

/-- `RawMemory::GetAddress()`. -/
def RawMemory.GetAddress (m : RawMemory) : Ptr := ⟨m.buffer_, 0⟩

/-- `RawMemory::Capacity()`. -/
def RawMemory.Capacity (m : RawMemory) : Nat := m.capacity_

/-! ## `Vector<T>` -/

/-- The data members of `Vector<T>`. -/
structure Vector where
  data_ : RawMemory
  size_ : Nat
  deriving DecidableEq, Repr

/-- `Vector::Size()`. -/
def Vector.Size (v : Vector) : Nat := v.size_

/-- `Vector::Capacity()`. -/
def Vector.Capacity (v : Vector) : Nat := v.data_.Capacity

/-- `Vector::begin()` and `Vector::cbegin()`. -/
def Vector.begin (v : Vector) : Ptr := v.data_.GetAddress

/-- `Vector::end()` and `Vector::cend()`. -/
def Vector.end_ (v : Vector) : Ptr := v.data_.GetAddress.add v.size_

/-- `Vector::Swap(Vector &rhs)`: the new `*this` and the new `rhs`. -/
def Vector.Swap (v rhs : Vector) : Vector × Vector :=
  let d := v.data_.Swap rhs.data_
  (⟨d.1, rhs.size_⟩, ⟨d.2, v.size_⟩)

/-- `explicit Vector() = default`. -/
def Vector.default : Vector := ⟨RawMemory.default, 0⟩

/-- `explicit Vector(const Vector &other)`. -/
def Vector.copy {α : Type} (other : Vector) : Exec α Vector := do
  let data ← RawMemory.create other.size_
  uninitialized_copy_n other.data_.GetAddress other.size_ data.GetAddress
  pure ⟨data, other.size_⟩

/-- `explicit Vector(Vector &&other)`: the new vector and what is left of
`other`. -/
def Vector.move (other : Vector) : Vector × Vector :=
  Vector.default.Swap other

/-- `~Vector()`, followed by the destructor of the member `data_`. -/
def Vector.destructor {α : Type} (v : Vector) : Exec α Unit := do
  destroy_n (α := α) v.data_.GetAddress v.size_
  v.data_.destructor

/-- `Vector &operator=(const Vector &rhs)`.  `same_object` is the outcome of
the address test `this == &rhs`; the result is the new `*this`. -/
def Vector.copy_assign {α : Type} (v rhs : Vector) (same_object : Bool) : Exec α Vector := do
  if !same_object then
    if rhs.size_ > v.Capacity then
      let rhs_copy ← Vector.copy (α := α) rhs
      let sw := v.Swap rhs_copy
      Vector.destructor (α := α) sw.2
      pure sw.1
    else
      if rhs.size_ ≥ v.size_ then
        std_copy (α := α) rhs.data_.GetAddress (← rhs.data_.plus v.size_) v.data_.GetAddress
        uninitialized_copy_n (α := α) (← rhs.data_.plus v.size_) (rhs.size_ - v.size_)
          (v.data_.GetAddress.add v.size_)
      if rhs.size_ < v.size_ then
        std_copy (α := α) rhs.data_.GetAddress (← rhs.data_.plus rhs.size_) v.data_.GetAddress
        destroy_n (α := α) (← v.data_.plus rhs.size_) (v.size_ - rhs.size_)
      pure { v with size_ := rhs.size_ }
  else
    pure v

/-- `Vector &operator=(Vector &&rhs)`: the new `*this` and the new `rhs`. -/
def Vector.move_assign (v rhs : Vector) : Vector × Vector :=
  v.Swap rhs

/-- `Vector::Reserve(size_t new_capacity)`, with the allocation of
`RawMemory.Allocate`. -/
def Vector.Reserve {α : Type} (E : ElemType α) (v : Vector) (new_capacity : Nat) :
    Exec α Vector := do
  if new_capacity ≤ v.data_.Capacity then
    pure v
  else
    let new_data ← RawMemory.create (α := α) new_capacity
    if !E.is_copy_constructible || E.is_nothrow_move_constructible then
      uninitialized_move_n E v.data_.GetAddress v.size_ new_data.GetAddress
    else
      uninitialized_copy_n v.data_.GetAddress v.size_ new_data.GetAddress
    destroy_n (α := α) v.data_.GetAddress v.size_
    let sw := v.data_.Swap new_data
    RawMemory.destructor (α := α) sw.2
    pure { v with data_ := sw.1 }

/-- `Vector::Resize(size_t new_size)`, with the allocation of
`RawMemory.Allocate`. -/
def Vector.Resize {α : Type} (E : ElemType α) (v : Vector) (new_size : Nat) :
    Exec α Vector := do
  let v1 ← Vector.Reserve E v new_size
  if new_size ≤ v1.size_ then
    destroy_n (α := α) (← v1.data_.plus new_size) (v1.size_ - new_size)
  else
    uninitialized_value_construct_n E (← v1.data_.plus v1.size_) (new_size - v1.size_)
  pure { v1 with size_ := new_size }

/-- `Vector::EmplaceBack(Args &&...args)`, the arguments making the value
`x`: the new `*this` and the returned reference. -/
def Vector.EmplaceBack {α : Type} (E : ElemType α) (v : Vector) (x : α) :
    Exec α (Vector × Ptr) := do
  let v1 ←
    if v.size_ = v.Capacity then do
      let new_capacity := if v.size_ = 0 then 1 else v.size_ * 2
      let new_data ← RawMemory.create (α := α) new_capacity
      construct_args (← new_data.plus v.size_) x
      if E.is_nothrow_move_constructible || !E.is_copy_constructible then
        uninitialized_move_n E v.data_.GetAddress v.size_ new_data.GetAddress
      else if E.is_copy_constructible then
        uninitialized_copy_n v.data_.GetAddress v.size_ new_data.GetAddress
      let sw := v.data_.Swap new_data
      destroy_n (α := α) sw.2.GetAddress v.size_
      RawMemory.destructor (α := α) sw.2
      pure { v with data_ := sw.1 }
    else do
      construct_args (← v.data_.plus v.size_) x
      pure v
  let v2 : Vector := { v1 with size_ := v1.size_ + 1 }
  let r ← ptr_sub v2.end_ 1
  pure (v2, r)

/-- `Vector::PushBack(const T &value)` and `Vector::PushBack(T &&value)`. -/
def Vector.PushBack {α : Type} (E : ElemType α) (v : Vector) (value : α) : Exec α Vector := do
  let r ← Vector.EmplaceBack E v value
  pure r.1

/-- `Vector::Emplace(const_iterator pos, Args &&...args)`, the arguments
making the value `x`: the new `*this` and the returned iterator. -/
def Vector.Emplace {α : Type} (E : ElemType α) (v : Vector) (pos : Ptr) (x : α) :
    Exec α (Vector × Ptr) := do
  if pos = v.end_ then
    let r ← Vector.EmplaceBack E v x
    let it ← ptr_sub r.1.end_ 1
    pure (r.1, it)
  else
    let elem_index ← distance (α := α) v.begin pos
    let v1 ←
      if v.size_ = v.Capacity then do
        let new_capacity := if v.size_ = 0 then 1 else v.size_ * 2
        let new_data ← RawMemory.create (α := α) new_capacity
        construct_args (← new_data.plus elem_index) x
        if !E.is_copy_constructible || E.is_nothrow_move_constructible then
          uninitialized_move_n E v.begin elem_index new_data.GetAddress
          uninitialized_move_n E (v.begin.add elem_index) (v.size_ - elem_index)
            ((← new_data.plus elem_index).add 1)
        else
          uninitialized_copy_n v.begin elem_index new_data.GetAddress
          uninitialized_copy_n ((v.begin.add elem_index).add 1) (v.size_ - elem_index)
            ((← new_data.plus elem_index).add 1)
        let sw := v.data_.Swap new_data
        destroy_n (α := α) sw.2.GetAddress v.size_
        RawMemory.destructor (α := α) sw.2
        pure { v with data_ := sw.1 }
      else if v.size_ < v.Capacity then do
        tick (α := α) .args_construct
        let last_value ← ptr_sub (α := α) v.end_ 1
        construct_move E (← v.data_.plus v.size_) last_value
        std_move_backward E (v.begin.add elem_index) (← ptr_sub v.end_ 1) v.end_
        assign_move_local (← v.data_.index elem_index) x
        tick (α := α) .destroy
        pure v
      else
        pure v
    let v2 : Vector := { v1 with size_ := v1.size_ + 1 }
    pure (v2, v2.begin.add elem_index)

/-- `Vector::Erase(const_iterator pos)`: the new `*this` and the returned
iterator. -/
def Vector.Erase {α : Type} (E : ElemType α) (v : Vector) (pos : Ptr) :
    Exec α (Vector × Ptr) := do
  let elem_index ← distance (α := α) v.begin pos
  std_move E ((v.begin.add elem_index).add 1) v.end_ (v.begin.add elem_index)
  destroy_at (α := α) (← ptr_sub v.end_ 1)
  let v1 : Vector := { v with size_ := v.size_ - 1 }
  pure (v1, v1.begin.add elem_index)

/-- `Vector::Insert(const_iterator pos, const T &value)` and
`Vector::Insert(const_iterator pos, T &&value)`. -/
def Vector.Insert {α : Type} (E : ElemType α) (v : Vector) (pos : Ptr) (value : α) :
    Exec α (Vector × Ptr) :=
  Vector.Emplace E v pos value

/-- `Vector::PopBack()`. -/
def Vector.PopBack {α : Type} (v : Vector) : Exec α Vector := do
  assert (α := α) (v.size_ > 0)
  destroy_at (α := α) (← ptr_sub (← v.data_.plus v.size_) 1)
  pure { v with size_ := v.size_ - 1 }

/-- `Vector::operator[](size_t index)`, the reference as a pointer. -/
def Vector.subscript {α : Type} (v : Vector) (index : Nat) : Exec α Ptr := do
  assert (α := α) (index < v.size_)
  v.data_.index index

/-- `Vector::operator==(const Vector &rhs)`, for an element type whose
`operator==` is equality of values. -/
def Vector.eq {α : Type} [DecidableEq α] (v rhs : Vector) : Exec α Bool :=
  std_equal v.begin v.end_ rhs.begin

/-- `Vector::operator!=(const Vector &rhs)`. -/
def Vector.ne {α : Type} [DecidableEq α] (v rhs : Vector) : Exec α Bool := do
  let r ← Vector.eq (α := α) v rhs
  pure (!r)

/-- The elements met by `for (int num : vec)`, as in `OutputContainer`. -/
def Vector.contents {α : Type} (v : Vector) : Exec α (List α) := do
  let n ← distance (α := α) v.begin v.end_
  read_n v.begin n

/-- Read the element `vec[index]`. -/
def Vector.get {α : Type} (v : Vector) (index : Nat) : Exec α α := do
  load (← v.subscript index)

/-- Write the element `vec[index] = x`. -/
def Vector.put {α : Type} (v : Vector) (index : Nat) (x : α) : Exec α Unit := do
  let p ← Vector.subscript (α := α) v index
  let _ ← load (α := α) p
  store p (some x)
  tick .copy_assign

/-! ## Definitions used to state the properties -/

/-- Record `n` more runs of the operation `k` in the world. -/
def World.bump {α : Type} (k : Kind) (n : Nat) (w : World α) : World α :=
  { w with stats := w.stats.bump k n }

/-- The address the next allocated block gets. -/
def World.fresh {α : Type} (w : World α) : Nat := w.heap.length + 1

/-- The world with one more block. -/
def World.grow {α : Type} (w : World α) (b : Block α) : World α :=
  { w with heap := w.heap ++ [some b] }

/-- The world with the block at an address released. -/
def World.free {α : Type} (w : World α) : Nat → World α
  | 0 => w
  | a + 1 => { w with heap := w.heap.set a none }

/-- The vector `v` holds the elements `xs`: its length is their number, it
does not exceed the capacity, the slots `[0, size_)` of its block hold live
objects with the values `xs` and the slots `[size_, capacity_)` are raw. -/
def Vector.Owns {α : Type} (w : World α) (v : Vector) (xs : List α) : Prop :=
  v.size_ = xs.length ∧ xs.length ≤ v.data_.capacity_ ∧
  w.block v.data_.buffer_
    = some (xs.map some ++ List.replicate (v.data_.capacity_ - xs.length) none)

instance {α : Type} [DecidableEq α] (w : World α) (v : Vector) (xs : List α) :
    Decidable (v.Owns w xs) :=
  inferInstanceAs (Decidable (_ ∧ _ ∧ _))

/-- Every block allocated in `w`, except the one at `a`, is the same in `w2`. -/
def World.Frame {α : Type} (w w2 : World α) (a : Nat) : Prop :=
  ∀ b, b ≠ a → w.block b ≠ none → w2.block b = w.block b

/-- The relocation of `n` elements into new storage: by move construction
or by copy construction. -/
def relocate {α : Type} (E : ElemType α) (by_move : Bool) (first : Ptr) (n : Nat)
    (d_first : Ptr) : Exec α Unit :=
  if by_move then uninitialized_move_n E first n d_first
  else uninitialized_copy_n first n d_first

/-- The loop of `main`: one `PushBack` per value, in order. -/
def push_all {α : Type} (E : ElemType α) (v : Vector) : List α → Exec α Vector
  | [] => pure v
  | x :: xs => do
    let v1 ← v.PushBack E x
    push_all E v1 xs

/-- What `std::is_copy_constructible_v<int>` and the like give for `int`. -/
def int_type : ElemType Int := ⟨0, id, true, true⟩

/-- The world at the start of `main`. -/
def empty_world (α : Type) : World α := ⟨[], ⟨0, 0, 0, 0, 0, 0, 0⟩⟩

/-- Move-assignment in the words of the specification: the left-hand side
takes what the right-hand side held, and the right-hand side is left holding
what was previously on the left.  The pair is the new left-hand side and the
new right-hand side. -/
def spec_move_assign (a b : Vector) : Vector × Vector := (b, a)

/-! ## States used as instances -/

/-- An element type that can be copied and whose move constructor may throw. -/
def throwing_move_type : ElemType Int := ⟨0, id, true, false⟩

/-- A state in which the block at address 1 holds 1, 2 and is full. -/
def world_12 : World Int := ⟨[some [some 1, some 2]], ⟨0, 0, 0, 0, 0, 0, 0⟩⟩

/-- The vector `[1, 2]` of capacity 3, stored in the block at address 1. -/
def vec_12 : Vector := ⟨⟨1, 3⟩, 2⟩

/-- A state in which the block at address 1 holds 1, 2 and one raw slot. -/
def world_12_spare : World Int := ⟨[some [some 1, some 2, none]], ⟨0, 0, 0, 0, 0, 0, 0⟩⟩

/-- The vector `[7]` of capacity 1, stored in the block at address 2. -/
def vec_7 : Vector := ⟨⟨2, 1⟩, 1⟩

/-- A state with two blocks: 1, 2 and a raw slot at address 1, and 7 at
address 2. -/
def world_two : World Int :=
  ⟨[some [some 1, some 2, none], some [some 7]], ⟨0, 0, 0, 0, 0, 0, 0⟩⟩

/-- The vector `[1]` of capacity 1, stored in the block at address 3. -/
def vec_1 : Vector := ⟨⟨3, 1⟩, 1⟩

/-- A state with three blocks: 1, 2 and a raw slot at address 1, 7 at
address 2 and 1 at address 3. -/
def world_three : World Int :=
  ⟨[some [some 1, some 2, none], some [some 7], some [some 1]], ⟨0, 0, 0, 0, 0, 0, 0⟩⟩

/-- The vector `[1, 2, 3]` of capacity 3, stored in the block at address 2. -/
def vec_123 : Vector := ⟨⟨2, 3⟩, 3⟩

/-- A state with two blocks: 1, 2 and a raw slot at address 1, and 1, 2, 3 at
address 2. -/
def world_prefix : World Int :=
  ⟨[some [some 1, some 2, none], some [some 1, some 2, some 3]], ⟨0, 0, 0, 0, 0, 0, 0⟩⟩

/-! ## Exceptions -/

/-- A C++ exception that leaves a member function: `std::bad_alloc` thrown by
`operator new`, or the exception thrown by a constructor of the element
type. -/
inductive Exn where
  | bad_alloc
  | element
  deriving DecidableEq, Repr

/-- The calls that throw: `operator new` for a given number of elements, and
the construction of an element from the arguments that make a given value. -/
structure Throws (α : Type) where
  operator_new : Nat → Bool
  construct : α → Bool

/-- `Vector::EmplaceBack(Args &&...args)` where `operator new` and the
constructor of the new element may throw: the vector after the call and
either the exception that leaves the call or the returned reference.
`Allocate` calls `operator new` only for `n != 0`; when the constructor
throws on the full path, unwinding runs `~RawMemory()` on `new_data`. -/
def Vector.EmplaceBack_or_throw {α : Type} (E : ElemType α) (T : Throws α) (v : Vector)
    (x : α) : Exec α (Vector × Except Exn Ptr) := do
  if v.size_ = v.Capacity then
    let new_capacity := if v.size_ = 0 then 1 else v.size_ * 2
    if new_capacity ≠ 0 ∧ T.operator_new new_capacity = true then
      pure (v, .error .bad_alloc)
    else
      let new_data ← RawMemory.create (α := α) new_capacity
      let p ← new_data.plus (α := α) v.size_
      if T.construct x = true then
        RawMemory.destructor (α := α) new_data
        pure (v, .error .element)
      else
        construct_args p x
        if E.is_nothrow_move_constructible || !E.is_copy_constructible then
          uninitialized_move_n E v.data_.GetAddress v.size_ new_data.GetAddress
        else if E.is_copy_constructible then
          uninitialized_copy_n v.data_.GetAddress v.size_ new_data.GetAddress
        let sw := v.data_.Swap new_data
        destroy_n (α := α) sw.2.GetAddress v.size_
        RawMemory.destructor (α := α) sw.2
        let v2 : Vector := { data_ := sw.1, size_ := v.size_ + 1 }
        let r ← ptr_sub (α := α) v2.end_ 1
        pure (v2, .ok r)
  else
    let p ← v.data_.plus (α := α) v.size_
    if T.construct x = true then
      pure (v, .error .element)
    else
      construct_args p x
      let v2 : Vector := { v with size_ := v.size_ + 1 }
      let r ← ptr_sub (α := α) v2.end_ 1
      pure (v2, .ok r)

/-- `Vector::PushBack(const T &value)` and `Vector::PushBack(T &&value)` where
`operator new` and the constructor of the new element may throw. -/
def Vector.PushBack_or_throw {α : Type} (E : ElemType α) (T : Throws α) (v : Vector)
    (value : α) : Exec α (Vector × Except Exn Unit) := do
  let r ← Vector.EmplaceBack_or_throw E T v value
  pure (r.1, r.2.map fun _ => ())

/-- Nothing throws. -/
def no_throw (α : Type) : Throws α := ⟨fun _ => false, fun _ => false⟩

/-- The allocation of 2 elements throws. -/
def new_2_throws : Throws Int := ⟨fun n => n = 2, fun _ => false⟩

/-- The construction of an element with value 9 throws. -/
def construct_9_throws : Throws Int := ⟨fun _ => false, fun x => x = 9⟩

/-! ## Allocation on a machine -/

/-- The machine the program runs on: the width of `size_t`, `sizeof(T)` for
the element type, which is at least 1, and the byte counts that
`operator new` cannot satisfy. -/
structure Machine where
  size_t_bits : Nat
  sizeof_T : Nat
  new_fails : Nat → Bool
  sizeof_pos : 0 < sizeof_T

/-- The number of bytes `n * sizeof(T)` as `size_t` arithmetic computes it. -/
def Machine.bytes (M : Machine) (n : Nat) : Nat := (n * M.sizeof_T) % 2 ^ M.size_t_bits

/-- `RawMemory::Allocate(n)` on a machine: `n * sizeof(T)` is computed in
`size_t`, `operator new` throws `std::bad_alloc` when it cannot satisfy that
byte count, and the block obtained has room for as many elements as fit into
the bytes asked for.  `operator new(0)` gives a block without room. -/
def RawMemory.Allocate_on {α : Type} (M : Machine) (n : Nat) : Exec α (Except Exn Nat) :=
  fun w =>
    if n ≠ 0 then
      if M.new_fails (M.bytes n) = true then .ok (.error .bad_alloc, w)
      else
        .ok (.ok (w.heap.length + 1),
          { w with heap := w.heap ++ [some (List.replicate (M.bytes n / M.sizeof_T) none)] })
    else .ok (.ok 0, w)

/-- `explicit RawMemory(size_t capacity)` on a machine. -/
def RawMemory.create_on {α : Type} (M : Machine) (capacity : Nat) :
    Exec α (Except Exn RawMemory) := do
  let r ← RawMemory.Allocate_on (α := α) M capacity
  match r with
  | .error e => pure (.error e)
  | .ok buffer => pure (.ok ⟨buffer, capacity⟩)

/-- `explicit Vector(size_t size)` on a machine: the new vector, or the
exception that leaves the constructor. -/
def Vector.sized_on {α : Type} (E : ElemType α) (M : Machine) (size : Nat) :
    Exec α (Except Exn Vector) := do
  let r ← RawMemory.create_on (α := α) M size
  match r with
  | .error e => pure (.error e)
  | .ok data =>
    uninitialized_value_construct_n E data.GetAddress size
    pure (.ok ⟨data, size⟩)

/-- `Vector::Reserve(size_t new_capacity)` on a machine: the vector after the
call, and the exception if one leaves the call. -/
def Vector.Reserve_on {α : Type} (E : ElemType α) (M : Machine) (v : Vector)
    (new_capacity : Nat) : Exec α (Vector × Except Exn Unit) := do
  if new_capacity ≤ v.data_.Capacity then
    pure (v, .ok ())
  else
    let r ← RawMemory.create_on (α := α) M new_capacity
    match r with
    | .error e => pure (v, .error e)
    | .ok new_data =>
      if !E.is_copy_constructible || E.is_nothrow_move_constructible then
        uninitialized_move_n E v.data_.GetAddress v.size_ new_data.GetAddress
      else
        uninitialized_copy_n v.data_.GetAddress v.size_ new_data.GetAddress
      destroy_n (α := α) v.data_.GetAddress v.size_
      let sw := v.data_.Swap new_data
      RawMemory.destructor (α := α) sw.2
      pure ({ v with data_ := sw.1 }, .ok ())

/-- `Vector::Resize(size_t new_size)` on a machine: the vector after the
call, and the exception if one leaves the call. -/
def Vector.Resize_on {α : Type} (E : ElemType α) (M : Machine) (v : Vector)
    (new_size : Nat) : Exec α (Vector × Except Exn Unit) := do
  let r ← Vector.Reserve_on E M v new_size
  match r.2 with
  | .error e => pure (r.1, .error e)
  | .ok _ =>
    let v1 := r.1
    if new_size ≤ v1.size_ then
      destroy_n (α := α) (← v1.data_.plus new_size) (v1.size_ - new_size)
    else
      uninitialized_value_construct_n E (← v1.data_.plus v1.size_) (new_size - v1.size_)
    pure ({ v1 with size_ := new_size }, .ok ())

/-- A machine with a 64-bit `size_t` and 4-byte elements, on which
`operator new` cannot give `2 ^ 47` bytes or more. -/
def machine_64 : Machine := ⟨64, 4, fun bytes => decide (2 ^ 47 ≤ bytes), by decide⟩

/-! ## Comparison with the `operator==` of the element type -/

/-- The loop of `std::equal`, run at most `n` times, `op` being the
`operator==` of the element type. -/
def equal_n_with {α : Type} (op : α → α → Bool) : Ptr → Nat → Ptr → Exec α Bool
  | _, 0, _ => pure true
  | first1, n + 1, first2 => do
    let a ← load first1
    let b ← load first2
    if op a b = true then equal_n_with op (first1.add 1) n (first2.add 1) else pure false

/-- `std::equal(first1, last1, first2)`, `op` being the `operator==` of the
element type. -/
def std_equal_with {α : Type} (op : α → α → Bool) (first1 last1 first2 : Ptr) :
    Exec α Bool := do
  let n ← distance first1 last1
  equal_n_with op first1 n first2

/-- `Vector::operator==(const Vector &rhs)`, `op` being the `operator==` of
the element type. -/
def Vector.eq_with {α : Type} (op : α → α → Bool) (v rhs : Vector) : Exec α Bool :=
  std_equal_with op v.begin v.end_ rhs.begin

/-- A `double`: a number or a NaN. -/
inductive Double where
  | num (n : Int)
  | nan
  deriving DecidableEq, Repr

/-- The `operator==` of `double`: a NaN compares unequal to everything. -/
def Double.eq : Double → Double → Bool
  | .num a, .num b => decide (a = b)
  | _, _ => false

/-- The element type `double`. -/
def double_type : ElemType Double := ⟨.num 0, id, true, true⟩

/-- A state in which the block at address 1 holds one NaN. -/
def world_nan : World Double := ⟨[some [some .nan]], ⟨0, 0, 0, 0, 0, 0, 0⟩⟩

/-- The vector `[NaN]` of capacity 1, stored in the block at address 1. -/
def vec_nan : Vector := ⟨⟨1, 1⟩, 1⟩

/-! ## The representation invariant -/

/-- The vectors alive each hold some elements, and no two of them have the
same storage, `nullptr` apart. -/
def Separate {α : Type} (w : World α) (vs : List Vector) : Prop :=
  (∀ v ∈ vs, ∃ xs : List α, v.Owns w xs) ∧
  vs.Pairwise (fun a b => a.data_.buffer_ = b.data_.buffer_ → a.data_.buffer_ = 0)

/-! ## Reachable states -/

/-- The computation never stops at a failed `assert`, whatever the state it
starts in. -/
def no_assert {α β : Type} (m : Exec α β) : Prop :=
  ∀ w : World α, m w ≠ .error .assertion

/-- Every result the computation returns, whatever the state it starts in,
satisfies `P`. -/
def ensures {α β : Type} (m : Exec α β) (P : β → Prop) : Prop :=
  ∀ (w : World α) (r : β) (w2 : World α), m w = .ok (r, w2) → P r

/-- The state in which the slot right behind the block at address `a` can be
read and holds an object of value `g`: a read past the end of a block finds
what lies behind it in memory. -/
def World.behind {α : Type} (w : World α) (a : Nat) (g : α) : World α :=
  match w.block a with
  | some b => w.setBlock a (b ++ [some g])
  | none => w

/-- A full vector `[1, 2]` of capacity 2, stored in the block at address 1. -/
def vec_12_full : Vector := ⟨⟨1, 2⟩, 2⟩

/-- The computation never stops at a failed `assert`, and every result it
returns satisfies `P`, whatever the state it starts in. -/
def checked {α β : Type} (m : Exec α β) (P : β → Prop) : Prop :=
  no_assert m ∧ ensures m P

/-! ## The monad and the counters -/

theorem bind_apply {α β γ : Type} (m : Exec α β) (f : β → Exec α γ) (w : World α) :
    (m >>= f) w = (m w).bind (fun r => f r.1 r.2) := by
  show (StateT.bind m f) w = _
  simp only [StateT.bind, bind, Except.bind]

theorem pure_apply {α β : Type} (r : β) (w : World α) :
    (pure r : Exec α β) w = .ok (r, w) := rfl

theorem ok_bind {ε β γ : Type} (r : β) (f : β → Except ε γ) :
    (Except.ok r : Except ε β).bind f = f r := rfl

theorem error_bind {ε β γ : Type} (e : ε) (f : β → Except ε γ) :
    (Except.error e : Except ε β).bind f = .error e := rfl

theorem Stats.bump_zero (k : Kind) (s : Stats) : s.bump k 0 = s := by
  cases k <;> rfl

theorem Stats.bump_bump (k : Kind) (n m : Nat) (s : Stats) :
    (s.bump k n).bump k m = s.bump k (n + m) := by
  cases k <;> simp [Stats.bump, Nat.add_assoc]

theorem Stats.bump_comm (k l : Kind) (n m : Nat) (s : Stats) :
    (s.bump k n).bump l m = (s.bump l m).bump k n := by
  cases k <;> cases l <;> simp [Stats.bump, Nat.add_right_comm]

@[simp] theorem World.bump_none {α : Type} (k : Kind) (w : World α) : w.bump k 0 = w := by
  simp [World.bump, Stats.bump_zero]

@[simp] theorem World.bump_add {α : Type} (k : Kind) (n m : Nat) (w : World α) :
    (w.bump k n).bump k m = w.bump k (n + m) := by
  simp [World.bump, Stats.bump_bump]

@[simp] theorem World.block_bump {α : Type} (k : Kind) (n : Nat) (w : World α) (a : Nat) :
    (w.bump k n).block a = w.block a := by
  cases a <;> rfl

@[simp] theorem World.heap_bump {α : Type} (k : Kind) (n : Nat) (w : World α) :
    (w.bump k n).heap = w.heap := rfl

@[simp] theorem World.stats_bump {α : Type} (k : Kind) (n : Nat) (w : World α) :
    (w.bump k n).stats = w.stats.bump k n := rfl

@[simp] theorem World.stats_setBlock {α : Type} (w : World α) (a : Nat) (b : Block α) :
    (w.setBlock a b).stats = w.stats := by
  cases a <;> rfl

@[simp] theorem World.setBlock_bump {α : Type} (k : Kind) (n : Nat) (w : World α) (a : Nat)
    (b : Block α) : (w.bump k n).setBlock a b = (w.setBlock a b).bump k n := by
  cases a <;> rfl

@[simp] theorem World.setBlock_setBlock {α : Type} (w : World α) (a : Nat) (b c : Block α) :
    (w.setBlock a b).setBlock a c = w.setBlock a c := by
  cases a with
  | zero => rfl
  | succ a => simp [World.setBlock]

theorem World.setBlock_comm {α : Type} (w : World α) (a a2 : Nat) (b c : Block α)
    (h : a ≠ a2) : (w.setBlock a b).setBlock a2 c = (w.setBlock a2 c).setBlock a b := by
  cases a with
  | zero => rfl
  | succ a =>
    cases a2 with
    | zero => rfl
    | succ a2 =>
      have h2 : a ≠ a2 := fun e => h (by rw [e])
      simp [World.setBlock, List.set_comm _ _ _ h2]

theorem World.block_setBlock_ne {α : Type} (w : World α) (a a2 : Nat) (b : Block α)
    (h : a2 ≠ a) : (w.setBlock a b).block a2 = w.block a2 := by
  cases a with
  | zero => rfl
  | succ a =>
    cases a2 with
    | zero => rfl
    | succ a2 =>
      have h2 : a ≠ a2 := fun e => h (by rw [e])
      simp [World.setBlock, World.block, List.getElem?_set_ne h2]

theorem World.block_setBlock_eq {α : Type} (w : World α) (a : Nat) (b0 b : Block α)
    (h : w.block a = some b0) (hl : b.length = b0.length) :
    (w.setBlock a b).block a = some b := by
  cases a with
  | zero =>
    simp only [World.block, Option.some.injEq] at h
    subst h
    simp only [World.setBlock, World.block]
    rw [List.length_eq_zero.mp hl]
  | succ a =>
    simp only [World.block] at h
    have hlt : a < w.heap.length := by
      by_contra hc
      rw [List.getElem?_eq_none (by omega)] at h
      simp at h
    simp [World.setBlock, World.block, List.getElem?_set_self, hlt]

theorem World.setBlock_self {α : Type} (w : World α) (a : Nat) (b : Block α)
    (h : w.block a = some b) : w.setBlock a b = w := by
  cases a with
  | zero => rfl
  | succ a =>
    simp only [World.block] at h
    have hlt : a < w.heap.length := by
      by_contra hc
      rw [List.getElem?_eq_none (by omega)] at h
      simp at h
    have hget : w.heap[a]? = some (some b) := by
      cases hh : w.heap[a]? with
      | none => rw [hh] at h; simp at h
      | some o => rw [hh] at h; simp at h; rw [h]
    cases w with
    | mk heap stats =>
      simp only [World.setBlock]
      congr 1
      apply List.ext_getElem?
      intro i
      by_cases hi : a = i
      · subst hi; rw [List.getElem?_set_self hlt]; exact hget.symm
      · simp [List.getElem?_set_ne hi]

/-! ## Single operations on slots -/

theorem load_eq {α : Type} (p : Ptr) (w : World α) (b : Block α) (x : α)
    (h : w.block p.block = some b) (hx : b[p.off]? = some (some x)) :
    load p w = .ok (x, w) := by
  simp [load, h, hx]

theorem store_eq {α : Type} (p : Ptr) (s : Option α) (w : World α) (b : Block α)
    (h : w.block p.block = some b) (hx : p.off < b.length) :
    store p s w = .ok ((), w.setBlock p.block (b.set p.off s)) := by
  simp [store, h, hx]

theorem tick_eq {α : Type} (k : Kind) (w : World α) :
    tick k w = .ok ((), w.bump k 1) := rfl

theorem getElem?_mid {β : Type} (l r : List β) (s : β) (i : Nat) (h : i = l.length) :
    (l ++ s :: r)[i]? = some s := by
  subst h; rw [List.getElem?_append_right (Nat.le_refl _)]; simp

theorem set_mid {β : Type} (l r : List β) (s t : β) (i : Nat) (h : i = l.length) :
    (l ++ s :: r).set i t = l ++ t :: r := by
  subst h; simp

theorem construct_value_eq {α : Type} (E : ElemType α) (a i : Nat) (w : World α)
    (l r : Block α) (s : Option α) (h : w.block a = some (l ++ s :: r)) (hi : i = l.length) :
    construct_value E ⟨a, i⟩ w
      = .ok ((), (w.setBlock a (l ++ some E.value_init :: r)).bump .value_construct 1) := by
  have hs := store_eq ⟨a, i⟩ (some E.value_init) w _ h (by simp [hi])
  simp only [construct_value, bind_apply, hs, ok_bind, tick_eq, set_mid l r _ _ i hi]

theorem construct_args_eq {α : Type} (a i : Nat) (x : α) (w : World α)
    (l r : Block α) (s : Option α) (h : w.block a = some (l ++ s :: r)) (hi : i = l.length) :
    construct_args ⟨a, i⟩ x w
      = .ok ((), (w.setBlock a (l ++ some x :: r)).bump .args_construct 1) := by
  have hs := store_eq ⟨a, i⟩ (some x) w _ h (by simp [hi])
  simp only [construct_args, bind_apply, hs, ok_bind, tick_eq, set_mid l r _ _ i hi]

theorem destroy_at_eq {α : Type} (a i : Nat) (x : α) (w : World α)
    (l r : Block α) (h : w.block a = some (l ++ some x :: r)) (hi : i = l.length) :
    destroy_at ⟨a, i⟩ w
      = .ok ((), (w.setBlock a (l ++ none :: r)).bump .destroy 1) := by
  have hl := load_eq ⟨a, i⟩ w _ x h (getElem?_mid l r _ i hi)
  have hs := store_eq ⟨a, i⟩ none w _ h (by simp [hi])
  simp only [destroy_at, bind_apply, hl, hs, ok_bind, tick_eq, set_mid l r _ _ i hi]

theorem assign_move_local_eq {α : Type} (a i : Nat) (x y : α) (w : World α)
    (l r : Block α) (h : w.block a = some (l ++ some y :: r)) (hi : i = l.length) :
    assign_move_local ⟨a, i⟩ x w
      = .ok ((), (w.setBlock a (l ++ some x :: r)).bump .move_assign 1) := by
  have hl := load_eq ⟨a, i⟩ w _ y h (getElem?_mid l r _ i hi)
  have hs := store_eq ⟨a, i⟩ (some x) w _ h (by simp [hi])
  simp only [assign_move_local, bind_apply, hl, hs, ok_bind, tick_eq, set_mid l r _ _ i hi]

theorem uninitialized_value_construct_n_eq {α : Type} (E : ElemType α) (a : Nat) :
    ∀ (n : Nat) (l m r : Block α) (w : World α) (i : Nat), i = l.length → m.length = n →
      w.block a = some (l ++ m ++ r) →
      uninitialized_value_construct_n E ⟨a, i⟩ n w
        = .ok ((), (w.setBlock a (l ++ List.replicate n (some E.value_init) ++ r)).bump
            .value_construct n) := by
  intro n
  induction n with
  | zero =>
    intro l m r w i _ hm h
    rw [List.length_eq_zero.mp hm] at h
    simp only [uninitialized_value_construct_n, pure_apply, List.replicate_zero,
      World.bump_none]
    rw [World.setBlock_self _ _ _ h]
  | succ n ih =>
    intro l m r w i hi hm h
    cases m with
    | nil => simp at hm
    | cons s m =>
      have h1 : w.block a = some (l ++ s :: (m ++ r)) := by simpa using h
      have hc := construct_value_eq E a i w l (m ++ r) s h1 hi
      have h2 : ((w.setBlock a (l ++ some E.value_init :: (m ++ r))).bump
          .value_construct 1).block a = some ((l ++ [some E.value_init]) ++ m ++ r) := by
        rw [World.block_bump, World.block_setBlock_eq _ _ _ _ h1 (by simp)]
        simp
      have hn := ih (l ++ [some E.value_init]) m r _ (i + 1) (by simp [hi])
        (by simpa using hm) h2
      simp only [uninitialized_value_construct_n, bind_apply, hc, ok_bind, Ptr.add, hn]
      simp [List.replicate_succ, Nat.add_comm]

theorem destroy_n_eq {α : Type} (a : Nat) :
    ∀ (xs : List α) (l r : Block α) (w : World α) (i : Nat), i = l.length →
      w.block a = some (l ++ xs.map some ++ r) →
      destroy_n ⟨a, i⟩ xs.length w
        = .ok ((), (w.setBlock a (l ++ List.replicate xs.length none ++ r)).bump
            .destroy xs.length) := by
  intro xs
  induction xs with
  | nil =>
    intro l r w i _ h
    simp only [destroy_n, pure_apply, List.length_nil, List.replicate_zero, World.bump_none]
    rw [World.setBlock_self _ _ _ (by simpa using h)]
  | cons x xs ih =>
    intro l r w i hi h
    have h1 : w.block a = some (l ++ some x :: (xs.map some ++ r)) := by simpa using h
    have hc := destroy_at_eq a i x w l (xs.map some ++ r) h1 hi
    have h2 : ((w.setBlock a (l ++ none :: (xs.map some ++ r))).bump .destroy 1).block a
        = some ((l ++ [none]) ++ xs.map some ++ r) := by
      rw [World.block_bump, World.block_setBlock_eq _ _ _ _ h1 (by simp)]
      simp
    have hn := ih (l ++ [none]) r _ (i + 1) (by simp [hi]) h2
    simp only [destroy_n, List.length_cons, bind_apply, hc, ok_bind, Ptr.add, hn]
    simp [List.replicate_succ, Nat.add_comm]

theorem read_n_eq {α : Type} (a : Nat) :
    ∀ (xs : List α) (l r : Block α) (w : World α) (i : Nat), i = l.length →
      w.block a = some (l ++ xs.map some ++ r) →
      read_n ⟨a, i⟩ xs.length w = .ok (xs, w) := by
  intro xs
  induction xs with
  | nil =>
    intro l r w i _ _
    rfl
  | cons x xs ih =>
    intro l r w i hi h
    have h1 : w.block a = some (l ++ some x :: (xs.map some ++ r)) := by simpa using h
    have hl := load_eq ⟨a, i⟩ w _ x h1 (getElem?_mid l _ _ i hi)
    have hn := ih (l ++ [some x]) r w (i + 1) (by simp [hi]) (by simpa using h)
    simp only [read_n, List.length_cons, bind_apply, hl, ok_bind, Ptr.add, hn, pure_apply]

theorem World.setBlock_four {α : Type} (w : World α) (a1 a2 : Nat) (s1 d1 s2 d2 : Block α)
    (hne : a1 ≠ a2) :
    (((w.setBlock a1 s1).setBlock a2 d1).setBlock a1 s2).setBlock a2 d2
      = (w.setBlock a1 s2).setBlock a2 d2 := by
  rw [World.setBlock_comm (w.setBlock a1 s1) a2 a1 d1 s2 (Ne.symm hne),
    World.setBlock_setBlock, World.setBlock_setBlock]

theorem construct_copy_eq {α : Type} (a1 j a2 i : Nat) (x : α) (w : World α)
    (sb l r : Block α) (s : Option α) (hs : w.block a1 = some sb)
    (hx : sb[j]? = some (some x))
    (h : w.block a2 = some (l ++ s :: r)) (hi : i = l.length) :
    construct_copy ⟨a2, i⟩ ⟨a1, j⟩ w
      = .ok ((), (w.setBlock a2 (l ++ some x :: r)).bump .copy_construct 1) := by
  have hl := load_eq ⟨a1, j⟩ w _ x hs hx
  have hst := store_eq ⟨a2, i⟩ (some x) w _ h (by simp [hi])
  simp only [construct_copy, bind_apply, hl, hst, ok_bind, tick_eq, set_mid l r _ _ i hi]

theorem assign_copy_eq {α : Type} (a1 j a2 i : Nat) (x y : α) (w : World α)
    (sb l r : Block α) (hs : w.block a1 = some sb)
    (hx : sb[j]? = some (some x))
    (h : w.block a2 = some (l ++ some y :: r)) (hi : i = l.length) :
    assign_copy ⟨a2, i⟩ ⟨a1, j⟩ w
      = .ok ((), (w.setBlock a2 (l ++ some x :: r)).bump .copy_assign 1) := by
  have hl := load_eq ⟨a1, j⟩ w _ x hs hx
  have hl2 := load_eq ⟨a2, i⟩ w _ y h (getElem?_mid l r _ i hi)
  have hst := store_eq ⟨a2, i⟩ (some x) w _ h (by simp [hi])
  simp only [assign_copy, bind_apply, hl, hl2, hst, ok_bind, tick_eq, set_mid l r _ _ i hi]

theorem construct_move_eq {α : Type} (E : ElemType α) (a1 j a2 i : Nat) (x : α) (w : World α)
    (sl sr l r : Block α) (s : Option α) (hne : a1 ≠ a2)
    (hs : w.block a1 = some (sl ++ some x :: sr)) (hj : j = sl.length)
    (h : w.block a2 = some (l ++ s :: r)) (hi : i = l.length) :
    construct_move E ⟨a2, i⟩ ⟨a1, j⟩ w
      = .ok ((), ((w.setBlock a1 (sl ++ some (E.moved_from x) :: sr)).setBlock a2
          (l ++ some x :: r)).bump .move_construct 1) := by
  have hl := load_eq ⟨a1, j⟩ w _ x hs (getElem?_mid sl sr _ j hj)
  have hst := store_eq ⟨a2, i⟩ (some x) w _ h (by simp [hi])
  have hs2 : (w.setBlock a2 (l ++ some x :: r)).block a1 = some (sl ++ some x :: sr) := by
    rw [World.block_setBlock_ne _ _ _ _ hne, hs]
  have hst2 := store_eq ⟨a1, j⟩ (some (E.moved_from x)) _ _ hs2 (by simp [hj])
  simp only [construct_move, bind_apply, hl, hst, hst2, ok_bind, tick_eq,
    set_mid l r _ _ i hi, set_mid sl sr _ _ j hj]
  rw [World.setBlock_comm _ _ _ _ _ hne]

theorem uninitialized_copy_n_eq {α : Type} (a1 a2 : Nat) (hne : a1 ≠ a2) :
    ∀ (xs : List α) (sl sr l m r : Block α) (w : World α) (j i : Nat),
      j = sl.length → i = l.length → m.length = xs.length →
      w.block a1 = some (sl ++ xs.map some ++ sr) →
      w.block a2 = some (l ++ m ++ r) →
      uninitialized_copy_n ⟨a1, j⟩ xs.length ⟨a2, i⟩ w
        = .ok ((), (w.setBlock a2 (l ++ xs.map some ++ r)).bump
            .copy_construct xs.length) := by
  intro xs
  induction xs with
  | nil =>
    intro sl sr l m r w j i _ _ hm _ h
    rw [List.length_eq_zero.mp hm] at h
    simp only [uninitialized_copy_n, pure_apply, List.length_nil, World.bump_none, List.map_nil]
    rw [World.setBlock_self _ _ _ h]
  | cons x xs ih =>
    intro sl sr l m r w j i hj hi hm hs h
    cases m with
    | nil => simp at hm
    | cons s m =>
      have hs1 : w.block a1 = some (sl ++ some x :: (xs.map some ++ sr)) := by simpa using hs
      have h1 : w.block a2 = some (l ++ s :: (m ++ r)) := by simpa using h
      have hc := construct_copy_eq a1 j a2 i x w _ l (m ++ r) s hs1
        (getElem?_mid sl _ _ j hj) h1 hi
      have h2 : ((w.setBlock a2 (l ++ some x :: (m ++ r))).bump .copy_construct 1).block a2
          = some ((l ++ [some x]) ++ m ++ r) := by
        rw [World.block_bump, World.block_setBlock_eq _ _ _ _ h1 (by simp)]
        simp
      have hs2 : ((w.setBlock a2 (l ++ some x :: (m ++ r))).bump .copy_construct 1).block a1
          = some ((sl ++ [some x]) ++ xs.map some ++ sr) := by
        rw [World.block_bump, World.block_setBlock_ne _ _ _ _ hne, hs1]
        simp
      have hn := ih (sl ++ [some x]) sr (l ++ [some x]) m r _ (j + 1) (i + 1)
        (by simp [hj]) (by simp [hi]) (by simpa using hm) hs2 h2
      simp only [uninitialized_copy_n, List.length_cons, bind_apply, hc, ok_bind, Ptr.add, hn]
      simp [Nat.add_comm]

theorem uninitialized_move_n_eq {α : Type} (E : ElemType α) (a1 a2 : Nat) (hne : a1 ≠ a2) :
    ∀ (xs : List α) (sl sr l m r : Block α) (w : World α) (j i : Nat),
      j = sl.length → i = l.length → m.length = xs.length →
      w.block a1 = some (sl ++ xs.map some ++ sr) →
      w.block a2 = some (l ++ m ++ r) →
      uninitialized_move_n E ⟨a1, j⟩ xs.length ⟨a2, i⟩ w
        = .ok ((), ((w.setBlock a1 (sl ++ (xs.map E.moved_from).map some ++ sr)).setBlock a2
            (l ++ xs.map some ++ r)).bump .move_construct xs.length) := by
  intro xs
  induction xs with
  | nil =>
    intro sl sr l m r w j i _ _ hm hs h
    rw [List.length_eq_zero.mp hm] at h
    simp only [uninitialized_move_n, pure_apply, List.length_nil, World.bump_none, List.map_nil]
    have e1 : w.setBlock a1 (sl ++ [] ++ sr) = w := World.setBlock_self _ _ _ (by simpa using hs)
    rw [e1, World.setBlock_self _ _ _ h]
  | cons x xs ih =>
    intro sl sr l m r w j i hj hi hm hs h
    cases m with
    | nil => simp at hm
    | cons s m =>
      have hs1 : w.block a1 = some (sl ++ some x :: (xs.map some ++ sr)) := by simpa using hs
      have h1 : w.block a2 = some (l ++ s :: (m ++ r)) := by simpa using h
      have hc := construct_move_eq E a1 j a2 i x w sl _ l (m ++ r) s hne hs1 hj h1 hi
      have hb1 : (w.setBlock a1 (sl ++ some (E.moved_from x) :: (xs.map some ++ sr))).block a2
          = some (l ++ s :: (m ++ r)) := by
        rw [World.block_setBlock_ne _ _ _ _ (Ne.symm hne), h1]
      have h2 : (((w.setBlock a1 (sl ++ some (E.moved_from x) :: (xs.map some ++ sr))).setBlock
          a2 (l ++ some x :: (m ++ r))).bump .move_construct 1).block a2
          = some ((l ++ [some x]) ++ m ++ r) := by
        rw [World.block_bump, World.block_setBlock_eq _ _ _ _ hb1 (by simp)]
        simp
      have hs2 : (((w.setBlock a1 (sl ++ some (E.moved_from x) :: (xs.map some ++ sr))).setBlock
          a2 (l ++ some x :: (m ++ r))).bump .move_construct 1).block a1
          = some ((sl ++ [some (E.moved_from x)]) ++ xs.map some ++ sr) := by
        rw [World.block_bump, World.block_setBlock_ne _ _ _ _ hne,
          World.block_setBlock_eq _ _ _ _ hs1 (by simp)]
        simp
      have hn := ih (sl ++ [some (E.moved_from x)]) sr (l ++ [some x]) m r _ (j + 1) (i + 1)
        (by simp [hj]) (by simp [hi]) (by simpa using hm) hs2 h2
      simp only [uninitialized_move_n, List.length_cons, bind_apply, hc, ok_bind, Ptr.add, hn]
      rw [World.setBlock_bump, World.setBlock_bump, World.bump_add,
        World.setBlock_four _ _ _ _ _ _ _ hne]
      simp [Nat.add_comm]

theorem copy_n_eq {α : Type} (a1 a2 : Nat) (hne : a1 ≠ a2) :
    ∀ (xs ys : List α) (sl sr l r : Block α) (w : World α) (j i : Nat),
      j = sl.length → i = l.length → ys.length = xs.length →
      w.block a1 = some (sl ++ xs.map some ++ sr) →
      w.block a2 = some (l ++ ys.map some ++ r) →
      copy_n ⟨a1, j⟩ xs.length ⟨a2, i⟩ w
        = .ok ((), (w.setBlock a2 (l ++ xs.map some ++ r)).bump .copy_assign xs.length) := by
  intro xs
  induction xs with
  | nil =>
    intro ys sl sr l r w j i _ _ hm _ h
    rw [List.length_eq_zero.mp hm] at h
    simp only [copy_n, pure_apply, List.length_nil, World.bump_none]
    rw [World.setBlock_self _ _ _ h]
  | cons x xs ih =>
    intro ys sl sr l r w j i hj hi hm hs h
    cases ys with
    | nil => simp at hm
    | cons y ys =>
      have hs1 : w.block a1 = some (sl ++ some x :: (xs.map some ++ sr)) := by simpa using hs
      have h1 : w.block a2 = some (l ++ some y :: (ys.map some ++ r)) := by simpa using h
      have hc := assign_copy_eq a1 j a2 i x y w _ l (ys.map some ++ r) hs1
        (getElem?_mid sl _ _ j hj) h1 hi
      have h2 : ((w.setBlock a2 (l ++ some x :: (ys.map some ++ r))).bump .copy_assign 1).block
          a2 = some ((l ++ [some x]) ++ ys.map some ++ r) := by
        rw [World.block_bump, World.block_setBlock_eq _ _ _ _ h1 (by simp)]
        simp
      have hs2 : ((w.setBlock a2 (l ++ some x :: (ys.map some ++ r))).bump .copy_assign 1).block
          a1 = some ((sl ++ [some x]) ++ xs.map some ++ sr) := by
        rw [World.block_bump, World.block_setBlock_ne _ _ _ _ hne, hs1]
        simp
      have hn := ih ys (sl ++ [some x]) sr (l ++ [some x]) r _ (j + 1) (i + 1)
        (by simp [hj]) (by simp [hi]) (by simpa using hm) hs2 h2
      simp only [copy_n, List.length_cons, bind_apply, hc, ok_bind, Ptr.add, hn]
      simp [Nat.add_comm]

theorem equal_n_eq {α : Type} [DecidableEq α] (a1 a2 : Nat) :
    ∀ (xs ys : List α) (sl sr l r : Block α) (w : World α) (j i : Nat),
      j = sl.length → i = l.length → ys.length = xs.length →
      w.block a1 = some (sl ++ xs.map some ++ sr) →
      w.block a2 = some (l ++ ys.map some ++ r) →
      equal_n ⟨a1, j⟩ xs.length ⟨a2, i⟩ w = .ok (decide (xs = ys), w) := by
  intro xs
  induction xs with
  | nil =>
    intro ys sl sr l r w j i _ _ hm _ _
    rw [List.length_eq_zero.mp hm]
    simp [equal_n, pure_apply]
  | cons x xs ih =>
    intro ys sl sr l r w j i hj hi hm hs h
    cases ys with
    | nil => simp at hm
    | cons y ys =>
      have hs1 : w.block a1 = some (sl ++ some x :: (xs.map some ++ sr)) := by simpa using hs
      have h1 : w.block a2 = some (l ++ some y :: (ys.map some ++ r)) := by simpa using h
      have hl1 := load_eq ⟨a1, j⟩ w _ x hs1 (getElem?_mid sl _ _ j hj)
      have hl2 := load_eq ⟨a2, i⟩ w _ y h1 (getElem?_mid l _ _ i hi)
      have hn := ih ys (sl ++ [some x]) sr (l ++ [some y]) r w (j + 1) (i + 1)
        (by simp [hj]) (by simp [hi]) (by simpa using hm) (by simpa using hs)
        (by simpa using h)
      simp only [equal_n, List.length_cons, bind_apply, hl1, hl2, ok_bind, Ptr.add]
      by_cases hxy : x = y
      · simp [hxy, hn]
      · simp [hxy, pure_apply]

/-! ## Allocation and release -/

theorem World.block_fresh {α : Type} (w : World α) : w.block w.fresh = none := by
  simp [World.block, World.fresh]

theorem World.ne_fresh {α : Type} (w : World α) (a : Nat) (b : Block α)
    (h : w.block a = some b) : a ≠ w.fresh := by
  intro e
  rw [e, World.block_fresh] at h
  cases h

theorem World.fresh_ne_zero {α : Type} (w : World α) : w.fresh ≠ 0 := by
  simp [World.fresh]

theorem World.block_grow_fresh {α : Type} (w : World α) (b : Block α) :
    (w.grow b).block w.fresh = some b := by
  simp [World.block, World.fresh, World.grow]

theorem World.block_grow_ne {α : Type} (w : World α) (b : Block α) (a : Nat)
    (h : a ≠ w.fresh) : (w.grow b).block a = w.block a := by
  cases a with
  | zero => rfl
  | succ a =>
    simp only [World.fresh, ne_eq, add_left_inj] at h
    simp only [World.block, World.grow]
    by_cases hlt : a < w.heap.length
    · rw [List.getElem?_append_left hlt]
    · rw [List.getElem?_eq_none (by simp; omega), List.getElem?_eq_none (by omega)]

@[simp] theorem World.stats_grow {α : Type} (w : World α) (b : Block α) :
    (w.grow b).stats = w.stats := rfl

@[simp] theorem World.stats_free {α : Type} (w : World α) (a : Nat) :
    (w.free a).stats = w.stats := by
  cases a <;> rfl

theorem World.block_free_ne {α : Type} (w : World α) (a a2 : Nat) (h : a2 ≠ a) :
    (w.free a).block a2 = w.block a2 := by
  cases a with
  | zero => rfl
  | succ a =>
    cases a2 with
    | zero => rfl
    | succ a2 =>
      have h2 : a ≠ a2 := fun e => h (by rw [e])
      simp [World.free, World.block, List.getElem?_set_ne h2]

theorem World.block_free_eq {α : Type} (w : World α) (a : Nat) (h : a ≠ 0) :
    (w.free a).block a = none := by
  cases a with
  | zero => exact absurd rfl h
  | succ a =>
    simp only [World.free, World.block]
    by_cases hlt : a < w.heap.length
    · rw [List.getElem?_set_self hlt]; rfl
    · rw [List.getElem?_eq_none (by simp; omega)]; rfl

theorem Allocate_eq {α : Type} (n : Nat) (w : World α) (h : n ≠ 0) :
    RawMemory.Allocate n w = .ok (w.fresh, w.grow (List.replicate n none)) := by
  simp [RawMemory.Allocate, h, World.fresh, World.grow]

theorem Allocate_zero {α : Type} (w : World α) :
    RawMemory.Allocate 0 w = .ok (0, w) := by
  simp [RawMemory.Allocate]

theorem create_eq {α : Type} (n : Nat) (w : World α) (h : n ≠ 0) :
    RawMemory.create n w = .ok (⟨w.fresh, n⟩, w.grow (List.replicate n none)) := by
  simp only [RawMemory.create, bind_apply, Allocate_eq n w h, ok_bind, pure_apply]

theorem create_zero {α : Type} (w : World α) :
    RawMemory.create 0 w = .ok (⟨0, 0⟩, w) := by
  simp only [RawMemory.create, bind_apply, Allocate_zero, ok_bind, pure_apply]

theorem Deallocate_eq {α : Type} (a : Nat) (b : Block α) (w : World α)
    (h : w.block a = some b) : RawMemory.Deallocate a w = .ok ((), w.free a) := by
  cases a with
  | zero => rfl
  | succ a =>
    simp only [World.block] at h
    cases hh : w.heap[a]? with
    | none => rw [hh] at h; simp at h
    | some o =>
      cases o with
      | none => rw [hh] at h; simp at h
      | some c => simp [RawMemory.Deallocate, hh, World.free]

theorem plus_eq {α : Type} (m : RawMemory) (k : Nat) (w : World α) (h : k ≤ m.capacity_) :
    m.plus k w = .ok (⟨m.buffer_, k⟩, w) := by
  simp [RawMemory.plus, bind_apply, assert, h, ok_bind, pure_apply]

theorem index_eq {α : Type} (m : RawMemory) (k : Nat) (w : World α) (h : k < m.capacity_) :
    m.index k w = .ok (⟨m.buffer_, k⟩, w) := by
  simp [RawMemory.index, bind_apply, assert, h, ok_bind, pure_apply]

theorem ptr_sub_eq {α : Type} (p : Ptr) (k : Nat) (w : World α) (h : k ≤ p.off) :
    ptr_sub p k w = .ok (⟨p.block, p.off - k⟩, w) := by
  simp [ptr_sub, h]

theorem distance_eq {α : Type} (a i j : Nat) (w : World α) (h : i ≤ j) :
    distance ⟨a, i⟩ ⟨a, j⟩ w = .ok (j - i, w) := by
  simp [distance, h]

theorem replicate_split {β : Type} (n i : Nat) (x : β) (h : i < n) :
    List.replicate n x = List.replicate i x ++ x :: List.replicate (n - i - 1) x := by
  have e : n = i + (1 + (n - i - 1)) := by omega
  conv_lhs => rw [e]
  rw [List.replicate_add, List.replicate_add]
  rfl

theorem relocate_spec {α : Type} (E : ElemType α) (by_move : Bool) (a1 a2 : Nat)
    (hne : a1 ≠ a2) (xs : List α) (sl sr l m r : Block α) (w : World α) (j i : Nat)
    (hj : j = sl.length) (hi : i = l.length) (hm : m.length = xs.length)
    (hs : w.block a1 = some (sl ++ xs.map some ++ sr))
    (h : w.block a2 = some (l ++ m ++ r)) :
    ∃ (w2 : World α) (ys : List α), relocate E by_move ⟨a1, j⟩ xs.length ⟨a2, i⟩ w = .ok ((), w2) ∧
      ys.length = xs.length ∧
      w2.block a1 = some (sl ++ ys.map some ++ sr) ∧
      w2.block a2 = some (l ++ xs.map some ++ r) ∧
      (∀ b, b ≠ a1 → b ≠ a2 → w2.block b = w.block b) ∧
      w2.stats = w.stats.bump (if by_move then .move_construct else .copy_construct)
        xs.length := by
  cases by_move with
  | true =>
    have hrun : relocate E true ⟨a1, j⟩ xs.length ⟨a2, i⟩ w = _ :=
      uninitialized_move_n_eq E a1 a2 hne xs sl sr l m r w j i hj hi hm hs h
    refine ⟨_, xs.map E.moved_from, hrun, by simp, ?_, ?_, ?_, ?_⟩
    · rw [World.block_bump, World.block_setBlock_ne _ _ _ _ hne,
        World.block_setBlock_eq _ _ _ _ hs (by simp)]
    · have hb : (w.setBlock a1 (sl ++ (xs.map E.moved_from).map some ++ sr)).block a2
          = some (l ++ m ++ r) := by
        rw [World.block_setBlock_ne _ _ _ _ (Ne.symm hne), h]
      rw [World.block_bump, World.block_setBlock_eq _ _ _ _ hb (by simp [hm])]
    · intro b hb1 hb2
      rw [World.block_bump, World.block_setBlock_ne _ _ _ _ hb2,
        World.block_setBlock_ne _ _ _ _ hb1]
    · simp
  | false =>
    have hrun : relocate E false ⟨a1, j⟩ xs.length ⟨a2, i⟩ w = _ :=
      uninitialized_copy_n_eq a1 a2 hne xs sl sr l m r w j i hj hi hm hs h
    refine ⟨_, xs, hrun, rfl, ?_, ?_, ?_, ?_⟩
    · rw [World.block_bump, World.block_setBlock_ne _ _ _ _ hne, hs]
    · rw [World.block_bump, World.block_setBlock_eq _ _ _ _ h (by simp [hm])]
    · intro b _ hb2
      rw [World.block_bump, World.block_setBlock_ne _ _ _ _ hb2]
    · simp

theorem EmplaceBack_relocate {α β : Type} (E : ElemType α) (first : Ptr) (n : Nat)
    (d_first : Ptr) (k : Exec α β) :
    (if (E.is_nothrow_move_constructible || !E.is_copy_constructible) = true then
        (uninitialized_move_n E first n d_first >>= fun _ => k)
      else if E.is_copy_constructible = true then
        (uninitialized_copy_n first n d_first >>= fun _ => k)
      else (pure PUnit.unit >>= fun _ => k))
      = (relocate E (E.is_nothrow_move_constructible || !E.is_copy_constructible)
          first n d_first >>= fun _ => k) := by
  cases hc : E.is_copy_constructible <;> cases hm : E.is_nothrow_move_constructible <;>
    simp [relocate]

theorem Reserve_relocate {α β : Type} (E : ElemType α) (first : Ptr) (n : Nat)
    (d_first : Ptr) (k : Exec α β) :
    (if (!E.is_copy_constructible || E.is_nothrow_move_constructible) = true then
        (uninitialized_move_n E first n d_first >>= fun _ => k)
      else (uninitialized_copy_n first n d_first >>= fun _ => k))
      = (relocate E (!E.is_copy_constructible || E.is_nothrow_move_constructible)
          first n d_first >>= fun _ => k) := by
  cases hc : E.is_copy_constructible <;> cases hm : E.is_nothrow_move_constructible <;>
    simp [relocate]

/-! ## Steps, stated by their effect on the blocks -/

theorem World.upd_spec {α : Type} (w : World α) (a : Nat) (b0 b : Block α) (k : Kind) (n : Nat)
    (h : w.block a = some b0) (hl : b.length = b0.length) :
    ((w.setBlock a b).bump k n).block a = some b ∧
      (∀ c, c ≠ a → ((w.setBlock a b).bump k n).block c = w.block c) ∧
      ((w.setBlock a b).bump k n).stats = w.stats.bump k n := by
  refine ⟨?_, ?_, by simp⟩
  · rw [World.block_bump, World.block_setBlock_eq _ _ _ _ h hl]
  · intro c hc
    rw [World.block_bump, World.block_setBlock_ne _ _ _ _ hc]

theorem create_spec {α : Type} (n : Nat) (w : World α) (h : n ≠ 0) :
    ∃ w1 : World α, RawMemory.create n w = .ok (⟨w.fresh, n⟩, w1) ∧
      w1.block w.fresh = some (List.replicate n none) ∧
      (∀ c, c ≠ w.fresh → w1.block c = w.block c) ∧ w1.stats = w.stats :=
  ⟨_, create_eq n w h, World.block_grow_fresh _ _, fun c hc => World.block_grow_ne _ _ c hc, rfl⟩

theorem Deallocate_spec {α : Type} (a : Nat) (b : Block α) (w : World α)
    (h : w.block a = some b) :
    ∃ w1 : World α, RawMemory.Deallocate a w = .ok ((), w1) ∧
      (∀ c, c ≠ a → w1.block c = w.block c) ∧ w1.stats = w.stats :=
  ⟨_, Deallocate_eq a b w h, fun c hc => World.block_free_ne _ _ c hc, by simp⟩

theorem construct_args_spec {α : Type} (a i : Nat) (x : α) (w : World α)
    (l r : Block α) (s : Option α) (h : w.block a = some (l ++ s :: r)) (hi : i = l.length) :
    ∃ w1 : World α, construct_args ⟨a, i⟩ x w = .ok ((), w1) ∧
      w1.block a = some (l ++ some x :: r) ∧
      (∀ c, c ≠ a → w1.block c = w.block c) ∧ w1.stats = w.stats.bump .args_construct 1 :=
  ⟨_, construct_args_eq a i x w l r s h hi, World.upd_spec w a _ _ _ _ h (by simp)⟩

theorem destroy_at_spec {α : Type} (a i : Nat) (x : α) (w : World α)
    (l r : Block α) (h : w.block a = some (l ++ some x :: r)) (hi : i = l.length) :
    ∃ w1 : World α, destroy_at ⟨a, i⟩ w = .ok ((), w1) ∧
      w1.block a = some (l ++ none :: r) ∧
      (∀ c, c ≠ a → w1.block c = w.block c) ∧ w1.stats = w.stats.bump .destroy 1 :=
  ⟨_, destroy_at_eq a i x w l r h hi, World.upd_spec w a _ _ _ _ h (by simp)⟩

theorem assign_move_local_spec {α : Type} (a i : Nat) (x y : α) (w : World α)
    (l r : Block α) (h : w.block a = some (l ++ some y :: r)) (hi : i = l.length) :
    ∃ w1 : World α, assign_move_local ⟨a, i⟩ x w = .ok ((), w1) ∧
      w1.block a = some (l ++ some x :: r) ∧
      (∀ c, c ≠ a → w1.block c = w.block c) ∧ w1.stats = w.stats.bump .move_assign 1 :=
  ⟨_, assign_move_local_eq a i x y w l r h hi, World.upd_spec w a _ _ _ _ h (by simp)⟩

theorem destroy_n_spec {α : Type} (a : Nat) (xs : List α) (l r : Block α) (w : World α)
    (i n : Nat) (hi : i = l.length) (hn : n = xs.length)
    (h : w.block a = some (l ++ xs.map some ++ r)) :
    ∃ w1 : World α, destroy_n ⟨a, i⟩ n w = .ok ((), w1) ∧
      w1.block a = some (l ++ List.replicate n none ++ r) ∧
      (∀ c, c ≠ a → w1.block c = w.block c) ∧ w1.stats = w.stats.bump .destroy n := by
  subst hn
  exact ⟨_, destroy_n_eq a xs l r w i hi h, World.upd_spec w a _ _ _ _ h (by simp)⟩

theorem uninitialized_value_construct_n_spec {α : Type} (E : ElemType α) (a : Nat) (n : Nat)
    (l m r : Block α) (w : World α) (i : Nat) (hi : i = l.length) (hm : m.length = n)
    (h : w.block a = some (l ++ m ++ r)) :
    ∃ w1 : World α, uninitialized_value_construct_n E ⟨a, i⟩ n w = .ok ((), w1) ∧
      w1.block a = some (l ++ List.replicate n (some E.value_init) ++ r) ∧
      (∀ c, c ≠ a → w1.block c = w.block c) ∧
      w1.stats = w.stats.bump .value_construct n :=
  ⟨_, uninitialized_value_construct_n_eq E a n l m r w i hi hm h,
    World.upd_spec w a _ _ _ _ h (by simp [hm])⟩

theorem uninitialized_copy_n_spec {α : Type} (a1 a2 : Nat) (hne : a1 ≠ a2) (xs : List α)
    (sl sr l m r : Block α) (w : World α) (j i n : Nat) (hj : j = sl.length)
    (hi : i = l.length) (hn : n = xs.length) (hm : m.length = xs.length)
    (hs : w.block a1 = some (sl ++ xs.map some ++ sr))
    (h : w.block a2 = some (l ++ m ++ r)) :
    ∃ w1 : World α, uninitialized_copy_n ⟨a1, j⟩ n ⟨a2, i⟩ w = .ok ((), w1) ∧
      w1.block a2 = some (l ++ xs.map some ++ r) ∧
      (∀ c, c ≠ a2 → w1.block c = w.block c) ∧
      w1.stats = w.stats.bump .copy_construct n := by
  subst hn
  exact ⟨_, uninitialized_copy_n_eq a1 a2 hne xs sl sr l m r w j i hj hi hm hs h,
    World.upd_spec w a2 _ _ _ _ h (by simp [hm])⟩

theorem copy_n_spec {α : Type} (a1 a2 : Nat) (hne : a1 ≠ a2) (xs ys : List α)
    (sl sr l r : Block α) (w : World α) (j i n : Nat) (hj : j = sl.length)
    (hi : i = l.length) (hn : n = xs.length) (hm : ys.length = xs.length)
    (hs : w.block a1 = some (sl ++ xs.map some ++ sr))
    (h : w.block a2 = some (l ++ ys.map some ++ r)) :
    ∃ w1 : World α, copy_n ⟨a1, j⟩ n ⟨a2, i⟩ w = .ok ((), w1) ∧
      w1.block a2 = some (l ++ xs.map some ++ r) ∧
      (∀ c, c ≠ a2 → w1.block c = w.block c) ∧
      w1.stats = w.stats.bump .copy_assign n := by
  subst hn
  exact ⟨_, copy_n_eq a1 a2 hne xs ys sl sr l r w j i hj hi hm hs h,
    World.upd_spec w a2 _ _ _ _ h (by simp [hm])⟩

theorem EmplaceBack_spec {α : Type} (E : ElemType α) (v : Vector) (x : α) (xs : List α)
    (w : World α) (h : v.Owns w xs) :
    ∃ (v2 : Vector) (w2 : World α),
      v.EmplaceBack E x w = .ok ((v2, ⟨v2.data_.buffer_, xs.length⟩), w2) ∧
      v2.Owns w2 (xs ++ [x]) ∧
      v2.data_.capacity_ = (if xs.length = v.data_.capacity_ then
        (if v.data_.capacity_ = 0 then 1 else 2 * v.data_.capacity_) else v.data_.capacity_) ∧
      w.Frame w2 v.data_.buffer_ ∧
      (v2.data_.buffer_ = v.data_.buffer_ ∨ w.block v2.data_.buffer_ = none) := by
  obtain ⟨⟨buf, cap⟩, size⟩ := v
  obtain ⟨hsz, hle, hb⟩ := h
  simp only at hsz hle hb
  subst hsz
  by_cases hfull : xs.length = cap
  · subst hfull
    have hb0 : w.block buf = some (xs.map some) := by simpa using hb
    obtain ⟨nc, hncd⟩ : ∃ nc, nc = (if xs.length = 0 then 1 else xs.length * 2) := ⟨_, rfl⟩
    have hnc : nc ≠ 0 := by rw [hncd]; split <;> omega
    have hlt : xs.length < nc := by rw [hncd]; split <;> omega
    have hne : buf ≠ w.fresh := World.ne_fresh w buf _ hb0
    obtain ⟨w1, hcr, hn1, hf1, -⟩ := create_spec (α := α) nc w hnc
    have hp := plus_eq (α := α) ⟨w.fresh, nc⟩ xs.length w1 (Nat.le_of_lt hlt)
    rw [replicate_split _ _ _ hlt] at hn1
    obtain ⟨w2, hca, hn2, hf2, -⟩ := construct_args_spec w.fresh xs.length x w1 _ _ none
      hn1 (by simp)
    obtain ⟨w3, ys, hrel, hys, ho3, hn3, hf3, -⟩ :=
      relocate_spec E (E.is_nothrow_move_constructible || !E.is_copy_constructible)
        buf w.fresh hne xs [] [] [] (List.replicate xs.length none)
        (some x :: List.replicate (nc - xs.length - 1) none) w2 0 0 rfl rfl (by simp)
        (by rw [hf2 _ hne, hf1 _ hne, hb0]; simp) (by rw [hn2]; simp)
    obtain ⟨w4, hdn, ho4, hf4, -⟩ := destroy_n_spec buf ys [] [] w3 0 xs.length rfl hys.symm ho3
    obtain ⟨w5, hde, hf5, -⟩ := Deallocate_spec buf _ w4 ho4
    have hrun : Vector.EmplaceBack E ⟨⟨buf, xs.length⟩, xs.length⟩ x w
        = .ok ((⟨⟨w.fresh, nc⟩, xs.length + 1⟩, ⟨w.fresh, xs.length⟩), w5) := by
      simp only [Vector.EmplaceBack, Vector.Capacity, RawMemory.Capacity, if_true]
      rw [← hncd]
      simp only [EmplaceBack_relocate]
      simp only [bind_apply, hcr, ok_bind, hp, hca,
        RawMemory.GetAddress, hrel, RawMemory.Swap, hdn, RawMemory.destructor,
        hde, pure_apply, Vector.end_, Ptr.add]
      rw [ptr_sub_eq _ _ _ (by simp)]
      simp [ok_bind]
    refine ⟨_, _, hrun, ?_, ?_, ?_, Or.inr (World.block_fresh w)⟩
    · refine ⟨by simp, by simp; omega, ?_⟩
      simp only
      rw [hf5 _ (Ne.symm hne), hf4 _ (Ne.symm hne), hn3]
      simp
      omega
    · simp only [hncd, if_true]
      split <;> omega
    · intro b hb1 hb2
      have hbf : b ≠ w.fresh := by
        intro e
        rw [e, World.block_fresh] at hb2
        exact hb2 rfl
      rw [hf5 _ hb1, hf4 _ hb1, hf3 b hb1 hbf, hf2 _ hbf, hf1 _ hbf]
  · have hlt : xs.length < cap := by omega
    have hb1 : w.block buf
        = some (xs.map some ++ none :: List.replicate (cap - xs.length - 1) none) := by
      rw [hb, replicate_split (cap - xs.length) 0 none (by omega)]
      simp
    have hp := plus_eq (α := α) ⟨buf, cap⟩ xs.length w hle
    obtain ⟨w1, hc, hn1, hf1, -⟩ := construct_args_spec buf xs.length x w (xs.map some) _ none
      hb1 (by simp)
    have hrun : Vector.EmplaceBack E ⟨⟨buf, cap⟩, xs.length⟩ x w
        = .ok ((⟨⟨buf, cap⟩, xs.length + 1⟩, ⟨buf, xs.length⟩), w1) := by
      simp only [Vector.EmplaceBack, Vector.Capacity, RawMemory.Capacity, hfull, if_false,
        bind_apply, hp, ok_bind, hc, pure_apply, Vector.end_, RawMemory.GetAddress, Ptr.add]
      rw [ptr_sub_eq _ _ _ (by simp)]
      simp [ok_bind]
    refine ⟨_, _, hrun, ?_, ?_, ?_, Or.inl rfl⟩
    · refine ⟨by simp, by simp; omega, ?_⟩
      simp only
      rw [hn1]
      simp
      omega
    · simp [hfull]
    · intro b hb2 _
      rw [hf1 _ hb2]

/-! ## Observers -/

theorem contents_eq {α : Type} (v : Vector) (xs : List α) (w : World α) (h : v.Owns w xs) :
    v.contents w = .ok (xs, w) := by
  obtain ⟨⟨buf, cap⟩, size⟩ := v
  obtain ⟨hsz, -, hb⟩ := h
  simp only at hsz hb
  subst hsz
  have hr := read_n_eq buf xs [] _ w 0 rfl (by simpa using hb)
  simp only [Vector.contents, Vector.begin, Vector.end_, RawMemory.GetAddress, Ptr.add,
    bind_apply, distance_eq buf 0 (0 + xs.length) w (by omega), ok_bind]
  simpa using hr

theorem Owns_default {α : Type} (w : World α) : Vector.default.Owns w ([] : List α) := by
  refine ⟨rfl, by simp, ?_⟩
  simp [Vector.default, RawMemory.default, World.block]

theorem load_Owns {α : Type} (v : Vector) (xs : List α) (w : World α) (h : v.Owns w xs)
    (i : Nat) (x : α) (hx : xs[i]? = some x) :
    load ⟨v.data_.buffer_, i⟩ w = .ok (x, w) := by
  obtain ⟨-, -, hb⟩ := h
  refine load_eq _ w _ x hb ?_
  have hi : i < xs.length := by
    by_contra hc
    rw [List.getElem?_eq_none (by omega)] at hx
    cases hx
  rw [List.getElem?_append_left (by simpa using hi)]
  simp [hx]

theorem subscript_eq {α : Type} (v : Vector) (xs : List α) (w : World α) (h : v.Owns w xs)
    (i : Nat) (hi : i < xs.length) :
    v.subscript i w = .ok (⟨v.data_.buffer_, i⟩, w) := by
  obtain ⟨hsz, hle, -⟩ := h
  have h1 : i < v.size_ := by omega
  simp only [Vector.subscript, bind_apply, assert, h1, if_true, ok_bind]
  exact index_eq _ _ _ (by omega)

theorem get_eq {α : Type} (v : Vector) (xs : List α) (w : World α) (h : v.Owns w xs)
    (i : Nat) (x : α) (hx : xs[i]? = some x) :
    v.get i w = .ok (x, w) := by
  have hi : i < xs.length := by
    by_contra hc
    rw [List.getElem?_eq_none (by omega)] at hx
    cases hx
  simp only [Vector.get, bind_apply, subscript_eq v xs w h i hi, ok_bind,
    load_Owns v xs w h i x hx]

theorem PushBack_spec {α : Type} (E : ElemType α) (v : Vector) (x : α) (xs : List α)
    (w : World α) (h : v.Owns w xs) :
    ∃ (v2 : Vector) (w2 : World α),
      v.PushBack E x w = .ok (v2, w2) ∧
      v2.Owns w2 (xs ++ [x]) ∧
      v2.data_.capacity_ = (if xs.length = v.data_.capacity_ then
        (if v.data_.capacity_ = 0 then 1 else 2 * v.data_.capacity_) else v.data_.capacity_) ∧
      w.Frame w2 v.data_.buffer_ ∧
      (v2.data_.buffer_ = v.data_.buffer_ ∨ w.block v2.data_.buffer_ = none) := by
  obtain ⟨v2, w2, hrun, hrest⟩ := EmplaceBack_spec E v x xs w h
  refine ⟨v2, w2, ?_, hrest⟩
  simp only [Vector.PushBack, bind_apply, hrun, ok_bind, pure_apply]

theorem push_all_spec {α : Type} (E : ElemType α) :
    ∀ (xs ys : List α) (v : Vector) (w : World α), v.Owns w ys →
      ∃ (v2 : Vector) (w2 : World α), push_all E v xs w = .ok (v2, w2) ∧
        v2.Owns w2 (ys ++ xs) := by
  intro xs
  induction xs with
  | nil =>
    intro ys v w h
    exact ⟨v, w, rfl, by simpa using h⟩
  | cons x xs ih =>
    intro ys v w h
    obtain ⟨v1, w1, hrun, ho, -⟩ := PushBack_spec E v x ys w h
    obtain ⟨v2, w2, hrun2, ho2⟩ := ih (ys ++ [x]) v1 w1 ho
    refine ⟨v2, w2, ?_, by simpa using ho2⟩
    simp only [push_all, bind_apply, hrun, ok_bind, hrun2]

theorem push_all_append {α : Type} (E : ElemType α) :
    ∀ (xs : List α) (x : α) (v v1 v2 : Vector) (w w1 w2 : World α),
      push_all E v xs w = .ok (v1, w1) → v1.PushBack E x w1 = .ok (v2, w2) →
      push_all E v (xs ++ [x]) w = .ok (v2, w2) := by
  intro xs
  induction xs with
  | nil =>
    intro x v v1 v2 w w1 w2 h1 h2
    simp only [push_all, pure_apply, Except.ok.injEq, Prod.mk.injEq] at h1
    obtain ⟨rfl, rfl⟩ := h1
    simp only [List.nil_append, push_all, bind_apply, h2, ok_bind, pure_apply]
  | cons y xs ih =>
    intro x v v1 v2 w w1 w2 h1 h2
    simp only [push_all, bind_apply] at h1
    cases hp : v.PushBack E y w with
    | error e => rw [hp] at h1; cases h1
    | ok r =>
      rw [hp, ok_bind] at h1
      have := ih x r.1 v1 v2 r.2 w1 w2 h1 h2
      simp only [List.cons_append, push_all, bind_apply, hp, ok_bind]
      exact this

theorem replicate_split_add {β : Type} (n i : Nat) (x : β) (h : i ≤ n) :
    List.replicate n x = List.replicate i x ++ List.replicate (n - i) x := by
  have e : n = i + (n - i) := by omega
  conv_lhs => rw [e]
  rw [List.replicate_add]

theorem Reserve_spec {α : Type} (E : ElemType α) (v : Vector) (n : Nat) (xs : List α)
    (w : World α) (h : v.Owns w xs) :
    ∃ (v2 : Vector) (w2 : World α),
      v.Reserve E n w = .ok (v2, w2) ∧
      v2.Owns w2 xs ∧
      v2.data_.capacity_ = (if n ≤ v.data_.capacity_ then v.data_.capacity_ else n) ∧
      (n ≤ v.data_.capacity_ → v2 = v ∧ w2 = w) ∧
      w.Frame w2 v.data_.buffer_ ∧
      (v2.data_.buffer_ = v.data_.buffer_ ∨ w.block v2.data_.buffer_ = none) ∧
      w2.stats = (if n ≤ v.data_.capacity_ then w.stats else
        (w.stats.bump (if (!E.is_copy_constructible || E.is_nothrow_move_constructible) = true
          then .move_construct else .copy_construct) xs.length).bump .destroy xs.length) := by
  obtain ⟨⟨buf, cap⟩, size⟩ := v
  obtain ⟨hsz, hle, hb⟩ := h
  simp only at hsz hle hb
  subst hsz
  by_cases hn : n ≤ cap
  · have hrun : Vector.Reserve E ⟨⟨buf, cap⟩, xs.length⟩ n w
        = .ok (⟨⟨buf, cap⟩, xs.length⟩, w) := by
      simp only [Vector.Reserve, RawMemory.Capacity, hn, if_true, pure_apply]
    refine ⟨_, _, hrun, ⟨rfl, hle, hb⟩, by simp [hn], fun _ => ⟨rfl, rfl⟩, ?_, Or.inl rfl,
      by simp [hn]⟩
    intro b _ _
    rfl
  · have hn0 : n ≠ 0 := by omega
    have hlt : xs.length ≤ n := by omega
    have hne : buf ≠ w.fresh := World.ne_fresh w buf _ hb
    obtain ⟨w1, hcr, hn1, hf1, hs1⟩ := create_spec (α := α) n w hn0
    rw [replicate_split_add _ _ _ hlt] at hn1
    obtain ⟨w3, ys, hrel, hys, ho3, hn3, hf3, hs3⟩ :=
      relocate_spec E (!E.is_copy_constructible || E.is_nothrow_move_constructible)
        buf w.fresh hne xs [] (List.replicate (cap - xs.length) none) []
        (List.replicate xs.length none)
        (List.replicate (n - xs.length) none) w1 0 0 rfl rfl (by simp)
        (by rw [hf1 _ hne, hb]; simp) (by rw [hn1]; simp)
    obtain ⟨w4, hdn, ho4, hf4, hs4⟩ := destroy_n_spec buf ys [] _ w3 0 xs.length rfl hys.symm ho3
    obtain ⟨w5, hde, hf5, hs5⟩ := Deallocate_spec buf _ w4 ho4
    have hrun : Vector.Reserve E ⟨⟨buf, cap⟩, xs.length⟩ n w
        = .ok (⟨⟨w.fresh, n⟩, xs.length⟩, w5) := by
      simp only [Vector.Reserve, RawMemory.Capacity, hn, if_false]
      simp only [Reserve_relocate]
      simp only [bind_apply, hcr, ok_bind, RawMemory.GetAddress, hrel, RawMemory.Swap, hdn,
        RawMemory.destructor, hde, pure_apply]
    refine ⟨_, _, hrun, ?_, by simp [hn], fun hc => absurd hc hn, ?_,
      Or.inr (World.block_fresh w), ?_⟩
    · refine ⟨rfl, hlt, ?_⟩
      simp only
      rw [hf5 _ (Ne.symm hne), hf4 _ (Ne.symm hne), hn3]
      simp
    · intro b hb1 hb2
      have hbf : b ≠ w.fresh := by
        intro e
        rw [e, World.block_fresh] at hb2
        exact hb2 rfl
      rw [hf5 _ hb1, hf4 _ hb1, hf3 b hb1 hbf, hf1 _ hbf]
    · rw [hs5, hs4, hs3, hs1]
      simp [hn]

theorem Resize_spec {α : Type} (E : ElemType α) (v : Vector) (n : Nat) (xs : List α)
    (w : World α) (h : v.Owns w xs) :
    ∃ (v2 : Vector) (w2 : World α),
      v.Resize E n w = .ok (v2, w2) ∧
      v2.Owns w2 (xs.take n ++ List.replicate (n - xs.length) E.value_init) ∧
      v2.data_.capacity_ = (if n ≤ v.data_.capacity_ then v.data_.capacity_ else n) ∧
      (n ≤ v.data_.capacity_ → v2.data_ = v.data_) ∧
      w.Frame w2 v.data_.buffer_ ∧
      (v2.data_.buffer_ = v.data_.buffer_ ∨ w.block v2.data_.buffer_ = none) ∧
      w2.stats = (if n ≤ xs.length then w.stats.bump .destroy (xs.length - n) else
        (if n ≤ v.data_.capacity_ then w.stats else
          (w.stats.bump (if (!E.is_copy_constructible || E.is_nothrow_move_constructible) = true
            then .move_construct else .copy_construct) xs.length).bump .destroy xs.length).bump
          .value_construct (n - xs.length)) := by
  obtain ⟨v1, w1, hres, ho1, hcap1, hsame1, hfr1, hbuf1, hs1⟩ := Reserve_spec E v n xs w h
  have hsz1 : v1.size_ = xs.length := ho1.1
  have hle1 : xs.length ≤ v1.data_.capacity_ := ho1.2.1
  have hb1 := ho1.2.2
  have hcapn : n ≤ v1.data_.capacity_ := by rw [hcap1]; split <;> omega
  by_cases hn : n ≤ xs.length
  · have hnc : n ≤ v.data_.capacity_ := Nat.le_trans hn h.2.1
    obtain ⟨hv, hw⟩ := hsame1 hnc
    rw [hv, hw] at hres hb1
    rw [hv] at hcapn hsz1
    have hp := plus_eq (α := α) v.data_ n w hcapn
    have hsplit : xs.map some = (xs.take n).map some ++ (xs.drop n).map some := by
      rw [← List.map_append, List.take_append_drop]
    rw [hsplit] at hb1
    obtain ⟨w2, hdn, ho2, hf2, hs2⟩ := destroy_n_spec v.data_.buffer_ (xs.drop n)
      ((xs.take n).map some) _ w n (xs.length - n)
      (by simp [Nat.min_eq_left hn]) (by simp) hb1
    have hrun : v.Resize E n w = .ok (⟨v.data_, n⟩, w2) := by
      simp only [Vector.Resize, bind_apply, hres, ok_bind, hsz1, hn, if_true, hp, hdn,
        pure_apply]
    refine ⟨_, _, hrun, ?_, by simp [hnc], fun _ => rfl, ?_, Or.inl rfl, ?_⟩
    · refine ⟨by simp [Nat.min_eq_left hn]; omega, by simp; omega, ?_⟩
      simp only
      rw [ho2]
      simp only [Nat.sub_eq_zero_of_le hn, List.replicate_zero, List.append_nil,
        List.length_take, Nat.min_eq_left hn, List.append_assoc, ← List.replicate_add]
      have hlec := h.2.1
      congr 3
      omega
    · intro b hb2 _
      exact hf2 b hb2
    · rw [hs2]; simp [hn]
  · have hlt : xs.length < n := by omega
    have hp := plus_eq (α := α) v1.data_ xs.length w1 hle1
    have hsplit : List.replicate (v1.data_.capacity_ - xs.length) (none : Option α)
        = List.replicate (n - xs.length) none
          ++ List.replicate (v1.data_.capacity_ - n) none := by
      rw [← List.replicate_add]
      congr 1
      omega
    rw [hsplit, ← List.append_assoc] at hb1
    obtain ⟨w2, huv, ho2, hf2, hs2⟩ := uninitialized_value_construct_n_spec E v1.data_.buffer_
      (n - xs.length) (xs.map some) _ _ w1 xs.length (by simp) (by simp) hb1
    have hrun : v.Resize E n w = .ok (⟨v1.data_, n⟩, w2) := by
      simp only [Vector.Resize, bind_apply, hres, ok_bind, hsz1, hn, if_false, hp, huv,
        pure_apply]
    refine ⟨_, _, hrun, ?_, hcap1, fun hc => by rw [(hsame1 hc).1], ?_, hbuf1, ?_⟩
    · refine ⟨by simp [List.take_of_length_le (Nat.le_of_lt hlt)]; omega,
        by simp [Nat.min_eq_right (Nat.le_of_lt hlt)]; omega, ?_⟩
      simp only
      rw [ho2]
      simp [List.take_of_length_le (Nat.le_of_lt hlt)]
      congr 1
      omega
    · intro b hb2 hb3
      by_cases hbn : b = v1.data_.buffer_
      · rcases hbuf1 with he | hnone
        · exact absurd (hbn.trans he) hb2
        · rw [hbn] at hb3
          exact absurd hnone hb3
      · rw [hf2 b hbn, hfr1 b hb2 hb3]
    · rw [hs2, hs1]; simp [hn]

/-! ## Moves inside one block -/

theorem getElem?_mid1 {β : Type} (l r : List β) (s t : β) (i : Nat) (h : i = l.length + 1) :
    (l ++ s :: t :: r)[i]? = some t := by
  have e : l ++ s :: t :: r = (l ++ [s]) ++ t :: r := by simp
  rw [e]
  exact getElem?_mid _ _ _ _ (by simp [h])

theorem set_mid1 {β : Type} (l r : List β) (s t u : β) (i : Nat) (h : i = l.length + 1) :
    (l ++ s :: t :: r).set i u = l ++ s :: u :: r := by
  have e : l ++ s :: t :: r = (l ++ [s]) ++ t :: r := by simp
  rw [e, set_mid _ _ _ _ _ (by simp [h])]
  simp

theorem assign_move_down_eq {α : Type} (E : ElemType α) (a i k : Nat) (x y : α) (w : World α)
    (l r : Block α) (h : w.block a = some (l ++ some y :: some x :: r)) (hi : i = l.length)
    (hk : k = l.length + 1) :
    assign_move E ⟨a, i⟩ ⟨a, k⟩ w
      = .ok ((), (w.setBlock a (l ++ some x :: some (E.moved_from x) :: r)).bump
          .move_assign 1) := by
  have hl1 := load_eq ⟨a, k⟩ w _ x h (getElem?_mid1 l r _ _ k hk)
  have hl2 := load_eq ⟨a, i⟩ w _ y h (getElem?_mid l _ _ i hi)
  have hs1 := store_eq ⟨a, i⟩ (some x) w _ h (by simp [hi])
  rw [set_mid l _ _ _ i hi] at hs1
  have hb2 : (w.setBlock a (l ++ some x :: some x :: r)).block a
      = some (l ++ some x :: some x :: r) :=
    World.block_setBlock_eq _ _ _ _ h (by simp)
  have hs2 := store_eq ⟨a, k⟩ (some (E.moved_from x)) _ _ hb2 (by simp [hk])
  rw [set_mid1 l r _ _ _ k hk] at hs2
  simp only [assign_move, bind_apply, hl1, hl2, hs1, hs2, ok_bind, tick_eq,
    World.setBlock_setBlock]

theorem assign_move_up_eq {α : Type} (E : ElemType α) (a i k : Nat) (x y : α) (w : World α)
    (l r : Block α) (h : w.block a = some (l ++ some x :: some y :: r)) (hi : i = l.length)
    (hk : k = l.length + 1) :
    assign_move E ⟨a, k⟩ ⟨a, i⟩ w
      = .ok ((), (w.setBlock a (l ++ some (E.moved_from x) :: some x :: r)).bump
          .move_assign 1) := by
  have hl1 := load_eq ⟨a, i⟩ w _ x h (getElem?_mid l _ _ i hi)
  have hl2 := load_eq ⟨a, k⟩ w _ y h (getElem?_mid1 l r _ _ k hk)
  have hs1 := store_eq ⟨a, k⟩ (some x) w _ h (by simp [hk])
  rw [set_mid1 l r _ _ _ k hk] at hs1
  have hb2 : (w.setBlock a (l ++ some x :: some x :: r)).block a
      = some (l ++ some x :: some x :: r) :=
    World.block_setBlock_eq _ _ _ _ h (by simp)
  have hs2 := store_eq ⟨a, i⟩ (some (E.moved_from x)) _ _ hb2 (by simp [hi])
  rw [set_mid l _ _ _ i hi] at hs2
  simp only [assign_move, bind_apply, hl1, hl2, hs1, hs2, ok_bind, tick_eq,
    World.setBlock_setBlock]

theorem construct_move_up_eq {α : Type} (E : ElemType α) (a i k : Nat) (x : α) (w : World α)
    (l r : Block α) (s : Option α) (h : w.block a = some (l ++ some x :: s :: r))
    (hi : i = l.length) (hk : k = l.length + 1) :
    construct_move E ⟨a, k⟩ ⟨a, i⟩ w
      = .ok ((), (w.setBlock a (l ++ some (E.moved_from x) :: some x :: r)).bump
          .move_construct 1) := by
  have hl1 := load_eq ⟨a, i⟩ w _ x h (getElem?_mid l _ _ i hi)
  have hs1 := store_eq ⟨a, k⟩ (some x) w _ h (by simp [hk])
  rw [set_mid1 l r _ _ _ k hk] at hs1
  have hb2 : (w.setBlock a (l ++ some x :: some x :: r)).block a
      = some (l ++ some x :: some x :: r) :=
    World.block_setBlock_eq _ _ _ _ h (by simp)
  have hs2 := store_eq ⟨a, i⟩ (some (E.moved_from x)) _ _ hb2 (by simp [hi])
  rw [set_mid l _ _ _ i hi] at hs2
  simp only [construct_move, bind_apply, hl1, hs1, hs2, ok_bind, tick_eq,
    World.setBlock_setBlock]

theorem move_n_down_eq {α : Type} (E : ElemType α) (a : Nat) :
    ∀ (xs : List α) (l r : Block α) (j : α) (w : World α) (i k : Nat),
      i = l.length → k = i + 1 →
      w.block a = some (l ++ some j :: (xs.map some ++ r)) →
      ∃ j2 : α, move_n E ⟨a, k⟩ xs.length ⟨a, i⟩ w
        = .ok ((), (w.setBlock a (l ++ xs.map some ++ some j2 :: r)).bump
            .move_assign xs.length) := by
  intro xs
  induction xs with
  | nil =>
    intro l r j w i k _ _ h
    refine ⟨j, ?_⟩
    simp only [move_n, List.length_nil, pure_apply, World.bump_none, List.map_nil,
      List.append_nil]
    rw [World.setBlock_self _ _ _ (by simpa using h)]
  | cons x xs ih =>
    intro l r j w i k hi hk h
    have h1 : w.block a = some (l ++ some j :: some x :: (xs.map some ++ r)) := by
      simpa using h
    have hc := assign_move_down_eq E a i k x j w l _ h1 hi (by omega)
    have h2 : ((w.setBlock a (l ++ some x :: some (E.moved_from x) ::
        (xs.map some ++ r))).bump .move_assign 1).block a
        = some ((l ++ [some x]) ++ some (E.moved_from x) :: (xs.map some ++ r)) := by
      rw [World.block_bump, World.block_setBlock_eq _ _ _ _ h1 (by simp)]
      simp
    obtain ⟨j2, hn⟩ := ih (l ++ [some x]) r (E.moved_from x) _ (i + 1) (k + 1)
      (by simp [hi]) (by omega) h2
    refine ⟨j2, ?_⟩
    simp only [move_n, List.length_cons, bind_apply, hc, ok_bind, Ptr.add, hn]
    simp [Nat.add_comm]

theorem move_backward_n_eq {α : Type} (E : ElemType α) (a : Nat) :
    ∀ (ys : List α) (l r : Block α) (j : α) (w : World α) (i d : Nat),
      i = l.length → d = i + ys.length + 1 →
      w.block a = some (l ++ ys.map some ++ some j :: r) →
      ∃ j2 : α, move_backward_n E ⟨a, i⟩ ys.length ⟨a, d⟩ w
        = .ok ((), (w.setBlock a (l ++ some j2 :: (ys.map some ++ r))).bump
            .move_assign ys.length) := by
  intro ys
  induction ys using List.reverseRecOn with
  | nil =>
    intro l r j w i d _ _ h
    refine ⟨j, ?_⟩
    simp only [move_backward_n, List.length_nil, pure_apply, World.bump_none, List.map_nil,
      List.nil_append]
    rw [World.setBlock_self _ _ _ (by simpa using h)]
  | append_singleton ys y ih =>
    intro l r j w i d hi hd h
    have h1 : w.block a = some ((l ++ ys.map some) ++ some y :: some j :: r) := by
      simpa using h
    have hps := ptr_sub_eq (α := α) ⟨a, d⟩ 1 w (by simp [hd])
    have hc := assign_move_up_eq E a (i + ys.length) (d - 1) y j w (l ++ ys.map some) r h1
      (by simp [hi]) (by simp [hi, hd]; omega)
    have h2 : ((w.setBlock a ((l ++ ys.map some) ++ some (E.moved_from y) :: some y ::
        r)).bump .move_assign 1).block a
        = some (l ++ ys.map some ++ some (E.moved_from y) :: (some y :: r)) := by
      rw [World.block_bump, World.block_setBlock_eq _ _ _ _ h1 (by simp)]
    obtain ⟨j2, hn⟩ := ih l (some y :: r) (E.moved_from y) _ i (d - 1) hi
      (by simp [hd]; omega) h2
    refine ⟨j2, ?_⟩
    simp only [List.length_append, List.length_singleton, move_backward_n, bind_apply, hps,
      ok_bind, Ptr.add, hc, hn]
    simp [Nat.add_comm]

theorem Erase_spec {α : Type} (E : ElemType α) (v : Vector) (xs ys : List α) (y : α)
    (w : World α) (h : v.Owns w (xs ++ y :: ys)) :
    ∃ w2 : World α,
      v.Erase E ⟨v.data_.buffer_, xs.length⟩ w
        = .ok ((⟨v.data_, v.size_ - 1⟩, ⟨v.data_.buffer_, xs.length⟩), w2) ∧
      (⟨v.data_, v.size_ - 1⟩ : Vector).Owns w2 (xs ++ ys) ∧
      (∀ c, c ≠ v.data_.buffer_ → w2.block c = w.block c) ∧
      w2.stats = (w.stats.bump .move_assign ys.length).bump .destroy 1 := by
  obtain ⟨⟨buf, cap⟩, size⟩ := v
  obtain ⟨hsz, hle, hb⟩ := h
  simp only at hsz hle hb
  subst hsz
  simp only [List.length_append, List.length_cons] at hle
  have hb1 : w.block buf = some (xs.map some ++ some y :: (ys.map some
      ++ List.replicate (cap - (xs ++ y :: ys).length) none)) := by
    rw [hb]; simp
  have hd1 := distance_eq (α := α) buf 0 xs.length w (Nat.zero_le _)
  have hd2 := distance_eq (α := α) buf (xs.length + 1) (xs ++ y :: ys).length w (by simp)
  have hlen : (xs ++ y :: ys).length - (xs.length + 1) = ys.length := by simp; omega
  rw [hlen] at hd2
  obtain ⟨j2, hmv⟩ := move_n_down_eq E buf ys (xs.map some) _ y w xs.length (xs.length + 1)
    (by simp) rfl hb1
  have hb2 : ((w.setBlock buf (xs.map some ++ ys.map some ++ some j2 ::
      List.replicate (cap - (xs ++ y :: ys).length) none)).bump .move_assign ys.length).block buf
      = some ((xs.map some ++ ys.map some) ++ some j2 ::
          List.replicate (cap - (xs ++ y :: ys).length) none) := by
    rw [World.block_bump, World.block_setBlock_eq _ _ _ _ hb1 (by simp; omega)]
  have hps := ptr_sub_eq (α := α) ⟨buf, (xs ++ y :: ys).length⟩ 1
    ((w.setBlock buf (xs.map some ++ ys.map some ++ some j2 ::
      List.replicate (cap - (xs ++ y :: ys).length) none)).bump .move_assign ys.length)
    (by simp; omega)
  obtain ⟨w2, hda, ho2, hf2, hs2⟩ := destroy_at_spec buf ((xs ++ y :: ys).length - 1) j2 _ _ _
    hb2 (by simp)
  refine ⟨w2, ?_, ?_, ?_, ?_⟩
  · simp only [Vector.Erase, Vector.begin, Vector.end_, RawMemory.GetAddress, Ptr.add,
      Nat.zero_add, std_move, bind_apply, hd1, ok_bind, Nat.sub_zero, hd2, hmv, hps, hda,
      pure_apply]
  · refine ⟨by simp, by simp; omega, ?_⟩
    simp only
    rw [ho2]
    simp only [List.map_append, List.append_assoc, List.length_append, List.length_cons,
      Option.some.injEq, List.append_cancel_left_eq]
    rw [← List.replicate_succ]
    congr 1
    omega
  · intro c hc
    rw [hf2 c hc, World.block_bump, World.block_setBlock_ne _ _ _ _ hc]
  · rw [hs2]; simp

theorem construct_move_up_spec {α : Type} (E : ElemType α) (a i k : Nat) (x : α) (w : World α)
    (l r : Block α) (s : Option α) (h : w.block a = some (l ++ some x :: s :: r))
    (hi : i = l.length) (hk : k = l.length + 1) :
    ∃ w1 : World α, construct_move E ⟨a, k⟩ ⟨a, i⟩ w = .ok ((), w1) ∧
      w1.block a = some (l ++ some (E.moved_from x) :: some x :: r) ∧
      (∀ c, c ≠ a → w1.block c = w.block c) ∧ w1.stats = w.stats.bump .move_construct 1 :=
  ⟨_, construct_move_up_eq E a i k x w l r s h hi hk, World.upd_spec w a _ _ _ _ h (by simp)⟩

theorem move_backward_n_spec {α : Type} (E : ElemType α) (a : Nat) (ys : List α)
    (l r : Block α) (j : α) (w : World α) (i d n : Nat) (hi : i = l.length)
    (hn : n = ys.length) (hd : d = i + ys.length + 1)
    (h : w.block a = some (l ++ ys.map some ++ some j :: r)) :
    ∃ (w1 : World α) (j2 : α), move_backward_n E ⟨a, i⟩ n ⟨a, d⟩ w = .ok ((), w1) ∧
      w1.block a = some (l ++ some j2 :: (ys.map some ++ r)) ∧
      (∀ c, c ≠ a → w1.block c = w.block c) ∧ w1.stats = w.stats.bump .move_assign n := by
  subst hn
  obtain ⟨j2, hrun⟩ := move_backward_n_eq E a ys l r j w i d hi hd h
  exact ⟨_, j2, hrun, World.upd_spec w a _ _ _ _ h (by simp; omega)⟩

theorem Emplace_spare_spec {α : Type} (E : ElemType α) (v : Vector) (xs ys : List α)
    (z x : α) (w : World α) (h : v.Owns w (xs ++ ys ++ [z]))
    (hlt : v.size_ < v.data_.capacity_) :
    ∃ w2 : World α,
      v.Emplace E ⟨v.data_.buffer_, xs.length⟩ x w
        = .ok ((⟨v.data_, v.size_ + 1⟩, ⟨v.data_.buffer_, xs.length⟩), w2) ∧
      (⟨v.data_, v.size_ + 1⟩ : Vector).Owns w2 (xs ++ x :: (ys ++ [z])) ∧
      (∀ c, c ≠ v.data_.buffer_ → w2.block c = w.block c) ∧
      w2.stats = ((((w.stats.bump .args_construct 1).bump .move_construct 1).bump
        .move_assign ys.length).bump .move_assign 1).bump .destroy 1 := by
  obtain ⟨⟨buf, cap⟩, size⟩ := v
  obtain ⟨hsz, hle, hb⟩ := h
  simp only at hsz hle hb hlt
  simp only [List.length_append, List.length_singleton] at hsz hle
  have hb1 : (w.bump .args_construct 1).block buf = some ((xs.map some ++ ys.map some)
      ++ some z :: none :: List.replicate (cap - size - 1) none) := by
    rw [World.block_bump, hb, replicate_split (cap - (xs ++ ys ++ [z]).length) 0 none
      (by simp; omega)]
    simp
    congr 1
    omega
  have hpe : ¬ ((⟨buf, xs.length⟩ : Ptr) = ⟨buf, size⟩) := by
    simp only [Ptr.mk.injEq, true_and]; omega
  have hfull : ¬ (size = cap) := by omega
  have hd1 := distance_eq (α := α) buf 0 xs.length w (Nat.zero_le _)
  have hps1 := ptr_sub_eq (α := α) ⟨buf, size⟩ 1 (w.bump .args_construct 1) (by simp; omega)
  have hpl := plus_eq (α := α) ⟨buf, cap⟩ size (w.bump .args_construct 1) (Nat.le_of_lt hlt)
  obtain ⟨wb, hcm, hbb, hfb, hsb⟩ := construct_move_up_spec E buf (size - 1) size z _ _ _ none hb1
    (by simp; omega) (by simp; omega)
  have hps2 := ptr_sub_eq (α := α) ⟨buf, size⟩ 1 wb (by simp; omega)
  have hd2 := distance_eq (α := α) buf xs.length (size - 1) wb (by omega)
  obtain ⟨wc, j2, hmb, hbc, hfc, hsc⟩ := move_backward_n_spec E buf ys (xs.map some)
    (some z :: List.replicate (cap - size - 1) none) (E.moved_from z) wb xs.length size
    (size - 1 - xs.length) (by simp) (by omega) (by omega) (by rw [hbb])
  have hix := index_eq (α := α) ⟨buf, cap⟩ xs.length wc (by simp; omega)
  obtain ⟨wd, hal, hbd, hfd, hsd⟩ := assign_move_local_spec buf xs.length x j2 wc (xs.map some) _
    hbc (by simp)
  refine ⟨wd.bump .destroy 1, ?_, ?_, ?_, ?_⟩
  · simp only [Vector.Emplace, Vector.begin, Vector.end_, RawMemory.GetAddress, Ptr.add,
      Nat.zero_add, hpe, if_false, bind_apply, hd1, ok_bind, Nat.sub_zero, Vector.Capacity,
      RawMemory.Capacity, hfull, hlt, if_true, tick_eq, hps1, hpl, hcm, std_move_backward,
      hps2, hd2, hmb, hix, hal, pure_apply]
  · refine ⟨by simp; omega, by simp; omega, ?_⟩
    simp only
    rw [World.block_bump, hbd]
    simp
    omega
  · intro c hc
    rw [World.block_bump, hfd c hc, hfc c hc, hfb c hc, World.block_bump]
  · have e : size - 1 - xs.length = ys.length := by omega
    rw [World.stats_bump, hsd, hsc, hsb, World.stats_bump, e]

theorem load_past_end {α : Type} (p : Ptr) (w : World α) (b : Block α)
    (h : w.block p.block = some b) (hx : b.length ≤ p.off) :
    load p w = .error .bad_access := by
  simp [load, h, List.getElem?_eq_none hx]

theorem uninitialized_copy_n_overrun {α : Type} (a1 a2 : Nat) (hne : a1 ≠ a2) :
    ∀ (xs : List α) (sl l m r : Block α) (w : World α) (j i : Nat),
      j = sl.length → i = l.length → m.length = xs.length →
      w.block a1 = some (sl ++ xs.map some) →
      w.block a2 = some (l ++ m ++ r) →
      uninitialized_copy_n ⟨a1, j⟩ (xs.length + 1) ⟨a2, i⟩ w = .error .bad_access := by
  intro xs
  induction xs with
  | nil =>
    intro sl l m r w j i hj _ _ hs _
    have hl := load_past_end ⟨a1, j⟩ w _ hs (by simp [hj])
    simp only [List.length_nil, Nat.zero_add, uninitialized_copy_n, construct_copy, bind_apply,
      hl, error_bind]
  | cons x xs ih =>
    intro sl l m r w j i hj hi hm hs h
    cases m with
    | nil => simp at hm
    | cons s m =>
      have hs1 : w.block a1 = some (sl ++ some x :: (xs.map some)) := by simpa using hs
      have h1 : w.block a2 = some (l ++ s :: (m ++ r)) := by simpa using h
      have hc := construct_copy_eq a1 j a2 i x w _ l (m ++ r) s hs1
        (getElem?_mid sl _ _ j hj) h1 hi
      obtain ⟨h2, hf2, -⟩ := World.upd_spec w a2 _ (l ++ some x :: (m ++ r)) .copy_construct 1
        h1 (by simp)
      have hn := ih (sl ++ [some x]) (l ++ [some x]) m r _ (j + 1) (i + 1)
        (by simp [hj]) (by simp [hi]) (by simpa using hm)
        (by rw [hf2 _ hne, hs1]; simp) (by rw [h2]; simp)
      show (construct_copy ⟨a2, i⟩ ⟨a1, j⟩ >>= fun _ =>
        uninitialized_copy_n (Ptr.add ⟨a1, j⟩ 1) (xs.length + 1) (Ptr.add ⟨a2, i⟩ 1)) w = _
      simp only [bind_apply, hc, ok_bind, Ptr.add, hn]

theorem Emplace_full_move_spec {α : Type} (E : ElemType α) (v : Vector) (xs ys : List α)
    (y x : α) (w : World α) (h : v.Owns w (xs ++ y :: ys))
    (hfull : v.size_ = v.data_.capacity_)
    (hmove : (!E.is_copy_constructible || E.is_nothrow_move_constructible) = true) :
    ∃ w2 : World α,
      v.Emplace E ⟨v.data_.buffer_, xs.length⟩ x w
        = .ok ((⟨⟨w.fresh, v.size_ * 2⟩, v.size_ + 1⟩, ⟨w.fresh, xs.length⟩), w2) ∧
      (⟨⟨w.fresh, v.size_ * 2⟩, v.size_ + 1⟩ : Vector).Owns w2 (xs ++ x :: y :: ys) ∧
      w.Frame w2 v.data_.buffer_ := by
  obtain ⟨⟨buf, cap⟩, size⟩ := v
  obtain ⟨hsz, hle, hb⟩ := h
  simp only at hsz hle hb hfull
  subst hfull
  simp only [List.length_append, List.length_cons] at hsz
  have hz : size - (xs ++ y :: ys).length = 0 := by simp; omega
  have hb0 : w.block buf = some (xs.map some ++ (y :: ys).map some) := by
    rw [hb, hz]; simp
  have hne : buf ≠ w.fresh := World.ne_fresh w buf _ hb0
  have hpe : ¬ ((⟨buf, xs.length⟩ : Ptr) = ⟨buf, size⟩) := by
    simp only [Ptr.mk.injEq, true_and]; omega
  have hs0 : ¬ (size = 0) := by omega
  have hd1 := distance_eq (α := α) buf 0 xs.length w (Nat.zero_le _)
  obtain ⟨w1, hcr, hn1, hf1, -⟩ := create_spec (α := α) (size * 2) w (by omega)
  have hp1 := plus_eq (α := α) ⟨w.fresh, size * 2⟩ xs.length w1 (by simp; omega)
  rw [replicate_split _ xs.length _ (by omega)] at hn1
  obtain ⟨w2, hca, hn2, hf2, -⟩ := construct_args_spec w.fresh xs.length x w1 _ _ none
    hn1 (by simp)
  obtain ⟨w3, xs2, hrel1, hxs2, ho3, hn3, hf3, -⟩ :=
    relocate_spec E true buf w.fresh hne xs [] ((y :: ys).map some) []
      (List.replicate xs.length none)
      (some x :: List.replicate (size * 2 - xs.length - 1) none) w2 0 0 rfl rfl (by simp)
      (by rw [hf2 _ hne, hf1 _ hne, hb0]; simp) (by rw [hn2]; simp)
  have hp2 := plus_eq (α := α) ⟨w.fresh, size * 2⟩ xs.length w3 (by simp; omega)
  have hsplit : List.replicate (size * 2 - xs.length - 1) (none : Option α)
      = List.replicate (y :: ys).length none
        ++ List.replicate (size * 2 - size - 1) none := by
    rw [← List.replicate_add]
    congr 1
    simp only [List.length_cons]
    omega
  obtain ⟨w4, ys2, hrel2, hys2, ho4, hn4, hf4, -⟩ :=
    relocate_spec E true buf w.fresh hne (y :: ys) (xs2.map some) []
      (xs.map some ++ [some x]) (List.replicate (y :: ys).length none)
      (List.replicate (size * 2 - size - 1) none) w3 xs.length (xs.length + 1)
      (by simp [hxs2]) (by simp) (by simp)
      (by rw [ho3]; simp) (by rw [hn3, hsplit]; simp)
  have hlen : size - xs.length = (y :: ys).length := by simp only [List.length_cons]; omega
  obtain ⟨w5, hdn, ho5, hf5, -⟩ := destroy_n_spec buf (xs2 ++ ys2) [] [] w4 0 size rfl
    (by simp [hxs2, hys2]; omega) (by rw [ho4]; simp)
  obtain ⟨w6, hde, hf6, -⟩ := Deallocate_spec buf _ w5 ho5
  refine ⟨w6, ?_, ?_, ?_⟩
  · simp only [Vector.Emplace, Vector.begin, Vector.end_, RawMemory.GetAddress, Ptr.add,
      Nat.zero_add, hpe, if_false, bind_apply, hd1, ok_bind, Nat.sub_zero, Vector.Capacity,
      RawMemory.Capacity, if_true, hs0, hcr, hp1, hca, hmove, hlen]
    have hr1 : uninitialized_move_n E ⟨buf, 0⟩ xs.length ⟨w.fresh, 0⟩ w2 = .ok ((), w3) := hrel1
    have hr2 : uninitialized_move_n E ⟨buf, xs.length⟩ (y :: ys).length
        ⟨w.fresh, xs.length + 1⟩ w3 = .ok ((), w4) := hrel2
    simp only [hr1, ok_bind, hp2, hr2, RawMemory.Swap, hdn, RawMemory.destructor, hde,
      pure_apply]
  · refine ⟨by simp; omega, by simp; omega, ?_⟩
    simp only
    rw [hf6 _ (Ne.symm hne), hf5 _ (Ne.symm hne), hn4]
    simp
    omega
  · intro b hb1 hb2
    have hbf : b ≠ w.fresh := by
      intro e
      rw [e, World.block_fresh] at hb2
      exact hb2 rfl
    rw [hf6 _ hb1, hf5 _ hb1, hf4 b hb1 hbf, hf3 b hb1 hbf, hf2 _ hbf, hf1 _ hbf]

theorem Emplace_full_copy_fault {α : Type} (E : ElemType α) (v : Vector) (xs ys : List α)
    (y x : α) (w : World α) (h : v.Owns w (xs ++ y :: ys))
    (hfull : v.size_ = v.data_.capacity_)
    (hcopy : (!E.is_copy_constructible || E.is_nothrow_move_constructible) = false) :
    v.Emplace E ⟨v.data_.buffer_, xs.length⟩ x w = .error .bad_access := by
  obtain ⟨⟨buf, cap⟩, size⟩ := v
  obtain ⟨hsz, hle, hb⟩ := h
  simp only at hsz hle hb hfull
  subst hfull
  simp only [List.length_append, List.length_cons] at hsz
  have hz : size - (xs ++ y :: ys).length = 0 := by simp; omega
  have hb0 : w.block buf = some (xs.map some ++ (y :: ys).map some) := by
    rw [hb, hz]; simp
  have hne : buf ≠ w.fresh := World.ne_fresh w buf _ hb0
  have hpe : ¬ ((⟨buf, xs.length⟩ : Ptr) = ⟨buf, size⟩) := by
    simp only [Ptr.mk.injEq, true_and]; omega
  have hs0 : ¬ (size = 0) := by omega
  have hd1 := distance_eq (α := α) buf 0 xs.length w (Nat.zero_le _)
  obtain ⟨w1, hcr, hn1, hf1, -⟩ := create_spec (α := α) (size * 2) w (by omega)
  have hp1 := plus_eq (α := α) ⟨w.fresh, size * 2⟩ xs.length w1 (by simp; omega)
  rw [replicate_split _ xs.length _ (by omega)] at hn1
  obtain ⟨w2, hca, hn2, hf2, -⟩ := construct_args_spec w.fresh xs.length x w1 _ _ none
    hn1 (by simp)
  obtain ⟨w3, hr1, hn3, hf3, -⟩ :=
    uninitialized_copy_n_spec buf w.fresh hne xs [] ((y :: ys).map some) []
      (List.replicate xs.length none)
      (some x :: List.replicate (size * 2 - xs.length - 1) none) w2 0 0 xs.length rfl rfl rfl
      (by simp) (by rw [hf2 _ hne, hf1 _ hne, hb0]; simp) (by rw [hn2]; simp)
  have hxs2e : w3.block buf = some ((xs.map some ++ [some y]) ++ ys.map some) := by
    rw [hf3 _ hne, hf2 _ hne, hf1 _ hne, hb0]; simp
  have hp2 := plus_eq (α := α) ⟨w.fresh, size * 2⟩ xs.length w3 (by simp; omega)
  have hsplit : List.replicate (size * 2 - xs.length - 1) (none : Option α)
      = List.replicate ys.length none
        ++ List.replicate (size * 2 - xs.length - 1 - ys.length) none := by
    rw [← List.replicate_add]
    congr 1
    omega
  have hlen : size - xs.length = ys.length + 1 := by omega
  have hover := uninitialized_copy_n_overrun buf w.fresh hne ys (xs.map some ++ [some y])
    (xs.map some ++ [some x]) (List.replicate ys.length none)
    (List.replicate (size * 2 - xs.length - 1 - ys.length) none) w3 (xs.length + 1)
    (xs.length + 1) (by simp) (by simp) (by simp) hxs2e (by rw [hn3, hsplit]; simp)
  simp only [Vector.Emplace, Vector.begin, Vector.end_, RawMemory.GetAddress, Ptr.add,
    Nat.zero_add, hpe, if_false, bind_apply, hd1, ok_bind, Nat.sub_zero, Vector.Capacity,
    RawMemory.Capacity, if_true, hs0, hcr, hp1, hca, hcopy, hlen, hr1, hp2, hover, error_bind,
    Bool.false_eq_true]

theorem Owns_null {α : Type} (v : Vector) (xs : List α) (w : World α) (h : v.Owns w xs)
    (h0 : v.data_.buffer_ = 0) : xs = [] ∧ v.data_.capacity_ = 0 ∧ v.size_ = 0 := by
  obtain ⟨hsz, hle, hb⟩ := h
  rw [h0] at hb
  simp only [World.block, Option.some.injEq] at hb
  have hl := congrArg List.length hb
  simp only [List.length_nil, List.length_append, List.length_map, List.length_replicate] at hl
  have hx : xs.length = 0 := by omega
  exact ⟨List.length_eq_zero.mp hx, by omega, by omega⟩

theorem copy_spec {α : Type} (src : Vector) (xs : List α) (w : World α)
    (h : src.Owns w xs) :
    ∃ (c : Vector) (w2 : World α),
      Vector.copy src w = .ok (c, w2) ∧ c.Owns w2 xs ∧
      c.data_.capacity_ = xs.length ∧
      (∀ b, w.block b ≠ none → w2.block b = w.block b) ∧
      (c.data_.buffer_ = 0 ∨ w.block c.data_.buffer_ = none) ∧
      w2.stats = w.stats.bump .copy_construct xs.length := by
  obtain ⟨⟨buf, cap⟩, size⟩ := src
  obtain ⟨hsz, hle, hb⟩ := h
  simp only at hsz hle hb
  subst hsz
  by_cases h0 : xs.length = 0
  · have hx : xs = [] := List.length_eq_zero.mp h0
    subst hx
    refine ⟨⟨⟨0, 0⟩, 0⟩, w, ?_, ⟨rfl, by simp, by simp [World.block]⟩, rfl, fun _ _ => rfl,
      Or.inl rfl, ?_⟩
    · simp only [Vector.copy, List.length_nil, bind_apply, create_zero, ok_bind,
        uninitialized_copy_n, pure_apply]
    · simp [Stats.bump_zero]
  · have hne : buf ≠ w.fresh := World.ne_fresh w buf _ hb
    obtain ⟨w1, hcr, hn1, hf1, hs1⟩ := create_spec (α := α) xs.length w h0
    obtain ⟨w2, hcp, hn2, hf2, hs2⟩ := uninitialized_copy_n_spec buf w.fresh hne xs []
      (List.replicate (cap - xs.length) none) [] (List.replicate xs.length none) [] w1 0 0
      xs.length rfl rfl rfl (by simp) (by rw [hf1 _ hne, hb]; simp) (by rw [hn1]; simp)
    refine ⟨⟨⟨w.fresh, xs.length⟩, xs.length⟩, w2, ?_, ⟨rfl, by simp, ?_⟩, rfl, ?_,
      Or.inr (World.block_fresh w), ?_⟩
    · simp only [Vector.copy, bind_apply, hcr, ok_bind, RawMemory.GetAddress, hcp, pure_apply]
    · simp only
      rw [hn2]; simp
    · intro b hb2
      have hbf : b ≠ w.fresh := by
        intro e
        rw [e, World.block_fresh] at hb2
        exact hb2 rfl
      rw [hf2 _ hbf, hf1 _ hbf]
    · rw [hs2, hs1]

theorem eq_spec {α : Type} [DecidableEq α] (v rhs : Vector) (xs ys : List α) (w : World α)
    (h : v.Owns w xs) (h2 : rhs.Owns w ys) (hlen : xs.length ≤ ys.length) :
    v.eq rhs w = .ok (decide (xs = ys.take xs.length), w) := by
  obtain ⟨hsz, -, hb⟩ := h
  obtain ⟨-, -, hb2⟩ := h2
  have hsplit : ys.map some = (ys.take xs.length).map some ++ (ys.drop xs.length).map some := by
    rw [← List.map_append, List.take_append_drop]
  rw [hsplit, List.append_assoc] at hb2
  have he := equal_n_eq v.data_.buffer_ rhs.data_.buffer_ xs (ys.take xs.length) [] _ [] _ w
    0 0 rfl rfl (by simp [Nat.min_eq_left hlen]) (by simpa using hb) (by simpa using hb2)
  simp only [Vector.eq, std_equal, Vector.begin, Vector.end_, RawMemory.GetAddress, Ptr.add,
    bind_apply, hsz, Nat.zero_add, distance_eq v.data_.buffer_ 0 xs.length w (by omega),
    ok_bind, Nat.sub_zero]
  exact he

theorem destructor_spec {α : Type} (v : Vector) (xs : List α) (w : World α)
    (h : v.Owns w xs) :
    ∃ w2 : World α, Vector.destructor v w = .ok ((), w2) ∧
      (∀ c, c ≠ v.data_.buffer_ → w2.block c = w.block c) ∧
      w2.stats = w.stats.bump .destroy xs.length := by
  obtain ⟨hsz, -, hb⟩ := h
  obtain ⟨w1, hdn, ho1, hf1, hs1⟩ := destroy_n_spec v.data_.buffer_ xs [] _ w 0 v.size_ rfl hsz
    (by simpa using hb)
  obtain ⟨w2, hde, hf2, hs2⟩ := Deallocate_spec v.data_.buffer_ _ w1 ho1
  refine ⟨w2, ?_, ?_, ?_⟩
  · simp only [Vector.destructor, RawMemory.GetAddress, bind_apply, hdn, ok_bind,
      RawMemory.destructor, hde]
  · intro c hc
    rw [hf2 c hc, hf1 c hc]
  · rw [hs2, hs1, hsz]

theorem World.block_zero {α : Type} (w : World α) : w.block 0 = some [] := rfl

theorem Owns_of_block_eq {α : Type} (v : Vector) (xs : List α) (w w2 : World α)
    (h : v.Owns w xs) (hb : w2.block v.data_.buffer_ = w.block v.data_.buffer_) :
    v.Owns w2 xs :=
  ⟨h.1, h.2.1, by rw [hb]; exact h.2.2⟩

theorem copy_assign_extend_spec {α : Type} (v rhs : Vector) (xs ys : List α) (w : World α)
    (h : v.Owns w xs) (h2 : rhs.Owns w ys)
    (hne : rhs.data_.buffer_ ≠ v.data_.buffer_)
    (hle : ys.length ≤ v.data_.capacity_) (hge : xs.length ≤ ys.length) :
    ∃ w2 : World α,
      v.copy_assign rhs false w = .ok (⟨v.data_, ys.length⟩, w2) ∧
      (⟨v.data_, ys.length⟩ : Vector).Owns w2 ys ∧
      (∀ c, c ≠ v.data_.buffer_ → w2.block c = w.block c) ∧
      w2.stats = (w.stats.bump .copy_assign xs.length).bump .copy_construct
        (ys.length - xs.length) := by
  obtain ⟨hsz, hlec, hb⟩ := h
  obtain ⟨hsz2, hlec2, hb2⟩ := h2
  have hsplit : ys.map some = (ys.take xs.length).map some ++ (ys.drop xs.length).map some := by
    rw [← List.map_append, List.take_append_drop]
  rw [hsplit] at hb2
  have hp1 := plus_eq (α := α) rhs.data_ xs.length w (by omega)
  have hd1 := distance_eq (α := α) rhs.data_.buffer_ 0 xs.length w (Nat.zero_le _)
  obtain ⟨w1, hcn, hn1, hf1, hs1⟩ := copy_n_spec rhs.data_.buffer_ v.data_.buffer_ hne
    (ys.take xs.length) xs []
    ((ys.drop xs.length).map some ++ List.replicate (rhs.data_.capacity_ - ys.length) none) []
    (List.replicate (v.data_.capacity_ - xs.length) none) w 0 0 xs.length rfl rfl
    (by simp [Nat.min_eq_left hge]) (by simp [Nat.min_eq_left hge])
    (by rw [hb2]; simp only [List.nil_append, List.append_assoc])
    (by rw [hb]; simp only [List.nil_append])
  have hp2 := plus_eq (α := α) rhs.data_ xs.length w1 (by omega)
  have hrsplit : List.replicate (v.data_.capacity_ - xs.length) (none : Option α)
      = List.replicate (ys.length - xs.length) none
        ++ List.replicate (v.data_.capacity_ - ys.length) none := by
    rw [← List.replicate_add]
    congr 1
    omega
  obtain ⟨w2, hun, hn2, hf2, hs2⟩ := uninitialized_copy_n_spec rhs.data_.buffer_
    v.data_.buffer_ hne (ys.drop xs.length) ((ys.take xs.length).map some)
    (List.replicate (rhs.data_.capacity_ - ys.length) none)
    ((ys.take xs.length).map some) (List.replicate (ys.length - xs.length) none)
    (List.replicate (v.data_.capacity_ - ys.length) none) w1 xs.length xs.length
    (ys.length - xs.length) (by simp [Nat.min_eq_left hge]) (by simp [Nat.min_eq_left hge])
    (by simp) (by simp)
    (by rw [hf1 _ hne, hb2])
    (by rw [hn1, hrsplit]; simp only [List.nil_append, List.append_assoc])
  have hlt : ¬ (ys.length < xs.length) := by omega
  refine ⟨w2, ?_, ⟨rfl, hle, ?_⟩, ?_, ?_⟩
  · simp only [Vector.copy_assign, Bool.not_false, if_true, Vector.Capacity, RawMemory.Capacity,
      hsz, hsz2, gt_iff_lt, Nat.not_lt.mpr hle, if_false, ge_iff_le, hge, bind_apply, hp1,
      ok_bind, std_copy, RawMemory.GetAddress, hd1, Nat.sub_zero, hcn, hp2, Ptr.add,
      Nat.zero_add, hun, hlt, pure_apply]
  · simp only
    rw [hn2, ← hsplit]
  · intro c hc
    rw [hf2 c hc, hf1 c hc]
  · rw [hs2, hs1]

theorem copy_assign_shrink_spec {α : Type} (v rhs : Vector) (xs ys : List α) (w : World α)
    (h : v.Owns w xs) (h2 : rhs.Owns w ys)
    (hne : rhs.data_.buffer_ ≠ v.data_.buffer_)
    (hlt : ys.length < xs.length) :
    ∃ w2 : World α,
      v.copy_assign rhs false w = .ok (⟨v.data_, ys.length⟩, w2) ∧
      (⟨v.data_, ys.length⟩ : Vector).Owns w2 ys ∧
      (∀ c, c ≠ v.data_.buffer_ → w2.block c = w.block c) ∧
      w2.stats = (w.stats.bump .copy_assign ys.length).bump .destroy
        (xs.length - ys.length) := by
  obtain ⟨hsz, hlec, hb⟩ := h
  obtain ⟨hsz2, hlec2, hb2⟩ := h2
  have hsplit : xs.map some = (xs.take ys.length).map some ++ (xs.drop ys.length).map some := by
    rw [← List.map_append, List.take_append_drop]
  rw [hsplit] at hb
  have hle : ys.length ≤ v.data_.capacity_ := by omega
  have hp1 := plus_eq (α := α) rhs.data_ ys.length w hlec2
  have hd1 := distance_eq (α := α) rhs.data_.buffer_ 0 ys.length w (Nat.zero_le _)
  obtain ⟨w1, hcn, hn1, hf1, hs1⟩ := copy_n_spec rhs.data_.buffer_ v.data_.buffer_ hne
    ys (xs.take ys.length) [] (List.replicate (rhs.data_.capacity_ - ys.length) none) []
    ((xs.drop ys.length).map some ++ List.replicate (v.data_.capacity_ - xs.length) none)
    w 0 0 ys.length rfl rfl rfl
    (by simp [Nat.min_eq_left (Nat.le_of_lt hlt)])
    (by rw [hb2]; simp only [List.nil_append])
    (by rw [hb]; simp only [List.nil_append, List.append_assoc])
  have hp2 := plus_eq (α := α) v.data_ ys.length w1 hle
  obtain ⟨w2, hdn, hn2, hf2, hs2⟩ := destroy_n_spec v.data_.buffer_ (xs.drop ys.length)
    (ys.map some) (List.replicate (v.data_.capacity_ - xs.length) none) w1 ys.length
    (xs.length - ys.length) (by simp) (by simp)
    (by rw [hn1]; simp only [List.nil_append, List.append_assoc])
  have hge : ¬ (xs.length ≤ ys.length) := by omega
  refine ⟨w2, ?_, ⟨rfl, hle, ?_⟩, ?_, ?_⟩
  · simp only [Vector.copy_assign, Bool.not_false, if_true, Vector.Capacity, RawMemory.Capacity,
      hsz, hsz2, gt_iff_lt, Nat.not_lt.mpr hle, if_false, ge_iff_le, hge, hlt, bind_apply, hp1,
      ok_bind, std_copy, RawMemory.GetAddress, hd1, Nat.sub_zero, hcn, hp2, hdn, pure_apply]
  · simp only
    rw [hn2, List.append_assoc, ← List.replicate_add]
    congr 3
    omega
  · intro c hc
    rw [hf2 c hc, hf1 c hc]
  · rw [hs2, hs1]

theorem copy_assign_null_spec {α : Type} (v rhs : Vector) (xs ys : List α) (w : World α)
    (h : v.Owns w xs) (h2 : rhs.Owns w ys) (h0 : v.data_.buffer_ = 0)
    (hle : ys.length ≤ v.data_.capacity_) :
    ys = [] ∧ v.copy_assign rhs false w = .ok (⟨v.data_, ys.length⟩, w) := by
  obtain ⟨hx, hc0, hs0⟩ := Owns_null v xs w h h0
  have hy : ys = [] := List.length_eq_zero.mp (by omega)
  subst hy
  refine ⟨rfl, ?_⟩
  have hsz2 : rhs.size_ = 0 := h2.1
  have hp1 := plus_eq (α := α) rhs.data_ 0 w (Nat.zero_le _)
  have hd1 := distance_eq (α := α) rhs.data_.buffer_ 0 0 w (Nat.le_refl _)
  simp only [Vector.copy_assign, Bool.not_false, if_true, Vector.Capacity, RawMemory.Capacity,
    hs0, hsz2, hc0, gt_iff_lt, Nat.lt_irrefl, if_false, ge_iff_le, Nat.le_refl, bind_apply, hp1,
    ok_bind, std_copy, RawMemory.GetAddress, hd1, Nat.sub_zero, copy_n, uninitialized_copy_n,
    pure_apply, List.length_nil]

/-! ## The claims -/

theorem Owns_frame {α : Type} (v : Vector) (xs : List α) (w w2 : World α) (a : Nat)
    (h : v.Owns w xs)
    (hf : ∀ b, b ≠ a → w.block b ≠ none → w2.block b = w.block b)
    (hd : v.data_.buffer_ ≠ a ∨ v.data_.buffer_ = 0) :
    v.Owns w2 xs := by
  refine Owns_of_block_eq v xs w w2 h ?_
  by_cases h0 : v.data_.buffer_ = 0
  · rw [h0]; rfl
  · rcases hd with hd | hd
    · exact hf _ hd (by rw [h.2.2]; simp)
    · exact absurd hd h0

theorem push_all_inv {α : Type} (E : ElemType α) :
    ∀ (xs : List α) (w : World α),
      ∃ (v : Vector) (w2 : World α),
        push_all E Vector.default xs w = .ok (v, w2) ∧ v.Owns w2 xs ∧
        ((xs.length = 0 ∧ v.data_.capacity_ = 0) ∨
          ∃ e : Nat, v.data_.capacity_ = 2 ^ e ∧ xs.length ≤ 2 ^ e ∧
            (e = 0 ∨ 2 ^ (e - 1) < xs.length)) := by
  intro xs
  induction xs using List.reverseRecOn with
  | nil =>
    intro w
    exact ⟨Vector.default, w, rfl, Owns_default w, Or.inl ⟨rfl, rfl⟩⟩
  | append_singleton xs y ih =>
    intro w
    obtain ⟨v1, w1, hrun, ho, hinv⟩ := ih w
    obtain ⟨v2, w2, hrun2, ho2, hcap2, -⟩ := PushBack_spec E v1 y xs w1 ho
    have hrun3 := push_all_append E xs y _ v1 v2 w w1 w2 hrun hrun2
    refine ⟨v2, w2, hrun3, ho2, Or.inr ?_⟩
    simp only [List.length_append, List.length_singleton]
    rcases hinv with ⟨h0, hc0⟩ | ⟨e, hcap, hle, hmin⟩
    · refine ⟨0, ?_, by simp [h0], Or.inl rfl⟩
      rw [hcap2, hc0, h0]; simp
    · have hpos : 0 < 2 ^ e := by positivity
      by_cases hfull : xs.length = v1.data_.capacity_
      · refine ⟨e + 1, ?_, ?_, Or.inr ?_⟩
        · rw [hcap2, if_pos hfull, hcap, if_neg (by positivity), pow_succ]; omega
        · rw [pow_succ]; omega
        · simp only [Nat.add_sub_cancel]; omega
      · refine ⟨e, ?_, by omega, ?_⟩
        · rw [hcap2, if_neg hfull, hcap]
        · rcases hmin with h0 | h1
          · exact Or.inl h0
          · exact Or.inr (by omega)

/-- C1: for every finite sequence `xs`, one `PushBack` per value of `xs`, in
order, on an initially empty vector returns a vector whose iteration from
`begin()` to `end()` reads exactly `xs` and whose `Size()` is the length of
`xs`; in particular the loop of `main`, which pushes 40, 30, 20, 10, 0, gives
`[40, 30, 20, 10, 0]` and `Size() == 5`. -/
theorem C1_push_back_in_order :
    (∀ (α : Type) (E : ElemType α) (w : World α) (xs : List α),
      ∃ (v : Vector) (w2 : World α), push_all E Vector.default xs w = .ok (v, w2) ∧
        v.contents w2 = .ok (xs, w2) ∧ v.Size = xs.length) ∧
    (∃ (v : Vector) (w2 : World Int),
      push_all int_type Vector.default [40, 30, 20, 10, 0] (empty_world Int) = .ok (v, w2) ∧
        v.contents w2 = .ok ([40, 30, 20, 10, 0], w2) ∧ v.Size = 5) := by
  have key : ∀ (α : Type) (E : ElemType α) (w : World α) (xs : List α),
      ∃ (v : Vector) (w2 : World α), push_all E Vector.default xs w = .ok (v, w2) ∧
        v.contents w2 = .ok (xs, w2) ∧ v.Size = xs.length := by
    intro α E w xs
    obtain ⟨v, w2, hrun, ho⟩ := push_all_spec E xs [] Vector.default w (Owns_default w)
    simp only [List.nil_append] at ho
    exact ⟨v, w2, hrun, contents_eq v xs w2 ho, ho.1⟩
  exact ⟨key, key Int int_type (empty_world Int) [40, 30, 20, 10, 0]⟩

/-- C2: for every `N ≥ 1`, the `N`-th of `N` successive `PushBack` (or
`EmplaceBack`) calls on an initially empty vector, with the values `xs` and
then `x` (so `N = xs.length + 1`), succeeds and leaves `Size() == N` and
`Capacity()` equal to the smallest power of two that is at least `N`; the
capacity after the call is not below the capacity before it. -/
theorem C2_capacity_next_power_of_two {α : Type} (E : ElemType α) (w : World α)
    (xs : List α) (x : α) :
    ∃ (v1 v2 : Vector) (w1 w2 : World α) (r : Ptr),
      push_all E Vector.default xs w = .ok (v1, w1) ∧
      v1.EmplaceBack E x w1 = .ok ((v2, r), w2) ∧
      v1.PushBack E x w1 = .ok (v2, w2) ∧
      push_all E Vector.default (xs ++ [x]) w = .ok (v2, w2) ∧
      v2.Size = xs.length + 1 ∧
      (∃ e : Nat, v2.Capacity = 2 ^ e ∧ xs.length + 1 ≤ 2 ^ e ∧
        ∀ k : Nat, xs.length + 1 ≤ 2 ^ k → 2 ^ e ≤ 2 ^ k) ∧
      v1.Capacity ≤ v2.Capacity := by
  obtain ⟨v1, w1, hrun, ho, -⟩ := push_all_inv E xs w
  obtain ⟨v2, w2, hrune, ho2, hcap2, -⟩ := EmplaceBack_spec E v1 x xs w1 ho
  have hrunp : v1.PushBack E x w1 = .ok (v2, w2) := by
    simp only [Vector.PushBack, bind_apply, hrune, ok_bind, pure_apply]
  have hrun3 := push_all_append E xs x _ v1 v2 w w1 w2 hrun hrunp
  obtain ⟨v3, w3, hrun4, -, hinv⟩ := push_all_inv E (xs ++ [x]) w
  rw [hrun3] at hrun4
  simp only [Except.ok.injEq, Prod.mk.injEq] at hrun4
  obtain ⟨rfl, rfl⟩ := hrun4
  simp only [List.length_append, List.length_singleton] at hinv
  refine ⟨v1, v2, w1, w2, _, hrun, hrune, hrunp, hrun3, by simpa using ho2.1, ?_, ?_⟩
  · rcases hinv with ⟨h0, -⟩ | ⟨e, hcap, hle, hmin⟩
    · omega
    · refine ⟨e, hcap, hle, ?_⟩
      intro k hk
      apply Nat.pow_le_pow_right (by decide)
      by_contra hc
      have hke : k ≤ e - 1 := by omega
      have h1 : 2 ^ k ≤ 2 ^ (e - 1) := Nat.pow_le_pow_right (by decide) hke
      rcases hmin with h0 | h2
      · omega
      · omega
  · show v1.data_.capacity_ ≤ v2.data_.capacity_
    rw [hcap2]
    split
    · split <;> omega
    · exact Nat.le_refl _

theorem drop_ne_nil {β : Type} (zs : List β) (i : Nat) (hi : i < zs.length) :
    ∃ (y : β) (ys : List β), zs.drop i = y :: ys := by
  cases hd : zs.drop i with
  | nil =>
    have := congrArg List.length hd
    simp at this
    omega
  | cons y ys => exact ⟨y, ys, rfl⟩

theorem begin_add {α : Type} (v : Vector) (zs : List α) (i : Nat) (hi : i ≤ zs.length) :
    v.begin.add i = ⟨v.data_.buffer_, (zs.take i).length⟩ := by
  simp [Vector.begin, RawMemory.GetAddress, Ptr.add, Nat.min_eq_left hi]

/-- C6: in every state in which `v` holds the elements `zs`, `Erase` at
`begin() + i`, `i < Size()`, succeeds and leaves the sequence
`zs[0, i) ++ zs[i + 1, Size())`; `Size()` decreases by one, `Capacity()` is
unchanged and the returned iterator is `begin() + i`: the element that
followed the erased one, or `end()` when the last element was erased. -/
theorem C6_erase {α : Type} (E : ElemType α) (v : Vector) (zs : List α) (i : Nat)
    (w : World α) (h : v.Owns w zs) (hi : i < v.Size) :
    ∃ (v2 : Vector) (w2 : World α) (it : Ptr),
      v.Erase E (v.begin.add i) w = .ok ((v2, it), w2) ∧
      v2.contents w2 = .ok (zs.take i ++ zs.drop (i + 1), w2) ∧
      v2.Owns w2 (zs.take i ++ zs.drop (i + 1)) ∧
      v2.Size + 1 = v.Size ∧ v2.Capacity = v.Capacity ∧
      it = v2.begin.add i ∧
      (∀ y : α, zs[i + 1]? = some y → load it w2 = .ok (y, w2)) ∧
      (i + 1 = v.Size → it = v2.end_) := by
  have hsz : v.size_ = zs.length := h.1
  have hi2 : i < zs.length := by rw [← hsz]; exact hi
  have hxl : (zs.take i).length = i := by simp [Nat.min_eq_left (Nat.le_of_lt hi2)]
  obtain ⟨y, ys, hd⟩ := drop_ne_nil zs i hi2
  have hys : zs.drop (i + 1) = ys := by
    have := congrArg List.tail hd
    simpa using this
  have hzs : zs = zs.take i ++ y :: ys := by
    rw [← hd, List.take_append_drop]
  have h2 : v.Owns w (zs.take i ++ y :: ys) := by rw [← hzs]; exact h
  obtain ⟨w2, hrun, ho2, -, -⟩ := Erase_spec E v (zs.take i) ys y w h2
  rw [← begin_add v zs i (Nat.le_of_lt hi2)] at hrun
  rw [← hys] at ho2
  refine ⟨⟨v.data_, v.size_ - 1⟩, w2, _, hrun, contents_eq _ _ w2 ho2, ho2, ?_, rfl, ?_, ?_,
    ?_⟩
  · show v.size_ - 1 + 1 = v.size_
    omega
  · rfl
  · intro y2 hy2
    rw [begin_add v zs i (Nat.le_of_lt hi2), hxl]
    refine load_Owns _ _ w2 ho2 i y2 ?_
    rw [List.getElem?_append_right (by simp [hxl]), hxl, Nat.sub_self, List.getElem?_drop]
    simpa using hy2
  · intro hlast
    have hl : i + 1 = v.size_ := hlast
    simp only [Vector.begin, Vector.end_, RawMemory.GetAddress, Ptr.add, Ptr.mk.injEq,
      true_and]
    omega

theorem Reserve_full_spec {α : Type} (E : ElemType α) (v : Vector) (n : Nat) (xs : List α)
    (w : World α) (h : v.Owns w xs) :
    ∃ (v2 : Vector) (w2 : World α),
      v.Reserve E n w = .ok (v2, w2) ∧
      (n ≤ v.Capacity → v2 = v ∧ w2 = w) ∧
      (v.Capacity < n → v2.Capacity = n) ∧
      v2.Size = v.Size ∧
      v2.contents w2 = .ok (xs, w2) ∧
      (∀ (i : Nat) (x : α), xs[i]? = some x → v2.get i w2 = .ok (x, w2)) ∧
      v2.Owns w2 xs := by
  obtain ⟨v2, w2, hrun, ho2, hcap2, hsame, -⟩ := Reserve_spec E v n xs w h
  refine ⟨v2, w2, hrun, hsame, ?_, ?_, contents_eq v2 xs w2 ho2, ?_, ho2⟩
  · intro hlt
    have hlt2 : v.data_.capacity_ < n := hlt
    show v2.data_.capacity_ = n
    rw [hcap2, if_neg (by omega)]
  · show v2.size_ = v.size_
    rw [ho2.1, h.1]
  · intro i x hx
    exact get_eq v2 xs w2 ho2 i x hx

theorem put_spec {α : Type} (v : Vector) (xs : List α) (w : World α) (h : v.Owns w xs)
    (i : Nat) (y : α) (hi : i < xs.length) :
    ∃ w2 : World α, v.put i y w = .ok ((), w2) ∧ v.Owns w2 (xs.set i y) ∧
      (∀ c, c ≠ v.data_.buffer_ → w2.block c = w.block c) := by
  obtain ⟨x, hx⟩ : ∃ x, xs[i]? = some x := ⟨xs[i], List.getElem?_eq_getElem hi⟩
  have hsub := subscript_eq v xs w h i hi
  have hl := load_Owns v xs w h i x hx
  have hst := store_eq ⟨v.data_.buffer_, i⟩ (some y) w _ h.2.2 (by simp; omega)
  obtain ⟨hb2, hf2, -⟩ := World.upd_spec w v.data_.buffer_ _
    ((xs.map some ++ List.replicate (v.data_.capacity_ - xs.length) none).set i (some y))
    .copy_assign 1 h.2.2 (by simp)
  refine ⟨_, ?_, ⟨by simpa using h.1, by simpa using h.2.1, ?_⟩, hf2⟩
  · simp only [Vector.put, bind_apply, hsub, ok_bind, hl, hst, tick_eq]
  · rw [hb2, List.set_append_left _ _ (by simpa using hi), List.map_set]
    simp

/-- C5 (the code departs from the claim): on the full vector `[1, 2]` of
capacity 2, `Insert` of 9 at `begin()` returns `[9, 1, 2]` with capacity 4 when
the elements are relocated by move construction, and reads the slot at index
old `Size()`, outside the block, when they are relocated by copy
construction (element type copyable, move constructor may throw). -/
theorem C5_insert_full_copy_path_reads_past_end :
    (⟨⟨1, 2⟩, 2⟩ : Vector).Owns world_12 [1, 2] ∧
    Vector.Insert throwing_move_type ⟨⟨1, 2⟩, 2⟩ ((⟨⟨1, 2⟩, 2⟩ : Vector).begin.add 0) 9 world_12
      = .error .bad_access ∧
    ∃ (v2 : Vector) (w2 : World Int) (it : Ptr),
      Vector.Insert int_type ⟨⟨1, 2⟩, 2⟩ ((⟨⟨1, 2⟩, 2⟩ : Vector).begin.add 0) 9 world_12
        = .ok ((v2, it), w2) ∧
      v2.contents w2 = .ok ([9, 1, 2], w2) ∧ v2.Size = 3 ∧ v2.Capacity = 4 := by
  have ho : (⟨⟨1, 2⟩, 2⟩ : Vector).Owns world_12 ([] ++ 1 :: [2]) := ⟨rfl, by decide, rfl⟩
  refine ⟨ho, ?_, ?_⟩
  · exact Emplace_full_copy_fault throwing_move_type ⟨⟨1, 2⟩, 2⟩ [] [2] 1 9 world_12 ho rfl rfl
  · obtain ⟨w2, hrun, ho2, -⟩ :=
      Emplace_full_move_spec int_type ⟨⟨1, 2⟩, 2⟩ [] [2] 1 9 world_12 ho rfl rfl
    exact ⟨_, w2, _, hrun, contents_eq _ _ w2 ho2, rfl, rfl⟩

theorem Erase_index_spec {α : Type} (E : ElemType α) (v : Vector) (zs : List α) (i : Nat)
    (w : World α) (h : v.Owns w zs) (hi : i < v.size_) :
    ∃ w2 : World α,
      v.Erase E (v.begin.add i) w = .ok ((⟨v.data_, v.size_ - 1⟩, v.begin.add i), w2) ∧
      (⟨v.data_, v.size_ - 1⟩ : Vector).Owns w2 (zs.take i ++ zs.drop (i + 1)) ∧
      (∀ c, c ≠ v.data_.buffer_ → w2.block c = w.block c) := by
  have hsz : v.size_ = zs.length := h.1
  have hi2 : i < zs.length := by rw [← hsz]; exact hi
  obtain ⟨y, ys, hd⟩ := drop_ne_nil zs i hi2
  have hys : zs.drop (i + 1) = ys := by
    have := congrArg List.tail hd
    simpa using this
  have hzs : zs = zs.take i ++ y :: ys := by
    rw [← hd, List.take_append_drop]
  have h2 : v.Owns w (zs.take i ++ y :: ys) := by rw [← hzs]; exact h
  obtain ⟨w2, hrun, ho2, hf2, -⟩ := Erase_spec E v (zs.take i) ys y w h2
  rw [← begin_add v zs i (Nat.le_of_lt hi2)] at hrun
  rw [← hys] at ho2
  exact ⟨w2, hrun, ho2, hf2⟩

theorem copy_disjoint {α : Type} (src c : Vector) (xs : List α) (w : World α)
    (h : src.Owns w xs) (hc : c.data_.buffer_ = 0 ∨ w.block c.data_.buffer_ = none) :
    src.data_.buffer_ ≠ c.data_.buffer_ ∨ src.data_.buffer_ = 0 := by
  by_cases h0 : src.data_.buffer_ = 0
  · exact Or.inr h0
  · refine Or.inl ?_
    intro e
    rcases hc with hc | hc
    · exact h0 (e.trans hc)
    · rw [← e, h.2.2] at hc
      cases hc

/-- `Erase` at `begin()` in the vector `[1, 2]` gives `[2]`. -/
theorem C6_erase_witness :
    vec_12.Owns world_12_spare [1, 2] ∧ 0 < vec_12.Size ∧
    ∃ (v2 : Vector) (w2 : World Int) (it : Ptr),
      vec_12.Erase int_type (vec_12.begin.add 0) world_12_spare = .ok ((v2, it), w2) ∧
      v2.contents w2 = .ok ([2], w2) ∧ v2.Size + 1 = 2 ∧ v2.Capacity = 3 ∧
      load it w2 = .ok (2, w2) := by
  have ho : vec_12.Owns world_12_spare [1, 2] := ⟨rfl, by decide, rfl⟩
  obtain ⟨v2, w2, it, hrun, hc, -, hs, hcap, -, hl, -⟩ :=
    C6_erase int_type vec_12 [1, 2] 0 world_12_spare ho (by decide)
  exact ⟨ho, by decide, v2, w2, it, hrun, hc, hs, hcap, hl 2 rfl⟩

theorem Swap_eq (a b : Vector) : a.Swap b = (b, a) := by
  obtain ⟨⟨ab, ac⟩, asz⟩ := a
  obtain ⟨⟨bb, bc⟩, bsz⟩ := b
  rfl

/-- C11: in every state in which `src` holds the elements `xs`, the move
constructor gives the new vector the elements `xs` in their order, with
`Size()` and `Capacity()` those of `src` before, and leaves `src` with
`Size() == 0` and `Capacity() == 0`; no element is touched. -/
theorem C11_move_construct {α : Type} (src : Vector) (xs : List α) (w : World α)
    (h : src.Owns w xs) :
    (Vector.move src).1.Owns w xs ∧
    (Vector.move src).1.contents w = .ok (xs, w) ∧
    (Vector.move src).1.Size = src.Size ∧
    (Vector.move src).1.Capacity = src.Capacity ∧
    (Vector.move src).2.Size = 0 ∧
    (Vector.move src).2.Capacity = 0 ∧
    (Vector.move src).2.Owns w [] := by
  have hm : Vector.move src = (src, Vector.default) := Swap_eq _ _
  rw [hm]
  exact ⟨h, contents_eq src xs w h, rfl, rfl, rfl, rfl, Owns_default w⟩

/-- Moving from the vector `[1, 2]` of capacity 3 gives a vector `[1, 2]` of
capacity 3 and leaves the source with size 0 and capacity 0. -/
theorem C11_move_construct_witness :
    vec_12.Owns world_12_spare [1, 2] ∧
    (Vector.move vec_12).1.contents world_12_spare = .ok ([1, 2], world_12_spare) ∧
    (Vector.move vec_12).1.Size = 2 ∧ (Vector.move vec_12).1.Capacity = 3 ∧
    (Vector.move vec_12).2.Size = 0 ∧ (Vector.move vec_12).2.Capacity = 0 := by
  have ho : vec_12.Owns world_12_spare [1, 2] := by decide
  obtain ⟨-, hc, hs, hcap, hs0, hc0, -⟩ := C11_move_construct vec_12 [1, 2] world_12_spare ho
  exact ⟨ho, hc, hs, hcap, hs0, hc0⟩

/-- C12, as stated, fails: after the move assignment of `[7]` to the vector
`[1, 2]`, the source holds `[1, 2]` and its `Size()` is 2, not 0. -/
theorem C12_move_assign_source_not_empty :
    vec_12.Owns world_two [1, 2] ∧ vec_7.Owns world_two [7] ∧
    (vec_12.move_assign vec_7).2.Size = 2 ∧ (vec_12.move_assign vec_7).2.Size ≠ 0 ∧
    (vec_12.move_assign vec_7).2.contents world_two = .ok ([1, 2], world_two) := by
  have ha : vec_12.Owns world_two [1, 2] := by decide
  have hm : vec_12.move_assign vec_7 = (vec_7, vec_12) := Swap_eq _ _
  rw [hm]
  exact ⟨ha, by decide, rfl, by decide, contents_eq vec_12 [1, 2] world_two ha⟩

/-- C12, amended: in every state in which `a` holds `xs` and `b` holds `ys`,
after the move assignment `a = std::move(b)` the destination `a` holds the
former contents `ys` of `b` in their order and the source `b` holds the
former contents `xs` of `a`, so `b.Size()` is the old `a.Size()`: it is 0
when the destination was empty. -/
theorem C12_move_assign {α : Type} (a b : Vector) (xs ys : List α) (w : World α)
    (ha : a.Owns w xs) (hb : b.Owns w ys) :
    (a.move_assign b).1.Owns w ys ∧
    (a.move_assign b).1.contents w = .ok (ys, w) ∧
    (a.move_assign b).2.Owns w xs ∧
    (a.move_assign b).2.contents w = .ok (xs, w) ∧
    (a.move_assign b).2.Size = a.Size ∧
    (a.Size = 0 → (a.move_assign b).2.Size = 0) := by
  have hm : a.move_assign b = (b, a) := Swap_eq _ _
  rw [hm]
  exact ⟨hb, contents_eq b ys w hb, ha, contents_eq a xs w ha, rfl, fun h0 => h0⟩

/-- The move assignment of `[7]` to the vector `[1, 2]` leaves `[7]` in the
destination and `[1, 2]` in the source. -/
theorem C12_move_assign_witness :
    vec_12.Owns world_two [1, 2] ∧ vec_7.Owns world_two [7] ∧
    (vec_12.move_assign vec_7).1.contents world_two = .ok ([7], world_two) ∧
    (vec_12.move_assign vec_7).2.contents world_two = .ok ([1, 2], world_two) ∧
    (vec_12.move_assign vec_7).2.Size = 2 := by
  have ha : vec_12.Owns world_two [1, 2] := by decide
  have hb : vec_7.Owns world_two [7] := by decide
  obtain ⟨-, hc1, -, hc2, hs, -⟩ := C12_move_assign vec_12 vec_7 [1, 2] [7] world_two ha hb
  exact ⟨ha, hb, hc1, hc2, hs⟩

/-- C13: the move assignment is `Swap`, and both are the exchange of the two
vectors that the specification describes: in every state in which `a` holds
`xs` and `b` holds `ys`, afterwards `a` holds the elements, `Size()` and
`Capacity()` that `b` had and `b` those that `a` had, in the same memory (no
element is touched); a second `Swap` restores both vectors. -/
theorem C13_move_assign_is_swap {α : Type} (a b : Vector) (xs ys : List α) (w : World α)
    (ha : a.Owns w xs) (hb : b.Owns w ys) :
    a.move_assign b = a.Swap b ∧ a.move_assign b = spec_move_assign a b ∧
    a.Swap b = spec_move_assign a b ∧
    (a.Swap b).1.Owns w ys ∧ (a.Swap b).1.contents w = .ok (ys, w) ∧
    (a.Swap b).1.Size = b.Size ∧ (a.Swap b).1.Capacity = b.Capacity ∧
    (a.Swap b).2.Owns w xs ∧ (a.Swap b).2.contents w = .ok (xs, w) ∧
    (a.Swap b).2.Size = a.Size ∧ (a.Swap b).2.Capacity = a.Capacity ∧
    (a.Swap b).1.Swap (a.Swap b).2 = (a, b) := by
  have hs : a.Swap b = (b, a) := Swap_eq _ _
  refine ⟨rfl, hs, hs, ?_⟩
  rw [hs]
  exact ⟨hb, contents_eq b ys w hb, rfl, rfl, ha, contents_eq a xs w ha, rfl, rfl, Swap_eq _ _⟩

/-- The move assignment and `Swap` of the vectors `[1, 2]` (capacity 3) and
`[7]` (capacity 1) exchange them. -/
theorem C13_move_assign_is_swap_witness :
    vec_12.Owns world_two [1, 2] ∧ vec_7.Owns world_two [7] ∧
    vec_12.move_assign vec_7 = (vec_7, vec_12) ∧ vec_12.Swap vec_7 = (vec_7, vec_12) ∧
    (vec_12.Swap vec_7).1.contents world_two = .ok ([7], world_two) ∧
    (vec_12.Swap vec_7).1.Capacity = 1 ∧ (vec_12.Swap vec_7).2.Capacity = 3 := by
  have ha : vec_12.Owns world_two [1, 2] := by decide
  have hb : vec_7.Owns world_two [7] := by decide
  obtain ⟨-, hm, hs, -, hc, -, hc1, -, -, -, hc2, -⟩ :=
    C13_move_assign_is_swap vec_12 vec_7 [1, 2] [7] world_two ha hb
  exact ⟨ha, hb, hm, hs, hc, hc1, hc2⟩

theorem ne_eq_not {α : Type} [DecidableEq α] (a b : Vector) (w : World α) (r : Bool)
    (h : a.eq b w = .ok (r, w)) : a.ne b w = .ok (!r, w) := by
  simp only [Vector.ne, bind_apply, h, ok_bind, pure_apply]

/-- C14: `operator==` checks no length: in every state in which `a` holds
`xs` and `b` holds `ys` with `a.Size() <= b.Size()`, `a == b` returns, and
returns true exactly when `a[i] == b[i]` for every `i < a.Size()`; `a != b`
returns the negation.  So when `a` is a strict prefix of `b`, `a == b` is
true and `a != b` is false although the lengths differ. -/
theorem C14_equality_checks_no_length {α : Type} [DecidableEq α] (a b : Vector)
    (xs ys : List α) (w : World α) (ha : a.Owns w xs) (hb : b.Owns w ys)
    (hlen : a.Size ≤ b.Size) :
    ∃ r : Bool, a.eq b w = .ok (r, w) ∧ a.ne b w = .ok (!r, w) ∧
      (r = true ↔ ∀ i : Nat, i < a.Size → xs[i]? = ys[i]?) ∧
      (a.Size < b.Size → xs = ys.take xs.length →
        a.eq b w = .ok (true, w) ∧ a.ne b w = .ok (false, w)) := by
  have hsa : a.size_ = xs.length := ha.1
  have hsb : b.size_ = ys.length := hb.1
  have hl : xs.length ≤ ys.length := by rw [← hsa, ← hsb]; exact hlen
  have he := eq_spec a b xs ys w ha hb hl
  refine ⟨_, he, ne_eq_not a b w _ he, ?_, ?_⟩
  · rw [decide_eq_true_iff]
    constructor
    · intro hx i hi
      have hi2 : i < xs.length := by rw [← hsa]; exact hi
      conv_lhs => rw [hx]
      rw [List.getElem?_take_of_lt hi2]
    · intro hall
      apply List.ext_getElem?
      intro i
      by_cases hi : i < xs.length
      · rw [List.getElem?_take_of_lt hi]
        exact hall i (by rw [← hsa] at hi; exact hi)
      · rw [List.getElem?_eq_none (by omega),
          List.getElem?_eq_none (by simp [Nat.min_eq_left hl]; omega)]
  · intro _ hpre
    have hd : decide (xs = ys.take xs.length) = true := decide_eq_true hpre
    rw [hd] at he
    exact ⟨he, ne_eq_not a b w _ he⟩

/-- The empty vector compares equal to `[7]`, and `[1]` compares equal to
`[1, 2]`. -/
theorem C14_equality_checks_no_length_witness :
    (Vector.default.Owns world_three ([] : List Int) ∧ vec_7.Owns world_three [7] ∧
      Vector.default.Size < vec_7.Size ∧
      Vector.default.eq vec_7 world_three = .ok (true, world_three) ∧
      Vector.default.ne vec_7 world_three = .ok (false, world_three)) ∧
    (vec_1.Owns world_three [1] ∧ vec_12.Owns world_three [1, 2] ∧
      vec_1.Size < vec_12.Size ∧
      vec_1.eq vec_12 world_three = .ok (true, world_three) ∧
      vec_1.ne vec_12 world_three = .ok (false, world_three)) := by
  have h0 : Vector.default.Owns world_three ([] : List Int) := by decide
  have h7 : vec_7.Owns world_three [7] := by decide
  have h1 : vec_1.Owns world_three [1] := by decide
  have h12 : vec_12.Owns world_three [1, 2] := by decide
  obtain ⟨-, -, -, -, hA⟩ :=
    C14_equality_checks_no_length Vector.default vec_7 [] [7] world_three h0 h7 (by decide)
  obtain ⟨-, -, -, -, hB⟩ :=
    C14_equality_checks_no_length vec_1 vec_12 [1] [1, 2] world_three h1 h12 (by decide)
  have hA2 := hA (by decide) rfl
  have hB2 := hB (by decide) rfl
  exact ⟨⟨h0, h7, by decide, hA2.1, hA2.2⟩, ⟨h1, h12, by decide, hB2.1, hB2.2⟩⟩

theorem PopBack_spec {α : Type} (v : Vector) (xs : List α) (x : α) (w : World α)
    (h : v.Owns w (xs ++ [x])) :
    ∃ w2 : World α, v.PopBack w = .ok (⟨v.data_, v.size_ - 1⟩, w2) ∧
      (⟨v.data_, v.size_ - 1⟩ : Vector).Owns w2 xs ∧
      (∀ c, c ≠ v.data_.buffer_ → w2.block c = w.block c) ∧
      w2.stats = w.stats.bump .destroy 1 := by
  obtain ⟨hsz, hle, hb⟩ := h
  simp only [List.length_append, List.length_singleton] at hsz hle hb
  have hb1 : w.block v.data_.buffer_
      = some (xs.map some ++ some x :: List.replicate (v.data_.capacity_ - (xs.length + 1)) none) := by
    rw [hb]; simp
  obtain ⟨w2, hd, ho, hf, hs⟩ := destroy_at_spec v.data_.buffer_ (v.size_ - 1) x w _ _ hb1
    (by simp; omega)
  refine ⟨w2, ?_, ⟨?_, ?_, ?_⟩, hf, hs⟩
  · have hpos : v.size_ > 0 := by omega
    have hp := plus_eq v.data_ v.size_ w (by omega)
    have hq := ptr_sub_eq ⟨v.data_.buffer_, v.size_⟩ 1 w (by show 1 ≤ v.size_; omega)
    simp only [Vector.PopBack, bind_apply, assert, hpos, if_true, ok_bind, hp, hq, hd,
      pure_apply]
  · show v.size_ - 1 = xs.length
    omega
  · show xs.length ≤ v.data_.capacity_
    omega
  · show w2.block v.data_.buffer_ = _
    rw [ho]
    congr 1
    have e : v.data_.capacity_ - xs.length = (v.data_.capacity_ - (xs.length + 1)) + 1 := by omega
    rw [e, List.replicate_succ]

theorem PopBack_empty {α : Type} (v : Vector) (w : World α) (h : v.size_ = 0) :
    v.PopBack w = .error .assertion := by
  simp [Vector.PopBack, bind_apply, assert, h, error_bind]

/-- C16: in every state in which the vector holds `xs` followed by `x` (so
`Size() > 0`), `PopBack` returns, the vector then holds `xs`, `Size()` is one
less, `Capacity()` and the storage are the same, and exactly one element is
destroyed and nothing else is done to an element; and in every state in which
`Size()` is 0, `PopBack` stops at the failed assertion `size_ > 0`. -/
theorem C16_pop_back {α : Type} (v : Vector) (w : World α) :
    (∀ (xs : List α) (x : α), v.Owns w (xs ++ [x]) →
      ∃ (v2 : Vector) (w2 : World α), v.PopBack w = .ok (v2, w2) ∧
        v2.Owns w2 xs ∧ v2.contents w2 = .ok (xs, w2) ∧
        v2.Size = v.Size - 1 ∧ v2.Capacity = v.Capacity ∧ v2.data_ = v.data_ ∧
        (∀ (i : Nat) (y : α), i < v2.Size → v.get i w = .ok (y, w) →
          v2.get i w2 = .ok (y, w2)) ∧
        w2.stats = w.stats.bump .destroy 1) ∧
    (v.Size = 0 → v.PopBack w = .error .assertion) := by
  refine ⟨?_, PopBack_empty v w⟩
  intro xs x h
  obtain ⟨w2, hrun, ho, -, hs⟩ := PopBack_spec v xs x w h
  refine ⟨_, w2, hrun, ho, contents_eq _ xs w2 ho, rfl, rfl, rfl, ?_, hs⟩
  intro i y hi hy
  have hi2 : i < xs.length := by rw [← ho.1]; exact hi
  have h1 := get_eq v (xs ++ [x]) w h i xs[i]
    (by rw [List.getElem?_append_left hi2, List.getElem?_eq_getElem hi2])
  rw [h1] at hy
  injection hy with hy
  injection hy with hy
  rw [← hy]
  exact get_eq _ xs w2 ho i xs[i] (List.getElem?_eq_getElem hi2)

/-- `PopBack` on `[1, 2]` of capacity 3 leaves `[1]` of capacity 3. -/
theorem C16_pop_back_witness :
    vec_12.Owns world_12_spare ([1] ++ [2]) ∧
    ∃ (v2 : Vector) (w2 : World Int), vec_12.PopBack world_12_spare = .ok (v2, w2) ∧
      v2.contents w2 = .ok ([1], w2) ∧ v2.Size = 1 ∧ v2.Capacity = 3 ∧
      w2.stats = world_12_spare.stats.bump .destroy 1 := by
  have ho : vec_12.Owns world_12_spare ([1] ++ [2]) := by decide
  obtain ⟨v2, w2, hrun, -, hc, hs, hcap, -, -, hst⟩ :=
    (C16_pop_back vec_12 world_12_spare).1 [1] 2 ho
  exact ⟨ho, v2, w2, hrun, hc, hs, hcap, hst⟩

theorem load_raw {α : Type} (p : Ptr) (w : World α) (b : Block α)
    (h : w.block p.block = some b) (hx : b[p.off]? = some none) :
    load p w = .error .not_live := by
  simp [load, h, hx]

theorem load_outside {α : Type} (v : Vector) (xs : List α) (w : World α) (h : v.Owns w xs)
    (i : Nat) (hi : v.size_ ≤ i) :
    load ⟨v.data_.buffer_, i⟩ w
      = .error (if i < v.data_.capacity_ then .not_live else .bad_access) := by
  obtain ⟨hsz, hle, hb⟩ := h
  by_cases hc : i < v.data_.capacity_
  · rw [if_pos hc]
    refine load_raw _ w _ hb ?_
    show (xs.map some ++ List.replicate (v.data_.capacity_ - xs.length) none)[i]? = some none
    rw [List.getElem?_append_right (by simp; omega), List.getElem?_replicate]
    rw [if_pos (by simp; omega)]
  · rw [if_neg hc]
    refine load_past_end _ w _ hb ?_
    simp
    omega

theorem equal_n_skip {α : Type} [DecidableEq α] (a1 a2 : Nat) (k : Nat) :
    ∀ (xs : List α) (sl sr l r : Block α) (w : World α) (j i : Nat),
      j = sl.length → i = l.length →
      w.block a1 = some (sl ++ xs.map some ++ sr) →
      w.block a2 = some (l ++ xs.map some ++ r) →
      equal_n ⟨a1, j⟩ (xs.length + k) ⟨a2, i⟩ w
        = equal_n ⟨a1, j + xs.length⟩ k ⟨a2, i + xs.length⟩ w := by
  intro xs
  induction xs with
  | nil =>
    intro sl sr l r w j i _ _ _ _
    simp
  | cons x xs ih =>
    intro sl sr l r w j i hj hi hs h
    have hs1 : w.block a1 = some (sl ++ some x :: (xs.map some ++ sr)) := by simpa using hs
    have h1 : w.block a2 = some (l ++ some x :: (xs.map some ++ r)) := by simpa using h
    have hl1 := load_eq ⟨a1, j⟩ w _ x hs1 (getElem?_mid sl _ _ j hj)
    have hl2 := load_eq ⟨a2, i⟩ w _ x h1 (getElem?_mid l _ _ i hi)
    have hn := ih (sl ++ [some x]) sr (l ++ [some x]) r w (j + 1) (i + 1)
      (by simp [hj]) (by simp [hi]) (by simpa using hs) (by simpa using h)
    have e : (x :: xs).length + k = (xs.length + k) + 1 := by simp; omega
    rw [e]
    simp only [equal_n, bind_apply, hl1, hl2, ok_bind, Ptr.add, if_true]
    rw [hn]
    simp only [List.length_cons]
    have e1 : j + 1 + xs.length = j + (xs.length + 1) := by omega
    have e2 : i + 1 + xs.length = i + (xs.length + 1) := by omega
    rw [e1, e2]

theorem eq_longer_fault {α : Type} [DecidableEq α] (a b : Vector) (ys : List α) (z : α)
    (zs : List α) (w : World α) (ha : a.Owns w (ys ++ z :: zs)) (hb : b.Owns w ys) :
    a.eq b w = (load (α := α) ⟨a.data_.buffer_, b.size_⟩ >>= fun x =>
        load (α := α) ⟨b.data_.buffer_, b.size_⟩ >>= fun y =>
        if x = y then
          equal_n ⟨a.data_.buffer_, b.size_ + 1⟩ zs.length ⟨b.data_.buffer_, b.size_ + 1⟩
        else pure false) w ∧
    a.eq b w = .error (if b.size_ < b.data_.capacity_ then .not_live else .bad_access) := by
  obtain ⟨hsa, -, hba⟩ := ha
  have hlb := load_outside b ys w hb b.size_ (Nat.le_refl _)
  obtain ⟨hsb, -, hbb⟩ := hb
  simp only [List.length_append, List.length_cons] at hsa hba
  have hba1 : w.block a.data_.buffer_ = some ([] ++ ys.map some ++ (some z :: (zs.map some ++
      List.replicate (a.data_.capacity_ - (ys.length + (zs.length + 1))) none))) := by
    rw [hba]; simp
  have hbb1 : w.block b.data_.buffer_ = some ([] ++ ys.map some ++
      List.replicate (b.data_.capacity_ - ys.length) none) := by
    rw [hbb]; simp
  have hskip := equal_n_skip a.data_.buffer_ b.data_.buffer_ (zs.length + 1) ys [] _ [] _ w 0 0
    rfl rfl hba1 hbb1
  have hla : load ⟨a.data_.buffer_, b.size_⟩ w = .ok (z, w) :=
    load_eq _ w _ z hba1 (by rw [hsb]; exact getElem?_mid _ _ _ _ (by simp))
  have hrun : a.eq b w = equal_n ⟨a.data_.buffer_, b.size_⟩ (zs.length + 1)
      ⟨b.data_.buffer_, b.size_⟩ w := by
    simp only [Vector.eq, std_equal, Vector.begin, Vector.end_, RawMemory.GetAddress, Ptr.add,
      bind_apply, hsa, Nat.zero_add,
      distance_eq a.data_.buffer_ 0 (ys.length + (zs.length + 1)) w (by omega), ok_bind,
      Nat.sub_zero]
    rw [hskip, hsb]
    simp
  constructor
  · rw [hrun]
    simp only [equal_n, bind_apply, Ptr.add]
  · rw [hrun]
    simp only [equal_n, bind_apply, hla, ok_bind, hlb, error_bind]

/-- C18: in every state in which `a` holds `ys` followed by at least one
more element and `b` holds `ys` (so `a.Size() > b.Size()` and the first
`b.Size()` elements agree), the evaluation of `a == b` reaches the comparison
at index `b.Size()` and reads the slot of `b` at that index, which is raw
memory when `b` has spare capacity and lies behind the block of `b`
otherwise: the evaluation stops at this read.  And in every state in which
`a.Size() <= b.Size()`, `a == b` returns, while any read of a slot of `b` at
an index from `b.Size()` on would stop the evaluation: no such slot is
read. -/
theorem C18_equality_reads_past_shorter {α : Type} [DecidableEq α] (a b : Vector)
    (w : World α) :
    (∀ (ys : List α) (z : α) (zs : List α), a.Owns w (ys ++ z :: zs) → b.Owns w ys →
      b.Size < a.Size ∧
      a.eq b w = (load (α := α) ⟨a.data_.buffer_, b.Size⟩ >>= fun x =>
        load (α := α) ⟨b.data_.buffer_, b.Size⟩ >>= fun y =>
        if x = y then
          equal_n ⟨a.data_.buffer_, b.Size + 1⟩ zs.length ⟨b.data_.buffer_, b.Size + 1⟩
        else pure false) w ∧
      load ⟨a.data_.buffer_, b.Size⟩ w = .ok (z, w) ∧
      load ⟨b.data_.buffer_, b.Size⟩ w
        = .error (if b.Size < b.Capacity then .not_live else .bad_access) ∧
      a.eq b w = .error (if b.Size < b.Capacity then .not_live else .bad_access)) ∧
    (∀ xs ys : List α, a.Owns w xs → b.Owns w ys → a.Size ≤ b.Size →
      (∃ r : Bool, a.eq b w = .ok (r, w)) ∧
      ∀ i : Nat, b.Size ≤ i → ∃ f : Fault, load ⟨b.data_.buffer_, i⟩ w = .error f) := by
  constructor
  · intro ys z zs ha hb
    obtain ⟨h1, h2⟩ := eq_longer_fault a b ys z zs w ha hb
    refine ⟨?_, h1, ?_, load_outside b ys w hb b.size_ (Nat.le_refl _), h2⟩
    · show b.size_ < a.size_
      rw [ha.1, hb.1]
      simp
    · have hblk : w.block a.data_.buffer_ = some (ys.map some ++ some z :: (zs.map some ++
          List.replicate (a.data_.capacity_ - (ys ++ z :: zs).length) none)) := by
        rw [ha.2.2]; simp
      exact load_eq _ w _ z hblk (getElem?_mid _ _ _ _ (by simp [Vector.Size, hb.1]))
  · intro xs ys ha hb hlen
    refine ⟨⟨_, eq_spec a b xs ys w ha hb (by rw [← ha.1, ← hb.1]; exact hlen)⟩, ?_⟩
    intro i hi
    exact ⟨_, load_outside b ys w hb i hi⟩

/-- With `a = [1, 2, 3]` and `b = [1, 2]` of capacity 3, `a == b` stops at the
read of the raw slot 2 of `b`; and `b == a` returns true. -/
theorem C18_equality_reads_past_shorter_witness :
    vec_123.Owns world_prefix ([1, 2] ++ 3 :: []) ∧ vec_12.Owns world_prefix [1, 2] ∧
    vec_12.Size < vec_123.Size ∧
    load ⟨vec_12.data_.buffer_, 2⟩ world_prefix = .error Fault.not_live ∧
    vec_123.eq vec_12 world_prefix = .error Fault.not_live ∧
    ∃ r : Bool, vec_12.eq vec_123 world_prefix = .ok (r, world_prefix) := by
  have ha : vec_123.Owns world_prefix ([1, 2] ++ 3 :: []) := by decide
  have hb : vec_12.Owns world_prefix [1, 2] := by decide
  obtain ⟨hlt, -, -, hl, he⟩ :=
    (C18_equality_reads_past_shorter vec_123 vec_12 world_prefix).1 [1, 2] 3 [] ha hb
  obtain ⟨hr, -⟩ :=
    (C18_equality_reads_past_shorter vec_12 vec_123 world_prefix).2 [1, 2] [1, 2, 3] hb ha
      (by decide)
  exact ⟨ha, hb, hlt, hl, he, hr⟩

theorem EmplaceBack_or_throw_no_throw {α : Type} (E : ElemType α) (v : Vector) (x : α) :
    v.EmplaceBack_or_throw E (no_throw α) x
      = (fun r => (r.1, Except.ok r.2)) <$> v.EmplaceBack E x := by
  unfold Vector.EmplaceBack_or_throw Vector.EmplaceBack
  by_cases hc : v.size_ = v.Capacity
  · simp only [hc, if_true, no_throw, Bool.false_eq_true, and_false, if_false, map_bind,
      bind_assoc, pure_bind, map_pure]
    cases E.is_nothrow_move_constructible <;> cases E.is_copy_constructible <;>
      simp only [Bool.or_false, Bool.or_true, Bool.not_true, Bool.not_false, Bool.false_eq_true,
        if_true, if_false, map_bind, map_pure, Bool.or_self]
  · simp only [hc, if_false, no_throw, Bool.false_eq_true, map_bind, bind_assoc, pure_bind,
      map_pure]

theorem PushBack_or_throw_no_throw {α : Type} (E : ElemType α) (v : Vector) (x : α) :
    v.PushBack_or_throw E (no_throw α) x
      = (fun r => (r, Except.ok ())) <$> v.PushBack E x := by
  simp only [Vector.PushBack_or_throw, Vector.PushBack, EmplaceBack_or_throw_no_throw,
    map_bind, bind_assoc, pure_bind, map_pure, bind_map_left, Except.map]

theorem EmplaceBack_bad_alloc {α : Type} (E : ElemType α) (T : Throws α) (v : Vector) (x : α)
    (w : World α) (hfull : v.size_ = v.data_.capacity_)
    (hnew : T.operator_new (if v.size_ = 0 then 1 else v.size_ * 2) = true) :
    v.EmplaceBack_or_throw E T x w = .ok ((v, .error .bad_alloc), w) := by
  have hnc : (if v.size_ = 0 then 1 else v.size_ * 2) ≠ 0 := by split <;> omega
  unfold Vector.EmplaceBack_or_throw
  simp only [Vector.Capacity, RawMemory.Capacity, hfull, if_true]
  rw [hfull] at hnew hnc
  rw [if_pos ⟨hnc, hnew⟩]
  rfl

theorem EmplaceBack_element_full {α : Type} (E : ElemType α) (T : Throws α) (v : Vector)
    (x : α) (w : World α) (hfull : v.size_ = v.data_.capacity_)
    (hnew : T.operator_new (if v.size_ = 0 then 1 else v.size_ * 2) = false)
    (hx : T.construct x = true) :
    ∃ w2 : World α, v.EmplaceBack_or_throw E T x w = .ok ((v, .error .element), w2) ∧
      (∀ c, w2.block c = w.block c) ∧ w2.stats = w.stats := by
  have hnc : (if v.size_ = 0 then 1 else v.size_ * 2) ≠ 0 := by split <;> omega
  have hle : v.size_ ≤ (if v.size_ = 0 then 1 else v.size_ * 2) := by split <;> omega
  obtain ⟨w1, hcr, hblk, hf1, hs1⟩ := create_spec _ w hnc
  have hp := plus_eq ⟨w.fresh, if v.size_ = 0 then 1 else v.size_ * 2⟩ v.size_ w1 hle
  have hd := Deallocate_eq w.fresh _ w1 hblk
  refine ⟨w1.free w.fresh, ?_, ?_, ?_⟩
  · unfold Vector.EmplaceBack_or_throw
    rw [hfull] at hnew hcr hp
    simp only [Vector.Capacity, RawMemory.Capacity, hfull, if_true, hnew, Bool.false_eq_true,
      and_false, if_false, bind_apply, hcr, ok_bind, hp, hx, RawMemory.destructor, hd,
      pure_apply]
  · intro c
    by_cases hc : c = w.fresh
    · rw [hc, World.block_free_eq _ _ (World.fresh_ne_zero w), World.block_fresh]
    · rw [World.block_free_ne _ _ _ hc, hf1 c hc]
  · rw [World.stats_free, hs1]

theorem EmplaceBack_element_spare {α : Type} (E : ElemType α) (T : Throws α) (v : Vector)
    (x : α) (w : World α) (hspare : v.size_ < v.data_.capacity_)
    (hx : T.construct x = true) :
    v.EmplaceBack_or_throw E T x w = .ok ((v, .error .element), w) := by
  have hne : ¬ v.size_ = v.data_.capacity_ := by omega
  have hp := plus_eq v.data_ v.size_ w (by omega)
  unfold Vector.EmplaceBack_or_throw
  simp only [Vector.Capacity, RawMemory.Capacity, hne, if_false, bind_apply, hp, ok_bind, hx,
    if_true, pure_apply]

theorem PushBack_of_EmplaceBack_throw {α : Type} (E : ElemType α) (T : Throws α) (v : Vector)
    (x : α) (w w2 : World α) (e : Exn)
    (h : v.EmplaceBack_or_throw E T x w = .ok ((v, .error e), w2)) :
    v.PushBack_or_throw E T x w = .ok ((v, .error e), w2) := by
  simp only [Vector.PushBack_or_throw, bind_apply, h, ok_bind, pure_apply, Except.map]

/-- C15: in every state in which the vector holds `xs`, if `operator new`
throws during `EmplaceBack` or `PushBack` on the full path, or the
constructor of the new element throws on the full path or on the
spare-capacity path, then the call ends with that exception
(`std::bad_alloc` exactly when it is the allocation that fails) and the
vector is the same object state as before: it holds `xs` in order, with the
same `Size()`, `Capacity()` and storage, every block of memory is as before,
and no operation of the element type was run. -/
theorem C15_append_strong_guarantee {α : Type} (E : ElemType α) (T : Throws α) (v : Vector)
    (x : α) (xs : List α) (w : World α) (h : v.Owns w xs)
    (hthrow : (v.Size = v.Capacity ∧
        T.operator_new (if v.Size = 0 then 1 else v.Size * 2) = true) ∨
      T.construct x = true) :
    ∃ (e : Exn) (w2 : World α),
      v.EmplaceBack_or_throw E T x w = .ok ((v, .error e), w2) ∧
      v.PushBack_or_throw E T x w = .ok ((v, .error e), w2) ∧
      v.Owns w2 xs ∧ v.contents w2 = .ok (xs, w2) ∧
      (∀ c, w2.block c = w.block c) ∧ w2.stats = w.stats ∧
      (e = .bad_alloc ↔ v.Size = v.Capacity ∧
        T.operator_new (if v.Size = 0 then 1 else v.Size * 2) = true) := by
  have hcap : v.size_ ≤ v.data_.capacity_ := by rw [h.1]; exact h.2.1
  by_cases hfull : v.size_ = v.data_.capacity_
  · cases hnew : T.operator_new (if v.size_ = 0 then 1 else v.size_ * 2) with
    | true =>
      have hrun := EmplaceBack_bad_alloc E T v x w hfull hnew
      exact ⟨.bad_alloc, w, hrun, PushBack_of_EmplaceBack_throw E T v x w w _ hrun, h,
        contents_eq v xs w h, fun _ => rfl, rfl, by
          simp only [Vector.Size, Vector.Capacity, RawMemory.Capacity, hnew]
          simp [hfull]⟩
    | false =>
      have hx : T.construct x = true := by
        rcases hthrow with ⟨-, h1⟩ | h1
        · simp only [Vector.Size] at h1
          rw [hnew] at h1
          cases h1
        · exact h1
      obtain ⟨w2, hrun, hblk, hst⟩ := EmplaceBack_element_full E T v x w hfull hnew hx
      have ho : v.Owns w2 xs := Owns_of_block_eq v xs w w2 h (hblk _)
      exact ⟨.element, w2, hrun, PushBack_of_EmplaceBack_throw E T v x w w2 _ hrun, ho,
        contents_eq v xs w2 ho, hblk, hst, by simp [Vector.Size, hnew]⟩
  · have hx : T.construct x = true := by
      rcases hthrow with ⟨h1, -⟩ | h1
      · exact absurd h1 hfull
      · exact h1
    have hrun := EmplaceBack_element_spare E T v x w (by omega) hx
    exact ⟨.element, w, hrun, PushBack_of_EmplaceBack_throw E T v x w w _ hrun, h,
      contents_eq v xs w h, fun _ => rfl, rfl, by simp [Vector.Size, Vector.Capacity,
        RawMemory.Capacity, hfull]⟩

/-- On the full vector `[7]`: the allocation of 2 elements throws, or the
construction of 9 throws; on `[1, 2]` of capacity 3: the construction of 9
throws.  Each time the vector holds what it held. -/
theorem C15_append_strong_guarantee_witness :
    (vec_7.Owns world_two [7] ∧ ∃ w2 : World Int,
      vec_7.EmplaceBack_or_throw int_type new_2_throws 5 world_two
        = .ok ((vec_7, .error .bad_alloc), w2) ∧ vec_7.contents w2 = .ok ([7], w2)) ∧
    (∃ w2 : World Int,
      vec_7.EmplaceBack_or_throw int_type construct_9_throws 9 world_two
        = .ok ((vec_7, .error .element), w2) ∧ vec_7.contents w2 = .ok ([7], w2)) ∧
    (vec_12.Owns world_two [1, 2] ∧ ∃ w2 : World Int,
      vec_12.PushBack_or_throw int_type construct_9_throws 9 world_two
        = .ok ((vec_12, .error .element), w2) ∧ vec_12.contents w2 = .ok ([1, 2], w2)) := by
  have h7 : vec_7.Owns world_two [7] := by decide
  have h12 : vec_12.Owns world_two [1, 2] := by decide
  obtain ⟨e1, w1, hr1, -, -, hc1, -, -, he1⟩ :=
    C15_append_strong_guarantee int_type new_2_throws vec_7 5 [7] world_two h7
      (Or.inl ⟨rfl, by decide⟩)
  obtain ⟨e2, w2, hr2, -, -, hc2, -, -, he2⟩ :=
    C15_append_strong_guarantee int_type construct_9_throws vec_7 9 [7] world_two h7
      (Or.inr (by decide))
  obtain ⟨e3, w3, -, hr3, -, hc3, -, -, he3⟩ :=
    C15_append_strong_guarantee int_type construct_9_throws vec_12 9 [1, 2] world_two h12
      (Or.inr (by decide))
  have e1b : e1 = .bad_alloc := he1.2 ⟨rfl, by decide⟩
  have e2b : e2 = .element := by
    cases e2
    · exact absurd (he2.1 rfl).2 (by decide)
    · rfl
  have e3b : e3 = .element := by
    cases e3
    · exact absurd (he3.1 rfl).1 (by decide)
    · rfl
  subst e1b e2b e3b
  exact ⟨⟨h7, w1, hr1, hc1⟩, ⟨w2, hr2, hc2⟩, ⟨h12, w3, hr3, hc3⟩⟩

theorem Emplace_end_spec {α : Type} (E : ElemType α) (v : Vector) (x : α) (xs : List α)
    (w : World α) (h : v.Owns w xs) :
    ∃ (v2 : Vector) (w2 : World α),
      v.Emplace E (v.begin.add v.size_) x w = .ok ((v2, v2.begin.add v.size_), w2) ∧
      v2.Owns w2 (xs ++ [x]) ∧
      v2.data_.capacity_ = (if xs.length = v.data_.capacity_ then
        (if v.data_.capacity_ = 0 then 1 else 2 * v.data_.capacity_) else v.data_.capacity_) ∧
      w.Frame w2 v.data_.buffer_ ∧
      (v2.data_.buffer_ = v.data_.buffer_ ∨ w.block v2.data_.buffer_ = none) := by
  obtain ⟨v2, w2, hrun, ho, hcap, hfr, hfresh⟩ := EmplaceBack_spec E v x xs w h
  refine ⟨v2, w2, ?_, ho, hcap, hfr, hfresh⟩
  have hpos : v.begin.add v.size_ = v.end_ := rfl
  have hs2 : v2.size_ = xs.length + 1 := by rw [ho.1]; simp
  have hsub := ptr_sub_eq v2.end_ 1 w2 (by simp [Vector.end_, Ptr.add, hs2, RawMemory.GetAddress])
  simp only [Vector.Emplace, hpos, if_true, bind_apply, hrun, ok_bind, hsub, pure_apply]
  simp [Vector.end_, Vector.begin, Ptr.add, RawMemory.GetAddress, hs2, h.1]

theorem Emplace_index_spec {α : Type} (E : ElemType α) (v : Vector) (x : α) (zs : List α)
    (k : Nat) (w : World α) (h : v.Owns w zs) (hk : k ≤ v.size_) :
    (∃ (v2 : Vector) (w2 : World α),
      v.Emplace E (v.begin.add k) x w = .ok ((v2, v2.begin.add k), w2) ∧
      v2.Owns w2 (zs.take k ++ x :: zs.drop k) ∧
      v.data_.capacity_ ≤ v2.data_.capacity_ ∧
      w.Frame w2 v.data_.buffer_ ∧
      (v2.data_.buffer_ = v.data_.buffer_ ∨ w.block v2.data_.buffer_ = none)) ∨
    (k < v.size_ ∧ v.size_ = v.data_.capacity_ ∧
      (!E.is_copy_constructible || E.is_nothrow_move_constructible) = false ∧
      v.Emplace E (v.begin.add k) x w = .error .bad_access) := by
  have hsz : v.size_ = zs.length := h.1
  have hle : zs.length ≤ v.data_.capacity_ := h.2.1
  by_cases hend : k = v.size_
  · left
    obtain ⟨v2, w2, hrun, ho, hcap, hfr, hfresh⟩ := Emplace_end_spec E v x zs w h
    refine ⟨v2, w2, by rw [hend]; exact hrun, ?_, ?_, hfr, hfresh⟩
    · rw [hend, hsz]; simpa using ho
    · rw [hcap]; split
      · split <;> omega
      · omega
  · have hi2 : k < zs.length := by omega
    have hxl : (zs.take k).length = k := by simp [Nat.min_eq_left (Nat.le_of_lt hi2)]
    obtain ⟨y, ys, hd⟩ := drop_ne_nil zs k hi2
    by_cases hfull : v.size_ = v.data_.capacity_
    · have hzs : zs = zs.take k ++ y :: ys := by rw [← hd, List.take_append_drop]
      have h2 : v.Owns w (zs.take k ++ y :: ys) := by rw [← hzs]; exact h
      cases hmove : (!E.is_copy_constructible || E.is_nothrow_move_constructible) with
      | true =>
        left
        obtain ⟨w2, hrun, ho2, hfr⟩ := Emplace_full_move_spec E v (zs.take k) ys y x w h2 hfull
          hmove
        rw [← begin_add v zs k (Nat.le_of_lt hi2)] at hrun
        refine ⟨_, w2, ?_, by rw [hd]; exact ho2, ?_, hfr, Or.inr (World.block_fresh w)⟩
        · rw [hrun]
          simp [Vector.begin, RawMemory.GetAddress, Ptr.add, hxl]
        · show v.data_.capacity_ ≤ v.size_ * 2
          omega
      | false =>
        right
        have hf := Emplace_full_copy_fault E v (zs.take k) ys y x w h2 hfull hmove
        rw [← begin_add v zs k (Nat.le_of_lt hi2)] at hf
        exact ⟨by omega, hfull, rfl, hf⟩
    · left
      obtain ⟨ms, z, hmz⟩ : ∃ (ms : List α) (z : α), zs.drop k = ms ++ [z] := by
        rcases List.eq_nil_or_concat (zs.drop k) with hnil | ⟨ms, z, hc⟩
        · rw [hnil] at hd; cases hd
        · exact ⟨ms, z, by rw [hc, List.concat_eq_append]⟩
      have hzs : zs = zs.take k ++ ms ++ [z] := by
        rw [List.append_assoc, ← hmz, List.take_append_drop]
      have h2 : v.Owns w (zs.take k ++ ms ++ [z]) := by rw [← hzs]; exact h
      obtain ⟨w2, hrun, ho2, hf2, -⟩ := Emplace_spare_spec E v (zs.take k) ms z x w h2
        (by omega)
      rw [← begin_add v zs k (Nat.le_of_lt hi2)] at hrun
      refine ⟨⟨v.data_, v.size_ + 1⟩, w2, ?_, by rw [hmz]; exact ho2, Nat.le_refl _,
        fun c hc _ => hf2 c hc, Or.inl rfl⟩
      rw [hrun]
      simp [Vector.begin, RawMemory.GetAddress, Ptr.add, hxl]

theorem copy_assign_grow_fresh {α : Type} (v rhs : Vector) (xs ys : List α) (w : World α)
    (h : v.Owns w xs) (h2 : rhs.Owns w ys)
    (hgt : v.data_.capacity_ < ys.length) :
    ∃ (v2 : Vector) (w2 : World α),
      v.copy_assign rhs false w = .ok (v2, w2) ∧ v2.Owns w2 ys ∧
      v2.data_.capacity_ = ys.length ∧ w.block v2.data_.buffer_ = none ∧
      w.Frame w2 v.data_.buffer_ := by
  obtain ⟨c, w1, hcp, hoc, hcap, hf1, hfresh, -⟩ := copy_spec rhs ys w h2
  have hcne : c.data_.buffer_ ≠ 0 := by
    intro h0
    have := (Owns_null c ys w1 hoc h0).1
    rw [this] at hgt
    simp at hgt
  have hcnone : w.block c.data_.buffer_ = none := by
    rcases hfresh with h0 | hn
    · exact absurd h0 hcne
    · exact hn
  have hvc : c.data_.buffer_ ≠ v.data_.buffer_ := by
    intro e
    rw [e, h.2.2] at hcnone
    cases hcnone
  have hov1 : (⟨⟨v.data_.buffer_, v.data_.capacity_⟩, v.size_⟩ : Vector).Owns w1 xs :=
    Owns_of_block_eq v xs w w1 h (hf1 _ (by rw [h.2.2]; simp))
  obtain ⟨w2, hde, hf2, -⟩ := destructor_spec _ xs w1 hov1
  have hsz2 : rhs.size_ = ys.length := h2.1
  refine ⟨⟨⟨c.data_.buffer_, c.data_.capacity_⟩, c.size_⟩, w2, ?_, ?_, hcap, hcnone, ?_⟩
  · simp only [Vector.copy_assign, Bool.not_false, if_true, Vector.Capacity, RawMemory.Capacity,
      hsz2, gt_iff_lt, hgt, bind_apply, hcp, ok_bind, Vector.Swap, RawMemory.Swap, hde,
      pure_apply]
  · exact Owns_of_block_eq c ys w1 w2 hoc (hf2 _ hvc)
  · intro b hb1 hb2
    rw [hf2 _ hb1, hf1 _ hb2]

theorem copy_assign_frame_spec {α : Type} (a b : Vector) (xs ys : List α) (w : World α)
    (ha : a.Owns w xs) (hb : b.Owns w ys)
    (hdis : a.data_.buffer_ ≠ b.data_.buffer_ ∨ a.data_.buffer_ = 0) :
    ∃ (a2 : Vector) (w2 : World α),
      a.copy_assign b false w = .ok (a2, w2) ∧ a2.Owns w2 ys ∧
      a.data_.capacity_ ≤ a2.data_.capacity_ ∧
      w.Frame w2 a.data_.buffer_ ∧
      (a2.data_.buffer_ = a.data_.buffer_ ∨ w.block a2.data_.buffer_ = none) ∧
      (ys.length ≤ a.data_.capacity_ → a2.data_ = a.data_ ∧
        (xs.length ≤ ys.length → w2.stats = (w.stats.bump .copy_assign xs.length).bump
          .copy_construct (ys.length - xs.length)) ∧
        (ys.length < xs.length → w2.stats = (w.stats.bump .copy_assign ys.length).bump
          .destroy (xs.length - ys.length))) := by
  by_cases hgt : a.data_.capacity_ < ys.length
  · obtain ⟨a2, w2, hrun, ho, hcap, hnone, hfr⟩ := copy_assign_grow_fresh a b xs ys w ha hb hgt
    exact ⟨a2, w2, hrun, ho, by omega, hfr, Or.inr hnone, fun hle => absurd hgt (by omega)⟩
  · have hle : ys.length ≤ a.data_.capacity_ := by omega
    by_cases h0 : a.data_.buffer_ = 0
    · obtain ⟨hys, hrun⟩ := copy_assign_null_spec a b xs ys w ha hb h0 hle
      obtain ⟨hxs, hc0, -⟩ := Owns_null a xs w ha h0
      subst hys hxs
      refine ⟨_, w, hrun, ⟨rfl, by simp, ?_⟩, Nat.le_refl _, fun _ _ _ => rfl, Or.inl rfl,
        fun _ => ⟨rfl, fun _ => by simp [Stats.bump_zero], fun hlt => by simp at hlt⟩⟩
      have := ha.2.2
      simpa using this
    · have hne : b.data_.buffer_ ≠ a.data_.buffer_ := by
        rcases hdis with hd | hd
        · exact fun e => hd e.symm
        · exact absurd hd h0
      by_cases hge : xs.length ≤ ys.length
      · obtain ⟨w2, hrun, ho, hf, hst⟩ := copy_assign_extend_spec a b xs ys w ha hb hne hle hge
        exact ⟨_, w2, hrun, ho, Nat.le_refl _, fun c hc _ => hf c hc, Or.inl rfl,
          fun _ => ⟨rfl, fun _ => hst, fun hlt => absurd hlt (by omega)⟩⟩
      · obtain ⟨w2, hrun, ho, hf, hst⟩ := copy_assign_shrink_spec a b xs ys w ha hb hne
          (by omega)
        exact ⟨_, w2, hrun, ho, Nat.le_refl _, fun c hc _ => hf c hc, Or.inl rfl,
          fun _ => ⟨rfl, fun h1 => absurd h1 hge, fun _ => hst⟩⟩

theorem Separate_head {α : Type} (w : World α) (v : Vector) (vs : List Vector)
    (hs : Separate w (v :: vs)) : ∃ xs : List α, v.Owns w xs :=
  hs.1 v (List.mem_cons_self _ _)

theorem PopBack_pos_spec {α : Type} (v : Vector) (xs : List α) (w : World α)
    (h : v.Owns w xs) (hpos : 0 < v.size_) :
    ∃ w2 : World α, v.PopBack w = .ok (⟨v.data_, v.size_ - 1⟩, w2) ∧
      (⟨v.data_, v.size_ - 1⟩ : Vector).Owns w2 xs.dropLast := by
  rcases List.eq_nil_or_concat xs with hnil | ⟨ys, y, hc⟩
  · have h0 : v.size_ = 0 := by rw [h.1, hnil]; rfl
    omega
  · rw [List.concat_eq_append] at hc
    subst hc
    obtain ⟨w2, hrun, ho, -, -⟩ := PopBack_spec v ys y w h
    exact ⟨w2, hrun, by simpa using ho⟩

theorem Separate_mem {α : Type} (w : World α) (v b : Vector) (vs : List Vector)
    (hs : Separate w (v :: vs)) (hb : b ∈ vs) :
    (∃ xs : List α, v.Owns w xs) ∧ (∃ ys : List α, b.Owns w ys) ∧
    (v.data_.buffer_ ≠ b.data_.buffer_ ∨ v.data_.buffer_ = 0) := by
  refine ⟨hs.1 v (by simp), hs.1 b (List.mem_cons_of_mem _ hb), ?_⟩
  have := (List.pairwise_cons.mp hs.2).1 b hb
  by_cases e : v.data_.buffer_ = b.data_.buffer_
  · exact Or.inr (this e)
  · exact Or.inl e

theorem copy_assign_self_eq {α : Type} (v : Vector) (w : World α) :
    v.copy_assign v true w = .ok (v, w) := by
  simp only [Vector.copy_assign, Bool.not_true, Bool.false_eq_true, if_false, pure_apply]

theorem map_apply {α β γ : Type} (f : β → γ) (m : Exec α β) (w : World α) :
    (f <$> m) w = (m w).map (fun r => (f r.1, r.2)) := by
  show (m w >>= fun r => pure (f r.1, r.2)) = _
  cases m w <;> rfl

theorem Machine.bytes_fit (M : Machine) (n : Nat) (hpos : 0 < M.sizeof_T)
    (hfit : n * M.sizeof_T < 2 ^ M.size_t_bits) : M.bytes n / M.sizeof_T = n := by
  rw [Machine.bytes, Nat.mod_eq_of_lt hfit]
  exact Nat.mul_div_cancel n hpos

theorem create_on_throw {α : Type} (M : Machine) (n : Nat) (w : World α) (h : n ≠ 0)
    (hf : M.new_fails (M.bytes n) = true) :
    RawMemory.create_on M n w = .ok (.error .bad_alloc, w) := by
  simp [RawMemory.create_on, RawMemory.Allocate_on, bind_apply, ok_bind, pure_apply, h, hf]

theorem create_on_ok {α : Type} (M : Machine) (n : Nat) (w : World α) (h : n ≠ 0)
    (hf : M.new_fails (M.bytes n) = false) :
    RawMemory.create_on M n w
      = .ok (.ok ⟨w.fresh, n⟩, w.grow (List.replicate (M.bytes n / M.sizeof_T) none)) := by
  simp [RawMemory.create_on, RawMemory.Allocate_on, bind_apply, ok_bind, pure_apply, h, hf,
    World.fresh, World.grow]

theorem create_on_fit {α : Type} (M : Machine) (n : Nat) (w : World α) (h : n ≠ 0)
    (hpos : 0 < M.sizeof_T) (hfit : n * M.sizeof_T < 2 ^ M.size_t_bits)
    (hf : M.new_fails (M.bytes n) = false) :
    RawMemory.create_on M n w = .ok (.ok ⟨w.fresh, n⟩, w.grow (List.replicate n none)) := by
  rw [create_on_ok M n w h hf, Machine.bytes_fit M n hpos hfit]

theorem Reserve_on_fit {α : Type} (E : ElemType α) (M : Machine) (v : Vector) (n : Nat)
    (w : World α)
    (h : n ≤ v.data_.capacity_ ∨ (0 < M.sizeof_T ∧ n * M.sizeof_T < 2 ^ M.size_t_bits ∧
      M.new_fails (M.bytes n) = false)) :
    v.Reserve_on E M n w = ((fun r => (r, Except.ok ())) <$> v.Reserve E n) w := by
  by_cases hle : n ≤ v.data_.capacity_
  · simp only [Vector.Reserve_on, Vector.Reserve, RawMemory.Capacity, hle, if_true, map_pure]
  · rcases h with h | ⟨hpos, hfit, hf⟩
    · exact absurd h hle
    · have hn : n ≠ 0 := by omega
      have h1 := create_on_fit (α := α) M n w hn hpos hfit hf
      have h2 := create_eq (α := α) n w hn
      simp only [Vector.Reserve_on, Vector.Reserve, RawMemory.Capacity, hle, if_false,
        map_bind, map_pure]
      simp only [bind_apply, h1, h2, ok_bind]
      cases (!E.is_copy_constructible || E.is_nothrow_move_constructible) <;>
        simp only [Bool.false_eq_true, if_false, if_true, map_bind, map_pure]

theorem Reserve_on_of_Reserve {α : Type} (E : ElemType α) (M : Machine) (v v2 : Vector)
    (n : Nat) (w w2 : World α)
    (h : n ≤ v.data_.capacity_ ∨ (0 < M.sizeof_T ∧ n * M.sizeof_T < 2 ^ M.size_t_bits ∧
      M.new_fails (M.bytes n) = false))
    (hrun : v.Reserve E n w = .ok (v2, w2)) :
    v.Reserve_on E M n w = .ok ((v2, .ok ()), w2) := by
  rw [Reserve_on_fit E M v n w h, map_apply, hrun]
  rfl

theorem Reserve_on_throw {α : Type} (E : ElemType α) (M : Machine) (v : Vector) (n : Nat)
    (w : World α) (hlt : v.data_.capacity_ < n) (hf : M.new_fails (M.bytes n) = true) :
    v.Reserve_on E M n w = .ok ((v, .error .bad_alloc), w) := by
  have hle : ¬ n ≤ v.data_.capacity_ := by omega
  have h1 := create_on_throw (α := α) M n w (by omega) hf
  simp only [Vector.Reserve_on, RawMemory.Capacity, hle, if_false, bind_apply, h1, ok_bind,
    pure_apply]

theorem Resize_on_fit {α : Type} (E : ElemType α) (M : Machine) (v : Vector) (n : Nat)
    (w : World α)
    (h : n ≤ v.data_.capacity_ ∨ (0 < M.sizeof_T ∧ n * M.sizeof_T < 2 ^ M.size_t_bits ∧
      M.new_fails (M.bytes n) = false)) :
    v.Resize_on E M n w = ((fun r => (r, Except.ok ())) <$> v.Resize E n) w := by
  have h1 := Reserve_on_fit E M v n w h
  simp only [Vector.Resize_on, Vector.Resize, map_bind, map_pure]
  simp only [bind_apply, h1, map_apply]
  cases hr : v.Reserve E n w with
  | error f => rfl
  | ok r =>
    refine Eq.trans ?_ (map_apply (fun r : Vector => (r, (Except.ok () : Except Exn Unit))) _ r.2)
    by_cases hc : n ≤ r.1.size_
    · simp only [Except.map, ok_bind, hc, if_true, map_bind, map_pure]
    · simp only [Except.map, ok_bind, hc, if_false, map_bind, map_pure]

theorem Resize_on_of_Resize {α : Type} (E : ElemType α) (M : Machine) (v v2 : Vector)
    (n : Nat) (w w2 : World α)
    (h : n ≤ v.data_.capacity_ ∨ (0 < M.sizeof_T ∧ n * M.sizeof_T < 2 ^ M.size_t_bits ∧
      M.new_fails (M.bytes n) = false))
    (hrun : v.Resize E n w = .ok (v2, w2)) :
    v.Resize_on E M n w = .ok ((v2, .ok ()), w2) := by
  rw [Resize_on_fit E M v n w h, map_apply, hrun]
  rfl

theorem Resize_on_throw {α : Type} (E : ElemType α) (M : Machine) (v : Vector) (n : Nat)
    (w : World α) (hlt : v.data_.capacity_ < n) (hf : M.new_fails (M.bytes n) = true) :
    v.Resize_on E M n w = .ok ((v, .error .bad_alloc), w) := by
  simp only [Vector.Resize_on, bind_apply, Reserve_on_throw E M v n w hlt hf, ok_bind,
    pure_apply]

theorem store_past_end {α : Type} (p : Ptr) (s : Option α) (w : World α) (b : Block α)
    (h : w.block p.block = some b) (hx : b.length ≤ p.off) :
    store p s w = .error .bad_access := by
  simp [store, h, Nat.not_lt.mpr hx]

theorem move_overrun {α : Type} (E : ElemType α) (first : Ptr) (a i n : Nat) (x : α)
    (w : World α) (b : Block α) (hl : load first w = .ok (x, w))
    (h : w.block a = some b) (hx : b.length ≤ i) (hn : 0 < n) :
    uninitialized_move_n E first n ⟨a, i⟩ w = .error .bad_access := by
  cases n with
  | zero => omega
  | succ n =>
    simp only [uninitialized_move_n, construct_move, bind_assoc, bind_apply, hl, ok_bind,
      store_past_end ⟨a, i⟩ _ w b h hx, error_bind]

theorem copy_overrun {α : Type} (first : Ptr) (a i n : Nat) (x : α)
    (w : World α) (b : Block α) (hl : load first w = .ok (x, w))
    (h : w.block a = some b) (hx : b.length ≤ i) (hn : 0 < n) :
    uninitialized_copy_n first n ⟨a, i⟩ w = .error .bad_access := by
  cases n with
  | zero => omega
  | succ n =>
    simp only [uninitialized_copy_n, construct_copy, bind_assoc, bind_apply, hl, ok_bind,
      store_past_end ⟨a, i⟩ _ w b h hx, error_bind]

theorem Reserve_on_wrap {α : Type} (E : ElemType α) (M : Machine) (v : Vector) (n : Nat)
    (x : α) (xs : List α) (w : World α) (h : v.Owns w (x :: xs))
    (hlt : v.data_.capacity_ < n) (hf : M.new_fails (M.bytes n) = false)
    (hwrap : M.bytes n / M.sizeof_T = 0) :
    v.Reserve_on E M n w = .error .bad_access := by
  have hle : ¬ n ≤ v.data_.capacity_ := by omega
  have h1 := create_on_ok (α := α) M n w (by omega) hf
  rw [hwrap] at h1
  have hne : v.data_.buffer_ ≠ w.fresh := World.ne_fresh w _ _ h.2.2
  have hl : load ⟨v.data_.buffer_, 0⟩ (w.grow []) = .ok (x, w.grow []) := by
    refine load_eq _ _ (List.map some (x :: xs) ++
      List.replicate (v.data_.capacity_ - (x :: xs).length) none) x ?_ ?_
    · exact (World.block_grow_ne w [] _ hne).trans h.2.2
    · simp
  have hb : (w.grow ([] : Block α)).block w.fresh = some [] := World.block_grow_fresh w []
  have hsz : 0 < v.size_ := by rw [h.1]; simp
  have hm := move_overrun E ⟨v.data_.buffer_, 0⟩ w.fresh 0 v.size_ x _ [] hl hb
    (Nat.le_refl _) hsz
  have hc := copy_overrun ⟨v.data_.buffer_, 0⟩ w.fresh 0 v.size_ x _ [] hl hb
    (Nat.le_refl _) hsz
  simp only [Vector.Reserve_on, RawMemory.Capacity, hle, if_false, bind_apply, h1, ok_bind,
    List.replicate_zero]
  cases (!E.is_copy_constructible || E.is_nothrow_move_constructible)
  · simp only [Bool.false_eq_true, if_false, bind_apply, RawMemory.GetAddress, hc, error_bind]
  · simp only [if_true, bind_apply, RawMemory.GetAddress, hm, error_bind]

/-- C7, as stated, fails for a capacity whose byte count does not fit
`size_t` and for one that `operator new` cannot give.  On a machine with a
64-bit `size_t` and 4-byte elements, `Reserve(1 << 62)` on the vector
`[1, 2]` asks `operator new` for `0` bytes and stops at the construction of
element 0 behind the block obtained; and `Reserve(1 << 61)` ends with
`std::bad_alloc`, the capacity still 3. -/
theorem C7_reserve_wraps_or_throws :
    vec_12.Owns world_12_spare [1, 2] ∧
    vec_12.Capacity < 2 ^ 62 ∧ machine_64.bytes (2 ^ 62) = 0 ∧
    vec_12.Reserve_on int_type machine_64 (2 ^ 62) world_12_spare = .error .bad_access ∧
    vec_12.Capacity < 2 ^ 61 ∧
    vec_12.Reserve_on int_type machine_64 (2 ^ 61) world_12_spare
      = .ok ((vec_12, .error .bad_alloc), world_12_spare) ∧
    vec_12.Capacity = 3 := by
  have ho : vec_12.Owns world_12_spare [1, 2] := by decide
  have hb : machine_64.bytes (2 ^ 62) = 0 := by norm_num [machine_64, Machine.bytes]
  refine ⟨ho, by decide, hb, ?_, by decide, ?_, rfl⟩
  · refine Reserve_on_wrap int_type machine_64 vec_12 (2 ^ 62) 1 [2] world_12_spare ho
      (by decide) ?_ ?_
    · rw [hb]; rfl
    · rw [hb]; rfl
  · refine Reserve_on_throw int_type machine_64 vec_12 (2 ^ 61) world_12_spare (by decide) ?_
    norm_num [machine_64, Machine.bytes]

/-- C7, amended: in every state in which `v` holds the elements `xs`, on
every machine: when `n <= Capacity()`, `Reserve(n)` returns and the vector and
the memory are unchanged; when `n > Capacity()`, `n * sizeof(T)` does not
exceed `SIZE_MAX` and `operator new` gives the bytes, `Reserve(n)` returns,
the capacity becomes exactly `n`, `Size()` is unchanged and every element is
the one that was at its index; and when `operator new` throws instead, the
call ends with `std::bad_alloc` and the vector and the memory are
unchanged. -/
theorem C7_reserve {α : Type} (E : ElemType α) (M : Machine) (v : Vector) (n : Nat)
    (xs : List α) (w : World α) (h : v.Owns w xs) :
    (n ≤ v.Capacity → v.Reserve_on E M n w = .ok ((v, .ok ()), w)) ∧
    (v.Capacity < n → n * M.sizeof_T < 2 ^ M.size_t_bits →
      M.new_fails (M.bytes n) = false →
      ∃ (v2 : Vector) (w2 : World α),
        v.Reserve_on E M n w = .ok ((v2, .ok ()), w2) ∧
        v2.Capacity = n ∧ v2.Size = v.Size ∧
        v2.contents w2 = .ok (xs, w2) ∧
        (∀ (i : Nat) (x : α), xs[i]? = some x → v2.get i w2 = .ok (x, w2)) ∧
        v2.Owns w2 xs) ∧
    (v.Capacity < n → M.new_fails (M.bytes n) = true →
      v.Reserve_on E M n w = .ok ((v, .error .bad_alloc), w)) := by
  obtain ⟨v2, w2, hrun, hsame, hcap, hsz, hcont, hget, ho2⟩ := Reserve_full_spec E v n xs w h
  refine ⟨?_, ?_, ?_⟩
  · intro hle
    obtain ⟨hv, hw⟩ := hsame hle
    rw [hv, hw] at hrun
    exact Reserve_on_of_Reserve E M v v n w w (Or.inl hle) hrun
  · intro hlt hfit hf
    exact ⟨v2, w2, Reserve_on_of_Reserve E M v v2 n w w2 (Or.inr ⟨M.sizeof_pos, hfit, hf⟩) hrun,
      hcap hlt, hsz, hcont, hget, ho2⟩
  · intro hlt hf
    exact Reserve_on_throw E M v n w hlt hf

/-- On a machine with a 64-bit `size_t` and 4-byte elements, `Reserve(5)` on
`[1, 2]` of capacity 3 gives capacity 5 and keeps the elements. -/
theorem C7_reserve_witness :
    vec_12.Owns world_12_spare [1, 2] ∧
    ∃ (v2 : Vector) (w2 : World Int),
      vec_12.Reserve_on int_type machine_64 5 world_12_spare = .ok ((v2, .ok ()), w2) ∧
      v2.Capacity = 5 ∧ v2.Size = 2 ∧ v2.contents w2 = .ok ([1, 2], w2) := by
  have ho : vec_12.Owns world_12_spare [1, 2] := by decide
  obtain ⟨v2, w2, hrun, hcap, hs, hc, -, -⟩ :=
    (C7_reserve int_type machine_64 vec_12 5 [1, 2] world_12_spare ho).2.1 (by decide)
      (by norm_num [machine_64]) (by norm_num [machine_64, Machine.bytes])
  exact ⟨ho, v2, w2, hrun, hcap, hs, hc⟩

theorem equal_n_with_eq {α : Type} (op : α → α → Bool) (a1 a2 : Nat) :
    ∀ (xs ys : List α) (sl sr l r : Block α) (w : World α) (j i : Nat),
      j = sl.length → i = l.length → ys.length = xs.length →
      w.block a1 = some (sl ++ xs.map some ++ sr) →
      w.block a2 = some (l ++ ys.map some ++ r) →
      equal_n_with op ⟨a1, j⟩ xs.length ⟨a2, i⟩ w
        = .ok ((List.zipWith op xs ys).all id, w) := by
  intro xs
  induction xs with
  | nil =>
    intro ys sl sr l r w j i _ _ hm _ _
    rw [List.length_eq_zero.mp hm]
    simp [equal_n_with, pure_apply]
  | cons x xs ih =>
    intro ys sl sr l r w j i hj hi hm hs h
    cases ys with
    | nil => simp at hm
    | cons y ys =>
      have hs1 : w.block a1 = some (sl ++ some x :: (xs.map some ++ sr)) := by simpa using hs
      have h1 : w.block a2 = some (l ++ some y :: (ys.map some ++ r)) := by simpa using h
      have hl1 := load_eq ⟨a1, j⟩ w _ x hs1 (getElem?_mid sl _ _ j hj)
      have hl2 := load_eq ⟨a2, i⟩ w _ y h1 (getElem?_mid l _ _ i hi)
      have hn := ih ys (sl ++ [some x]) sr (l ++ [some y]) r w (j + 1) (i + 1)
        (by simp [hj]) (by simp [hi]) (by simpa using hm) (by simpa using hs)
        (by simpa using h)
      simp only [equal_n_with, List.length_cons, bind_apply, hl1, hl2, ok_bind, Ptr.add]
      cases hxy : op x y
      · simp [pure_apply, hxy]
      · simp [hn, hxy]

theorem zipWith_take_right {α : Type} (op : α → α → Bool) :
    ∀ xs ys : List α, List.zipWith op xs (List.take xs.length ys) = List.zipWith op xs ys := by
  intro xs
  induction xs with
  | nil => intro ys; simp
  | cons x xs ih =>
    intro ys
    cases ys with
    | nil => simp
    | cons y ys => simp [ih]

theorem eq_with_spec {α : Type} (op : α → α → Bool) (v rhs : Vector) (xs ys : List α)
    (w : World α) (h : v.Owns w xs) (h2 : rhs.Owns w ys) (hlen : xs.length ≤ ys.length) :
    v.eq_with op rhs w = .ok ((List.zipWith op xs ys).all id, w) := by
  obtain ⟨hsz, -, hb⟩ := h
  obtain ⟨-, -, hb2⟩ := h2
  have hsplit : ys.map some = (ys.take xs.length).map some ++ (ys.drop xs.length).map some := by
    rw [← List.map_append, List.take_append_drop]
  rw [hsplit, List.append_assoc] at hb2
  have he := equal_n_with_eq op v.data_.buffer_ rhs.data_.buffer_ xs (ys.take xs.length) [] _
    [] _ w 0 0 rfl rfl (by simp [Nat.min_eq_left hlen]) (by simpa using hb)
    (by simpa using hb2)
  rw [zipWith_take_right op xs ys] at he
  simp only [Vector.eq_with, std_equal_with, Vector.begin, Vector.end_, RawMemory.GetAddress,
    Ptr.add, bind_apply, hsz, Nat.zero_add, distance_eq v.data_.buffer_ 0 xs.length w
    (by omega), ok_bind, Nat.sub_zero]
  exact he

theorem zipWith_self_all {α : Type} (op : α → α → Bool) (xs : List α) :
    (List.zipWith op xs xs).all id = xs.all (fun x => op x x) := by
  induction xs with
  | nil => rfl
  | cons x xs ih =>
    simp only [List.zipWith_cons_cons, List.all_cons, ih, id]

theorem eq_with_decide {α : Type} [DecidableEq α] (v rhs : Vector) :
    v.eq_with (fun a b : α => decide (a = b)) rhs = Vector.eq (α := α) v rhs := by
  have key : ∀ (n : Nat) (p q : Ptr),
      equal_n_with (fun a b : α => decide (a = b)) p n q = equal_n (α := α) p n q := by
    intro n
    induction n with
    | zero => intro p q; rfl
    | succ n ih =>
      intro p q
      simp only [equal_n_with, equal_n, ih, decide_eq_true_eq]
  simp only [Vector.eq_with, Vector.eq, std_equal_with, std_equal, key]

/-- C9, as stated, fails for an element type whose `operator==` is not
reflexive: the copy `c` of the `Vector<double>` that holds one NaN holds the
same element, and `src == c` is false. -/
theorem C9_copy_of_nan_compares_unequal :
    vec_nan.Owns world_nan [Double.nan] ∧
    ∃ (c : Vector) (w1 : World Double),
      Vector.copy vec_nan world_nan = .ok (c, w1) ∧
      c.contents w1 = .ok ([Double.nan], w1) ∧
      vec_nan.contents w1 = .ok ([Double.nan], w1) ∧
      vec_nan.eq_with Double.eq c w1 = .ok (false, w1) := by
  have ho : vec_nan.Owns world_nan [Double.nan] := by decide
  obtain ⟨c, w1, hrun, hoc, -, hf1, -, -⟩ := copy_spec vec_nan [Double.nan] world_nan ho
  have hos1 : vec_nan.Owns w1 [Double.nan] :=
    Owns_of_block_eq vec_nan _ world_nan w1 ho (hf1 _ (by rw [ho.2.2]; simp))
  refine ⟨ho, c, w1, hrun, contents_eq c _ w1 hoc, contents_eq vec_nan _ w1 hos1, ?_⟩
  rw [eq_with_spec Double.eq vec_nan c _ _ w1 hos1 hoc (Nat.le_refl _)]
  rfl

/-- C9, amended: in every state in which `src` holds the elements `xs`, the
copy constructor succeeds and gives a vector `c` with `Size() == src.Size()`,
`Capacity() == src.Size()` and the same element at every index; `src` is
unchanged; `src == c` is true exactly when every element of `src` compares
equal to itself with the `operator==` of the element type, so it is true
when that operator is reflexive on the elements; after a later write to an
element of `c`, `PushBack` on `c` or `Erase` on `c`, `src` still holds `xs`,
with its length and capacity, in its own block. -/
theorem C9_copy_construct {α : Type} (E : ElemType α) (op : α → α → Bool) (src : Vector)
    (xs : List α) (w : World α) (h : src.Owns w xs) :
    ∃ (c : Vector) (w1 : World α),
      Vector.copy src w = .ok (c, w1) ∧
      c.Size = src.Size ∧ c.Capacity = src.Size ∧
      c.contents w1 = .ok (xs, w1) ∧
      (∀ (i : Nat) (x : α), xs[i]? = some x →
        c.get i w1 = .ok (x, w1) ∧ src.get i w1 = .ok (x, w1)) ∧
      src.Owns w1 xs ∧ src.contents w1 = .ok (xs, w1) ∧
      src.eq_with op c w1 = .ok (xs.all (fun x => op x x), w1) ∧
      ((∀ x ∈ xs, op x x = true) → src.eq_with op c w1 = .ok (true, w1)) ∧
      (∀ (i : Nat) (y : α), i < c.Size → ∃ w2 : World α,
        c.put i y w1 = .ok ((), w2) ∧ src.Owns w2 xs ∧ src.contents w2 = .ok (xs, w2)) ∧
      (∀ y : α, ∃ (c2 : Vector) (w2 : World α),
        c.PushBack E y w1 = .ok (c2, w2) ∧ src.Owns w2 xs ∧
          src.contents w2 = .ok (xs, w2)) ∧
      (∀ i : Nat, i < c.Size → ∃ (c2 : Vector) (it : Ptr) (w2 : World α),
        c.Erase E (c.begin.add i) w1 = .ok ((c2, it), w2) ∧ src.Owns w2 xs ∧
          src.contents w2 = .ok (xs, w2)) := by
  obtain ⟨c, w1, hrun, hoc, hcap, hf1, hfresh, -⟩ := copy_spec src xs w h
  have hos1 : src.Owns w1 xs := Owns_of_block_eq src xs w w1 h (hf1 _ (by rw [h.2.2]; simp))
  have hdis := copy_disjoint src c xs w h hfresh
  have heq : src.eq_with op c w1 = .ok (xs.all (fun x => op x x), w1) := by
    rw [eq_with_spec op src c xs xs w1 hos1 hoc (Nat.le_refl _), zipWith_self_all]
  refine ⟨c, w1, hrun, ?_, ?_, contents_eq c xs w1 hoc, ?_, hos1, contents_eq src xs w1 hos1,
    heq, ?_, ?_, ?_, ?_⟩
  · show c.size_ = src.size_
    rw [hoc.1, h.1]
  · show c.data_.capacity_ = src.size_
    rw [hcap, h.1]
  · intro i x hx
    exact ⟨get_eq c xs w1 hoc i x hx, get_eq src xs w1 hos1 i x hx⟩
  · intro hrefl
    rw [heq, List.all_eq_true.mpr hrefl]
  · intro i y hi
    have hi2 : i < xs.length := by rw [← hoc.1]; exact hi
    obtain ⟨w2, hput, -, hf2⟩ := put_spec c xs w1 hoc i y hi2
    have hos2 : src.Owns w2 xs := Owns_frame src xs w1 w2 _ hos1 (fun b hb _ => hf2 b hb) hdis
    exact ⟨w2, hput, hos2, contents_eq src xs w2 hos2⟩
  · intro y
    obtain ⟨c2, w2, hpush, -, -, hf2, -⟩ := PushBack_spec E c y xs w1 hoc
    have hos2 : src.Owns w2 xs := Owns_frame src xs w1 w2 _ hos1 hf2 hdis
    exact ⟨c2, w2, hpush, hos2, contents_eq src xs w2 hos2⟩
  · intro i hi
    obtain ⟨w2, herase, -, hf2⟩ := Erase_index_spec E c xs i w1 hoc hi
    have hos2 : src.Owns w2 xs := Owns_frame src xs w1 w2 _ hos1 (fun b hb _ => hf2 b hb) hdis
    exact ⟨_, _, w2, herase, hos2, contents_eq src xs w2 hos2⟩

/-- The copy of the vector `[1, 2]` of capacity 3 has size 2 and capacity 2,
holds `[1, 2]` and compares equal to its source with the `operator==` of
`int`. -/
theorem C9_copy_construct_witness :
    vec_12.Owns world_12_spare [1, 2] ∧
    ∃ (c : Vector) (w1 : World Int),
      Vector.copy vec_12 world_12_spare = .ok (c, w1) ∧
      c.Size = 2 ∧ c.Capacity = 2 ∧ c.contents w1 = .ok ([1, 2], w1) ∧
      vec_12.eq_with (fun a b => decide (a = b)) c w1 = .ok (true, w1) := by
  have ho : vec_12.Owns world_12_spare [1, 2] := by decide
  obtain ⟨c, w1, hrun, hs, hcap, hc, -, -, -, -, he, -⟩ :=
    C9_copy_construct int_type (fun a b => decide (a = b)) vec_12 [1, 2] world_12_spare ho
  exact ⟨ho, c, w1, hrun, hs, hcap, hc, he (by simp)⟩

theorem Emplace_full_copy_padded {α : Type} (E : ElemType α) (v : Vector) (xs ys : List α)
    (y x g : α) (pad : Block α) (w : World α)
    (hsz : v.size_ = (xs ++ y :: ys).length) (hfull : v.size_ = v.data_.capacity_)
    (hb : w.block v.data_.buffer_ = some ((xs ++ y :: ys).map some ++ some g :: pad))
    (hcopy : (!E.is_copy_constructible || E.is_nothrow_move_constructible) = false) :
    ∃ w2 : World α,
      v.Emplace E ⟨v.data_.buffer_, xs.length⟩ x w
        = .ok ((⟨⟨w.fresh, v.size_ * 2⟩, v.size_ + 1⟩, ⟨w.fresh, xs.length⟩), w2) ∧
      (⟨⟨w.fresh, v.size_ * 2⟩, v.size_ + 1⟩ : Vector).Owns w2 (xs ++ x :: (ys ++ [g])) ∧
      w.Frame w2 v.data_.buffer_ := by
  obtain ⟨⟨buf, cap⟩, size⟩ := v
  simp only at hsz hb hfull
  subst hfull
  simp only [List.length_append, List.length_cons] at hsz
  have hne : buf ≠ w.fresh := World.ne_fresh w buf _ hb
  have hpe : ¬ ((⟨buf, xs.length⟩ : Ptr) = ⟨buf, size⟩) := by
    simp only [Ptr.mk.injEq, true_and]; omega
  have hs0 : ¬ (size = 0) := by omega
  have hd1 := distance_eq (α := α) buf 0 xs.length w (Nat.zero_le _)
  obtain ⟨w1, hcr, hn1, hf1, -⟩ := create_spec (α := α) (size * 2) w (by omega)
  have hp1 := plus_eq (α := α) ⟨w.fresh, size * 2⟩ xs.length w1 (by simp; omega)
  rw [replicate_split _ xs.length _ (by omega)] at hn1
  obtain ⟨w2, hca, hn2, hf2, -⟩ := construct_args_spec w.fresh xs.length x w1 _ _ none
    hn1 (by simp)
  have hb2 : w2.block buf = some ((xs ++ y :: ys).map some ++ some g :: pad) := by
    rw [hf2 _ hne, hf1 _ hne, hb]
  obtain ⟨w3, hrel1, hn3, hf3, -⟩ :=
    uninitialized_copy_n_spec buf w.fresh hne xs [] ((y :: ys).map some ++ some g :: pad) []
      (List.replicate xs.length none)
      (some x :: List.replicate (size * 2 - xs.length - 1) none) w2 0 0 xs.length rfl rfl rfl
      (by simp) (by rw [hb2]; simp) (by rw [hn2]; simp)
  have hp2 := plus_eq (α := α) ⟨w.fresh, size * 2⟩ xs.length w3 (by simp; omega)
  have hsplit : List.replicate (size * 2 - xs.length - 1) (none : Option α)
      = List.replicate (ys ++ [g]).length none
        ++ List.replicate (size * 2 - size - 1) none := by
    rw [← List.replicate_add]
    congr 1
    simp only [List.length_append, List.length_singleton]
    omega
  obtain ⟨w4, hrel2, hn4, hf4, -⟩ :=
    uninitialized_copy_n_spec buf w.fresh hne (ys ++ [g]) (xs.map some ++ [some y]) pad
      (xs.map some ++ [some x]) (List.replicate (ys ++ [g]).length none)
      (List.replicate (size * 2 - size - 1) none) w3 (xs.length + 1) (xs.length + 1)
      (ys ++ [g]).length (by simp) (by simp) rfl (by simp)
      (by rw [hf3 _ hne, hb2]; simp) (by rw [hn3, hsplit]; simp)
  have hlen : size - xs.length = (ys ++ [g]).length := by
    simp only [List.length_append, List.length_singleton]; omega
  have hb4 : w4.block buf = some ([] ++ (xs ++ y :: ys).map some ++ some g :: pad) := by
    rw [hf4 _ hne, hf3 _ hne, hb2]; simp
  obtain ⟨w5, hdn, ho5, hf5, -⟩ := destroy_n_spec buf (xs ++ y :: ys) [] (some g :: pad) w4 0
    size rfl (by simp; omega) hb4
  obtain ⟨w6, hde, hf6, -⟩ := Deallocate_spec buf _ w5 ho5
  refine ⟨w6, ?_, ?_, ?_⟩
  · simp only [Vector.Emplace, Vector.begin, Vector.end_, RawMemory.GetAddress, Ptr.add,
      Nat.zero_add, hpe, if_false, bind_apply, hd1, ok_bind, Nat.sub_zero, Vector.Capacity,
      RawMemory.Capacity, if_true, hs0, hcr, hp1, hca, hcopy, hlen, Bool.false_eq_true]
    simp only [hrel1, ok_bind, hp2, hrel2, RawMemory.Swap, hdn, RawMemory.destructor, hde,
      pure_apply]
  · refine ⟨by simp; omega, by simp; omega, ?_⟩
    simp only
    rw [hf6 _ (Ne.symm hne), hf5 _ (Ne.symm hne), hn4]
    simp
    omega
  · intro b hb1 hb2
    have hbf : b ≠ w.fresh := by
      intro e
      rw [e, World.block_fresh] at hb2
      exact hb2 rfl
    rw [hf6 _ hb1, hf5 _ hb1, hf4 b hbf, hf3 b hbf, hf2 _ hbf, hf1 _ hbf]

theorem no_assert_pure {α β : Type} (a : β) : no_assert (pure a : Exec α β) :=
  fun _ h => by cases h

theorem no_assert_bind {α β γ : Type} (m : Exec α β) (f : β → Exec α γ)
    (hm : no_assert m) (hf : ∀ a, no_assert (f a)) : no_assert (m >>= f) := by
  intro w
  rw [bind_apply]
  cases h : m w with
  | error e =>
    rw [error_bind]
    intro he
    injection he with he
    exact hm w (by rw [h, he])
  | ok r => exact hf r.1 r.2

theorem no_assert_bind_ensures {α β γ : Type} (m : Exec α β) (f : β → Exec α γ)
    (P : β → Prop) (hm : no_assert m) (hp : ensures m P)
    (hf : ∀ a, P a → no_assert (f a)) : no_assert (m >>= f) := by
  intro w
  rw [bind_apply]
  cases h : m w with
  | error e =>
    rw [error_bind]
    intro he
    injection he with he
    exact hm w (by rw [h, he])
  | ok r => exact hf r.1 (hp w r.1 r.2 h) r.2

theorem ensures_pure {α β : Type} (a : β) (P : β → Prop) (h : P a) :
    ensures (pure a : Exec α β) P := by
  intro w r w2 hr
  cases hr
  exact h

theorem ensures_bind {α β γ : Type} (m : Exec α β) (f : β → Exec α γ) (Q : β → Prop)
    (P : γ → Prop) (hm : ensures m Q) (hf : ∀ a, Q a → ensures (f a) P) :
    ensures (m >>= f) P := by
  intro w r w2 hr
  rw [bind_apply] at hr
  cases h : m w with
  | error e => rw [h, error_bind] at hr; cases hr
  | ok r1 =>
    rw [h, ok_bind] at hr
    exact hf r1.1 (hm w r1.1 r1.2 h) r1.2 r w2 hr

theorem ensures_true {α β : Type} (m : Exec α β) : ensures m (fun _ => True) :=
  fun _ _ _ _ => trivial

theorem no_assert_load {α : Type} (p : Ptr) : no_assert (load (α := α) p) := by
  intro w h
  simp only [load] at h
  split at h
  · cases h
  · split at h <;> cases h

theorem no_assert_store {α : Type} (p : Ptr) (s : Option α) : no_assert (store p s) := by
  intro w h
  simp only [store] at h
  split at h
  · cases h
  · split at h <;> cases h

theorem no_assert_tick {α : Type} (k : Kind) : no_assert (tick (α := α) k) :=
  fun _ h => by cases h

theorem no_assert_construct_value {α : Type} (E : ElemType α) (p : Ptr) :
    no_assert (construct_value E p) :=
  no_assert_bind _ _ (no_assert_store _ _) fun _ => no_assert_tick _

theorem no_assert_construct_copy {α : Type} (dst src : Ptr) :
    no_assert (construct_copy (α := α) dst src) :=
  no_assert_bind _ _ (no_assert_load _) fun _ =>
    no_assert_bind _ _ (no_assert_store _ _) fun _ => no_assert_tick _

theorem no_assert_construct_move {α : Type} (E : ElemType α) (dst src : Ptr) :
    no_assert (construct_move E dst src) :=
  no_assert_bind _ _ (no_assert_load _) fun _ =>
    no_assert_bind _ _ (no_assert_store _ _) fun _ =>
      no_assert_bind _ _ (no_assert_store _ _) fun _ => no_assert_tick _

theorem no_assert_destroy_at {α : Type} (p : Ptr) : no_assert (destroy_at (α := α) p) :=
  no_assert_bind _ _ (no_assert_load _) fun _ =>
    no_assert_bind _ _ (no_assert_store _ _) fun _ => no_assert_tick _

theorem no_assert_value_construct_n {α : Type} (E : ElemType α) :
    ∀ (n : Nat) (p : Ptr), no_assert (uninitialized_value_construct_n E p n) := by
  intro n
  induction n with
  | zero => intro p; exact no_assert_pure _
  | succ n ih =>
    intro p
    exact no_assert_bind _ _ (no_assert_construct_value E p) fun _ => ih _

theorem no_assert_copy_n {α : Type} :
    ∀ (n : Nat) (p q : Ptr), no_assert (uninitialized_copy_n (α := α) p n q) := by
  intro n
  induction n with
  | zero => intro p q; exact no_assert_pure _
  | succ n ih =>
    intro p q
    exact no_assert_bind _ _ (no_assert_construct_copy q p) fun _ => ih _ _

theorem no_assert_move_n {α : Type} (E : ElemType α) :
    ∀ (n : Nat) (p q : Ptr), no_assert (uninitialized_move_n E p n q) := by
  intro n
  induction n with
  | zero => intro p q; exact no_assert_pure _
  | succ n ih =>
    intro p q
    exact no_assert_bind _ _ (no_assert_construct_move E q p) fun _ => ih _ _

theorem no_assert_destroy_n {α : Type} :
    ∀ (n : Nat) (p : Ptr), no_assert (destroy_n (α := α) p n) := by
  intro n
  induction n with
  | zero => intro p; exact no_assert_pure _
  | succ n ih =>
    intro p
    exact no_assert_bind _ _ (no_assert_destroy_at p) fun _ => ih _

theorem no_assert_Deallocate {α : Type} (a : Nat) :
    no_assert (RawMemory.Deallocate (α := α) a) := by
  intro w h
  cases a with
  | zero => cases h
  | succ a =>
    simp only [RawMemory.Deallocate] at h
    split at h <;> cases h

theorem no_assert_create_on {α : Type} (M : Machine) (n : Nat) :
    no_assert (RawMemory.create_on (α := α) M n) := by
  intro w h
  simp only [RawMemory.create_on, RawMemory.Allocate_on, bind_apply] at h
  split at h
  · split at h
    · cases h
    · cases h
  · cases h

theorem ensures_create_on {α : Type} (M : Machine) (n : Nat) :
    ensures (RawMemory.create_on (α := α) M n)
      (fun r => ∀ d : RawMemory, r = .ok d → d.capacity_ = n) := by
  intro w r w2 h d hd
  subst hd
  simp only [RawMemory.create_on, RawMemory.Allocate_on, bind_apply] at h
  split at h
  · split at h
    · cases h
    · cases h; rfl
  · cases h; rfl

theorem no_assert_Reserve_on {α : Type} (E : ElemType α) (M : Machine) (v : Vector)
    (n : Nat) : no_assert (v.Reserve_on E M n) := by
  unfold Vector.Reserve_on
  split
  · exact no_assert_pure _
  · refine no_assert_bind _ _ (no_assert_create_on M n) ?_
    intro r
    cases r with
    | error e => exact no_assert_pure _
    | ok d =>
      have hrest : no_assert (α := α) (do
          destroy_n (α := α) v.data_.GetAddress v.size_
          RawMemory.destructor (α := α) (v.data_.Swap d).2
          pure (({ v with data_ := (v.data_.Swap d).1 } : Vector), (Except.ok () : Except Exn Unit))) :=
        no_assert_bind _ _ (no_assert_destroy_n _ _) fun _ =>
          no_assert_bind _ _ (no_assert_Deallocate _) fun _ => no_assert_pure _
      show no_assert (if _ then _ else _)
      split
      · exact no_assert_bind _ _ (no_assert_move_n E _ _ _) fun _ => hrest
      · exact no_assert_bind _ _ (no_assert_copy_n _ _ _) fun _ => hrest

theorem ensures_Reserve_on {α : Type} (E : ElemType α) (M : Machine) (v : Vector)
    (n : Nat) :
    ensures (v.Reserve_on E M n) (fun r => r.1.size_ = v.size_ ∧
      v.data_.capacity_ ≤ r.1.data_.capacity_ ∧
      (r.2 = .ok () → n ≤ r.1.data_.capacity_) ∧
      (∀ e, r.2 = .error e → r.1 = v)) := by
  unfold Vector.Reserve_on
  split
  · rename_i hle
    exact ensures_pure _ _ ⟨rfl, Nat.le_refl _, fun _ => hle, fun _ _ => rfl⟩
  · rename_i hle
    have hlt : v.data_.capacity_ < n := by
      simp only [RawMemory.Capacity] at hle; omega
    refine ensures_bind _ _ _ _ (ensures_create_on M n) ?_
    intro r hr
    cases r with
    | error e =>
      exact ensures_pure _ _ ⟨rfl, Nat.le_refl _, fun h => (by cases h), fun _ _ => rfl⟩
    | ok d =>
      have hd : d.capacity_ = n := hr d rfl
      have hfin : ensures (α := α) (pure (({ v with data_ := (v.data_.Swap d).1 } : Vector),
          (Except.ok () : Except Exn Unit))) (fun r => r.1.size_ = v.size_ ∧
            v.data_.capacity_ ≤ r.1.data_.capacity_ ∧
            (r.2 = .ok () → n ≤ r.1.data_.capacity_) ∧ (∀ e, r.2 = .error e → r.1 = v)) := by
        refine ensures_pure _ _ ⟨rfl, ?_, ?_, fun e h => (by cases h)⟩
        · show v.data_.capacity_ ≤ d.capacity_
          omega
        · intro _
          show n ≤ d.capacity_
          omega
      have hrest : ensures (α := α) (do
          destroy_n (α := α) v.data_.GetAddress v.size_
          RawMemory.destructor (α := α) (v.data_.Swap d).2
          pure (({ v with data_ := (v.data_.Swap d).1 } : Vector), (Except.ok () : Except Exn Unit)))
          (fun r => r.1.size_ = v.size_ ∧
            v.data_.capacity_ ≤ r.1.data_.capacity_ ∧
            (r.2 = .ok () → n ≤ r.1.data_.capacity_) ∧ (∀ e, r.2 = .error e → r.1 = v)) :=
        ensures_bind _ _ _ _ (ensures_true _) fun _ _ =>
          ensures_bind _ _ _ _ (ensures_true _) fun _ _ => hfin
      show ensures (if _ then _ else _) _
      split
      · exact ensures_bind _ _ _ _ (ensures_true _) fun _ _ => hrest
      · exact ensures_bind _ _ _ _ (ensures_true _) fun _ _ => hrest

theorem no_assert_plus {α : Type} (m : RawMemory) (k : Nat) (h : k ≤ m.capacity_) :
    no_assert (m.plus (α := α) k) := by
  intro w
  rw [plus_eq m k w h]
  intro he
  cases he

theorem no_assert_Resize_on {α : Type} (E : ElemType α) (M : Machine) (v : Vector)
    (n : Nat) : no_assert (v.Resize_on E M n) := by
  unfold Vector.Resize_on
  refine no_assert_bind_ensures _ _ _ (no_assert_Reserve_on E M v n)
    (ensures_Reserve_on E M v n) ?_
  rintro ⟨v1, e⟩ ⟨-, -, hcap, -⟩
  cases e with
  | error e => exact no_assert_pure _
  | ok u =>
    have hn : n ≤ v1.data_.capacity_ := hcap rfl
    show no_assert (if _ then _ else _)
    split
    · exact no_assert_bind _ _ (no_assert_plus _ _ hn) fun _ =>
        no_assert_bind _ _ (no_assert_destroy_n _ _) fun _ => no_assert_pure _
    · rename_i hc
      have hs : v1.size_ ≤ v1.data_.capacity_ := by
        simp only [not_le] at hc
        omega
      exact no_assert_bind _ _ (no_assert_plus _ _ hs) fun _ =>
        no_assert_bind _ _ (no_assert_value_construct_n E _ _) fun _ => no_assert_pure _

theorem ensures_Resize_on {α : Type} (E : ElemType α) (M : Machine) (v : Vector)
    (n : Nat) :
    ensures (v.Resize_on E M n) (fun r => v.data_.capacity_ ≤ r.1.data_.capacity_) := by
  unfold Vector.Resize_on
  refine ensures_bind _ _ _ _ (ensures_Reserve_on E M v n) ?_
  rintro ⟨v1, e⟩ ⟨-, hge, -, -⟩
  cases e with
  | error e => exact ensures_pure _ _ hge
  | ok u =>
    show ensures (if _ then _ else _) _
    split
    · exact ensures_bind _ _ _ _ (ensures_true _) fun _ _ =>
        ensures_bind _ _ _ _ (ensures_true _) fun _ _ => ensures_pure _ _ hge
    · exact ensures_bind _ _ _ _ (ensures_true _) fun _ _ =>
        ensures_bind _ _ _ _ (ensures_true _) fun _ _ => ensures_pure _ _ hge

theorem World.block_setBlock_pos {α : Type} (w : World α) (a : Nat) (b0 b : Block α)
    (h : w.block a = some b0) (ha : a ≠ 0) : (w.setBlock a b).block a = some b := by
  cases a with
  | zero => exact absurd rfl ha
  | succ a =>
    simp only [World.block] at h
    have hlt : a < w.heap.length := by
      by_contra hc
      rw [List.getElem?_eq_none (by omega)] at h
      cases h
    simp [World.setBlock, World.block, List.getElem?_set_self hlt]

theorem World.fresh_setBlock {α : Type} (w : World α) (a : Nat) (b : Block α) :
    (w.setBlock a b).fresh = w.fresh := by
  cases a with
  | zero => rfl
  | succ a => simp [World.setBlock, World.fresh]

theorem Emplace_past_end_spec {α : Type} (E : ElemType α) (v : Vector) (x g : α)
    (zs : List α) (k : Nat) (w : World α) (h : v.Owns w zs) (hk : k < v.size_)
    (hfull : v.size_ = v.data_.capacity_)
    (hcopy : (!E.is_copy_constructible || E.is_nothrow_move_constructible) = false) :
    ∃ (v2 : Vector) (w2 : World α),
      v.Emplace E (v.begin.add k) x (w.behind v.data_.buffer_ g)
        = .ok ((v2, v2.begin.add k), w2) ∧
      v2.Owns w2 (zs.take k ++ x :: (zs.drop (k + 1) ++ [g])) ∧
      v2.data_.capacity_ = v.data_.capacity_ * 2 ∧ v2.size_ = v.size_ + 1 ∧
      w.Frame w2 v.data_.buffer_ ∧ w.block v2.data_.buffer_ = none := by
  have hsz : v.size_ = zs.length := h.1
  have hi2 : k < zs.length := by omega
  have hxl : (zs.take k).length = k := by simp [Nat.min_eq_left (Nat.le_of_lt hi2)]
  obtain ⟨y, ys, hd⟩ := drop_ne_nil zs k hi2
  have hzs : zs = zs.take k ++ y :: ys := by rw [← hd, List.take_append_drop]
  have hys : zs.drop (k + 1) = ys := by
    have := congrArg (List.drop 1) hd
    simpa [List.drop_drop, Nat.add_comm] using this
  have hb0 : w.block v.data_.buffer_ = some (zs.map some) := by
    rw [h.2.2]
    have : v.data_.capacity_ - zs.length = 0 := by omega
    rw [this]; simp
  have hne0 : v.data_.buffer_ ≠ 0 := by
    intro e
    have := (Owns_null v zs w h e).2.2
    omega
  have hbw : (w.behind v.data_.buffer_ g).block v.data_.buffer_
      = some ((zs.take k ++ y :: ys).map some ++ some g :: []) := by
    rw [← hzs]
    simp only [World.behind, hb0]
    exact World.block_setBlock_pos w _ _ _ hb0 hne0
  have hfr : (w.behind v.data_.buffer_ g).fresh = w.fresh := by
    simp only [World.behind, hb0]
    exact World.fresh_setBlock _ _ _
  have hother : ∀ c, c ≠ v.data_.buffer_ → (w.behind v.data_.buffer_ g).block c = w.block c := by
    intro c hc
    simp only [World.behind, hb0]
    exact World.block_setBlock_ne _ _ _ _ hc
  obtain ⟨w2, hrun, ho2, hf2⟩ := Emplace_full_copy_padded E v (zs.take k) ys y x g []
    (w.behind v.data_.buffer_ g) (by rw [← hzs]; exact hsz) hfull hbw hcopy
  rw [hfr, ← begin_add v zs k (Nat.le_of_lt hi2)] at hrun
  rw [hfr] at ho2
  refine ⟨_, w2, ?_, by rw [hys]; exact ho2, ?_, rfl, ?_, World.block_fresh w⟩
  · rw [hrun]
    simp [Vector.begin, RawMemory.GetAddress, Ptr.add, hxl]
  · show v.size_ * 2 = v.data_.capacity_ * 2
    rw [hfull]
  · intro c hc hc2
    rw [hf2 c hc (by rw [hother c hc]; exact hc2), hother c hc]

theorem Reserve_on_spec {α : Type} (E : ElemType α) (M : Machine) (v : Vector) (n : Nat)
    (xs : List α) (w : World α) (h : v.Owns w xs) (hpos : 0 < M.sizeof_T)
    (hfit : n ≤ v.data_.capacity_ ∨ n * M.sizeof_T < 2 ^ M.size_t_bits) :
    ∃ (v2 : Vector) (r : Except Exn Unit) (w2 : World α),
      v.Reserve_on E M n w = .ok ((v2, r), w2) ∧ v2.Owns w2 xs ∧
      v.data_.capacity_ ≤ v2.data_.capacity_ ∧
      w.Frame w2 v.data_.buffer_ ∧
      (v2.data_.buffer_ = v.data_.buffer_ ∨ w.block v2.data_.buffer_ = none) := by
  obtain ⟨v2, w2, hrun, ho, hcap, -, hfr, hfresh, -⟩ := Reserve_spec E v n xs w h
  have hge : v.data_.capacity_ ≤ v2.data_.capacity_ := by rw [hcap]; split <;> omega
  by_cases hle : n ≤ v.data_.capacity_
  · exact ⟨v2, _, w2, Reserve_on_of_Reserve E M v v2 n w w2 (Or.inl hle) hrun, ho, hge, hfr,
      hfresh⟩
  · have hf2 : n * M.sizeof_T < 2 ^ M.size_t_bits := by
      rcases hfit with h1 | h1
      · exact absurd h1 hle
      · exact h1
    cases hf : M.new_fails (M.bytes n) with
    | false =>
      exact ⟨v2, _, w2, Reserve_on_of_Reserve E M v v2 n w w2 (Or.inr ⟨hpos, hf2, hf⟩) hrun,
        ho, hge, hfr, hfresh⟩
    | true =>
      exact ⟨v, _, w, Reserve_on_throw E M v n w (by omega) hf, h, Nat.le_refl _,
        fun _ _ _ => rfl, Or.inl rfl⟩

theorem Resize_on_spec {α : Type} (E : ElemType α) (M : Machine) (v : Vector) (n : Nat)
    (xs : List α) (w : World α) (h : v.Owns w xs) (hpos : 0 < M.sizeof_T)
    (hfit : n ≤ v.data_.capacity_ ∨ n * M.sizeof_T < 2 ^ M.size_t_bits) :
    ∃ (v2 : Vector) (r : Except Exn Unit) (w2 : World α) (zs : List α),
      v.Resize_on E M n w = .ok ((v2, r), w2) ∧ v2.Owns w2 zs ∧
      v.data_.capacity_ ≤ v2.data_.capacity_ ∧
      w.Frame w2 v.data_.buffer_ ∧
      (v2.data_.buffer_ = v.data_.buffer_ ∨ w.block v2.data_.buffer_ = none) := by
  obtain ⟨v2, w2, hrun, ho, hcap, -, hfr, hfresh, -⟩ := Resize_spec E v n xs w h
  have hge : v.data_.capacity_ ≤ v2.data_.capacity_ := by rw [hcap]; split <;> omega
  by_cases hle : n ≤ v.data_.capacity_
  · exact ⟨v2, _, w2, _, Resize_on_of_Resize E M v v2 n w w2 (Or.inl hle) hrun, ho, hge, hfr,
      hfresh⟩
  · have hf2 : n * M.sizeof_T < 2 ^ M.size_t_bits := by
      rcases hfit with h1 | h1
      · exact absurd h1 hle
      · exact h1
    cases hf : M.new_fails (M.bytes n) with
    | false =>
      exact ⟨v2, _, w2, _, Resize_on_of_Resize E M v v2 n w w2 (Or.inr ⟨hpos, hf2, hf⟩) hrun,
        ho, hge, hfr, hfresh⟩
    | true =>
      exact ⟨v, _, w, xs, Resize_on_throw E M v n w (by omega) hf, h, Nat.le_refl _,
        fun _ _ _ => rfl, Or.inl rfl⟩

theorem no_assert_ptr_sub {α : Type} (p : Ptr) (k : Nat) : no_assert (ptr_sub (α := α) p k) := by
  intro w h
  simp only [ptr_sub] at h
  split at h <;> cases h

theorem no_assert_distance {α : Type} (p q : Ptr) : no_assert (distance (α := α) p q) := by
  intro w h
  simp only [distance] at h
  split at h <;> cases h

theorem no_assert_create {α : Type} (n : Nat) : no_assert (RawMemory.create (α := α) n) := by
  intro w h
  simp only [RawMemory.create, RawMemory.Allocate, bind_apply] at h
  split at h <;> cases h

theorem no_assert_index {α : Type} (m : RawMemory) (k : Nat) (h : k < m.capacity_) :
    no_assert (m.index (α := α) k) := by
  intro w
  rw [index_eq m k w h]
  intro he
  cases he

theorem no_assert_construct_args {α : Type} (p : Ptr) (x : α) :
    no_assert (construct_args p x) :=
  no_assert_bind _ _ (no_assert_store _ _) fun _ => no_assert_tick _

theorem no_assert_assign_copy {α : Type} (dst src : Ptr) :
    no_assert (assign_copy (α := α) dst src) :=
  no_assert_bind _ _ (no_assert_load _) fun _ =>
    no_assert_bind _ _ (no_assert_load _) fun _ =>
      no_assert_bind _ _ (no_assert_store _ _) fun _ => no_assert_tick _

theorem no_assert_assign_move {α : Type} (E : ElemType α) (dst src : Ptr) :
    no_assert (assign_move E dst src) :=
  no_assert_bind _ _ (no_assert_load _) fun _ =>
    no_assert_bind _ _ (no_assert_load _) fun _ =>
      no_assert_bind _ _ (no_assert_store _ _) fun _ =>
        no_assert_bind _ _ (no_assert_store _ _) fun _ => no_assert_tick _

theorem no_assert_assign_move_local {α : Type} (dst : Ptr) (x : α) :
    no_assert (assign_move_local dst x) :=
  no_assert_bind _ _ (no_assert_load _) fun _ =>
    no_assert_bind _ _ (no_assert_store _ _) fun _ => no_assert_tick _

theorem no_assert_std_copy_n {α : Type} :
    ∀ (n : Nat) (p q : Ptr), no_assert (copy_n (α := α) p n q) := by
  intro n
  induction n with
  | zero => intro p q; exact no_assert_pure _
  | succ n ih =>
    intro p q
    exact no_assert_bind _ _ (no_assert_assign_copy q p) fun _ => ih _ _

theorem no_assert_std_move_n {α : Type} (E : ElemType α) :
    ∀ (n : Nat) (p q : Ptr), no_assert (move_n E p n q) := by
  intro n
  induction n with
  | zero => intro p q; exact no_assert_pure _
  | succ n ih =>
    intro p q
    exact no_assert_bind _ _ (no_assert_assign_move E q p) fun _ => ih _ _

theorem no_assert_move_backward_n {α : Type} (E : ElemType α) (first : Ptr) :
    ∀ (n : Nat) (q : Ptr), no_assert (move_backward_n E first n q) := by
  intro n
  induction n with
  | zero => intro q; exact no_assert_pure _
  | succ n ih =>
    intro q
    exact no_assert_bind _ _ (no_assert_ptr_sub _ _) fun _ =>
      no_assert_bind _ _ (no_assert_assign_move E _ _) fun _ => ih _

theorem no_assert_std_copy {α : Type} (p q d : Ptr) : no_assert (std_copy (α := α) p q d) :=
  no_assert_bind _ _ (no_assert_distance _ _) fun _ => no_assert_std_copy_n _ _ _

theorem no_assert_std_move {α : Type} (E : ElemType α) (p q d : Ptr) :
    no_assert (std_move E p q d) :=
  no_assert_bind _ _ (no_assert_distance _ _) fun _ => no_assert_std_move_n E _ _ _

theorem no_assert_std_move_backward {α : Type} (E : ElemType α) (p q d : Ptr) :
    no_assert (std_move_backward E p q d) :=
  no_assert_bind _ _ (no_assert_distance _ _) fun _ => no_assert_move_backward_n E _ _ _

theorem no_assert_destructor {α : Type} (v : Vector) :
    no_assert (Vector.destructor (α := α) v) :=
  no_assert_bind _ _ (no_assert_destroy_n _ _) fun _ => no_assert_Deallocate _

theorem no_assert_copy {α : Type} (v : Vector) : no_assert (Vector.copy (α := α) v) :=
  no_assert_bind _ _ (no_assert_create _) fun _ =>
    no_assert_bind _ _ (no_assert_copy_n _ _ _) fun _ => no_assert_pure _

theorem no_assert_subscript {α : Type} (v : Vector) (i : Nat) (hi : i < v.size_)
    (h : v.size_ ≤ v.data_.capacity_) : no_assert (v.subscript (α := α) i) := by
  intro w
  have h1 : v.subscript i w = .ok (⟨v.data_.buffer_, i⟩, w) := by
    simp only [Vector.subscript, bind_apply, assert, hi, if_true, ok_bind]
    exact index_eq _ _ _ (by omega)
  rw [h1]
  intro he
  cases he

theorem ensures_create {α : Type} (n : Nat) :
    ensures (RawMemory.create (α := α) n) (fun d => d.capacity_ = n) := by
  intro w r w2 h
  simp only [RawMemory.create, RawMemory.Allocate, bind_apply] at h
  split at h <;> cases h <;> rfl

theorem checked_pure {α β : Type} (a : β) (P : β → Prop) (h : P a) :
    checked (pure a : Exec α β) P :=
  ⟨no_assert_pure a, ensures_pure a P h⟩

theorem checked_leaf {α β : Type} (m : Exec α β) (h : no_assert m) :
    checked m (fun _ => True) :=
  ⟨h, ensures_true m⟩

theorem checked_bind {α β γ : Type} (m : Exec α β) (f : β → Exec α γ) (Q : β → Prop)
    (P : γ → Prop) (hm : checked m Q) (hf : ∀ a, Q a → checked (f a) P) :
    checked (m >>= f) P :=
  ⟨no_assert_bind_ensures m f Q hm.1 hm.2 fun a ha => (hf a ha).1,
    ensures_bind m f Q P hm.2 fun a ha => (hf a ha).2⟩

theorem checked_then {α β γ : Type} (m : Exec α β) (f : β → Exec α γ)
    (P : γ → Prop) (hm : no_assert m) (hf : ∀ a, checked (f a) P) :
    checked (m >>= f) P :=
  checked_bind m f _ P (checked_leaf m hm) fun a _ => hf a

theorem checked_mono {α β : Type} (m : Exec α β) (P Q : β → Prop) (h : checked m P)
    (hpq : ∀ r, P r → Q r) : checked m Q :=
  ⟨h.1, fun w r w2 hr => hpq r (h.2 w r w2 hr)⟩

theorem checked_create {α : Type} (n : Nat) :
    checked (RawMemory.create (α := α) n) (fun d => d.capacity_ = n) :=
  ⟨no_assert_create n, ensures_create n⟩

theorem checked_distance {α : Type} (p q : Ptr) :
    checked (distance (α := α) p q) (fun r => r = q.off - p.off) := by
  refine ⟨no_assert_distance p q, ?_⟩
  intro w r w2 h
  simp only [distance] at h
  split at h
  · cases h; rfl
  · cases h

theorem checked_EmplaceBack {α : Type} (E : ElemType α) (v : Vector) (x : α)
    (h : v.size_ ≤ v.data_.capacity_) :
    checked (v.EmplaceBack E x) (fun r => v.data_.capacity_ ≤ r.1.data_.capacity_ ∧
      r.1.size_ = v.size_ + 1 ∧ r.1.size_ ≤ r.1.data_.capacity_) := by
  unfold Vector.EmplaceBack
  simp only [Vector.Capacity, RawMemory.Capacity]
  have htail : ∀ y : Vector, v.data_.capacity_ ≤ y.data_.capacity_ → y.size_ = v.size_ →
      y.size_ + 1 ≤ y.data_.capacity_ → checked (α := α) (do
      let r ← ptr_sub (α := α) ({ data_ := y.data_, size_ := y.size_ + 1 } : Vector).end_ 1
      pure (({ data_ := y.data_, size_ := y.size_ + 1 } : Vector), r))
      (fun r => v.data_.capacity_ ≤ r.1.data_.capacity_ ∧
        r.1.size_ = v.size_ + 1 ∧ r.1.size_ ≤ r.1.data_.capacity_) := fun y h1 h2 h3 =>
    checked_then _ _ _ (no_assert_ptr_sub _ _) fun _ =>
      checked_pure _ _ ⟨h1, by show y.size_ + 1 = v.size_ + 1; omega, h3⟩
  split
  · rename_i hfull
    refine checked_bind _ _ _ _ (checked_create _) ?_
    intro d hd
    have hcap : v.size_ + 1 ≤ d.capacity_ := by rw [hd]; split <;> omega
    refine checked_then _ _ _ (no_assert_plus _ _ (by omega)) fun _ => ?_
    refine checked_then _ _ _ (no_assert_construct_args _ _) fun _ => ?_
    have hrest : checked (α := α) (do
        destroy_n (α := α) (v.data_.Swap d).2.GetAddress v.size_
        RawMemory.destructor (α := α) (v.data_.Swap d).2
        let y ← pure ({ v with data_ := (v.data_.Swap d).1 } : Vector)
        let r ← ptr_sub (α := α) ({ data_ := y.data_, size_ := y.size_ + 1 } : Vector).end_ 1
        pure (({ data_ := y.data_, size_ := y.size_ + 1 } : Vector), r))
        (fun r => v.data_.capacity_ ≤ r.1.data_.capacity_ ∧
          r.1.size_ = v.size_ + 1 ∧ r.1.size_ ≤ r.1.data_.capacity_) :=
      checked_then _ _ _ (no_assert_destroy_n _ _) fun _ =>
        checked_then _ _ _ (no_assert_Deallocate _) fun _ =>
          checked_bind _ _ (fun y => y = ({ v with data_ := (v.data_.Swap d).1 } : Vector)) _
            (checked_pure _ _ rfl) fun y hy =>
              htail y (by rw [hy]; show v.data_.capacity_ ≤ d.capacity_; omega) (by rw [hy])
                (by rw [hy]; show v.size_ + 1 ≤ d.capacity_; omega)
    split
    · exact checked_then _ _ _ (no_assert_move_n E _ _ _) fun _ => hrest
    · split
      · exact checked_then _ _ _ (no_assert_copy_n _ _ _) fun _ => hrest
      · exact checked_then _ _ _ (no_assert_pure _) fun _ => hrest
  · rename_i hne
    exact checked_then _ _ _ (no_assert_plus _ _ h) fun _ =>
      checked_then _ _ _ (no_assert_construct_args _ _) fun _ =>
        checked_bind _ _ (fun y => y = v) _ (checked_pure _ _ rfl) fun y hy =>
          htail y (by rw [hy]) (by rw [hy]) (by rw [hy]; omega)

theorem checked_PushBack {α : Type} (E : ElemType α) (v : Vector) (x : α)
    (h : v.size_ ≤ v.data_.capacity_) :
    checked (v.PushBack E x) (fun r => v.data_.capacity_ ≤ r.data_.capacity_ ∧
      r.size_ = v.size_ + 1 ∧ r.size_ ≤ r.data_.capacity_) := by
  unfold Vector.PushBack
  exact checked_bind _ _ _ _ (checked_EmplaceBack E v x h) fun r hr => checked_pure _ _ hr

theorem checked_Erase {α : Type} (E : ElemType α) (v : Vector) (pos : Ptr) :
    checked (v.Erase E pos) (fun r => r.1.data_ = v.data_ ∧ r.1.size_ = v.size_ - 1) := by
  unfold Vector.Erase
  exact checked_then _ _ _ (no_assert_distance _ _) fun _ =>
    checked_then _ _ _ (no_assert_std_move E _ _ _) fun _ =>
      checked_then _ _ _ (no_assert_ptr_sub _ _) fun _ =>
        checked_then _ _ _ (no_assert_destroy_at _) fun _ => checked_pure _ _ ⟨rfl, rfl⟩

theorem checked_PopBack {α : Type} (v : Vector) (h : v.size_ ≤ v.data_.capacity_)
    (hpos : 0 < v.size_) :
    checked (v.PopBack (α := α)) (fun r => r.data_ = v.data_ ∧ r.size_ = v.size_ - 1) := by
  unfold Vector.PopBack
  have ha : no_assert (assert (α := α) (v.size_ > 0)) := by
    intro w he
    simp only [assert, gt_iff_lt, hpos, if_true] at he
    cases he
  exact checked_then _ _ _ ha fun _ =>
    checked_then _ _ _ (no_assert_plus _ _ h) fun _ =>
      checked_then _ _ _ (no_assert_ptr_sub _ _) fun _ =>
        checked_then _ _ _ (no_assert_destroy_at _) fun _ => checked_pure _ _ ⟨rfl, rfl⟩

theorem checked_copy {α : Type} (v : Vector) :
    checked (Vector.copy (α := α) v)
      (fun c => c.data_.capacity_ = v.size_ ∧ c.size_ = v.size_) := by
  unfold Vector.copy
  refine checked_bind _ _ _ _ (checked_create _) ?_
  intro d hd
  exact checked_then _ _ _ (no_assert_copy_n _ _ _) fun _ => checked_pure _ _ ⟨hd, rfl⟩

theorem checked_copy_assign {α : Type} (v rhs : Vector) (same : Bool)
    (h : v.size_ ≤ v.data_.capacity_) (hr : rhs.size_ ≤ rhs.data_.capacity_) :
    checked (v.copy_assign (α := α) rhs same)
      (fun r => v.data_.capacity_ ≤ r.data_.capacity_ ∧ r.size_ ≤ r.data_.capacity_) := by
  unfold Vector.copy_assign
  simp only [Vector.Capacity, RawMemory.Capacity]
  split
  · split
    · rename_i hgt
      refine checked_bind _ _ _ _ (checked_copy rhs) ?_
      rintro c ⟨hc1, hc2⟩
      refine checked_then _ _ _ (no_assert_destructor _) fun _ => checked_pure _ _ ⟨?_, ?_⟩
      · show v.data_.capacity_ ≤ c.data_.capacity_
        omega
      · show c.size_ ≤ c.data_.capacity_
        omega
    · rename_i hle
      have hle2 : rhs.size_ ≤ v.data_.capacity_ := by omega
      have hfin : checked (α := α) (pure ({ data_ := v.data_, size_ := rhs.size_ } : Vector))
          (fun r => v.data_.capacity_ ≤ r.data_.capacity_ ∧ r.size_ ≤ r.data_.capacity_) :=
        checked_pure _ _ ⟨Nat.le_refl _, hle2⟩
      have hsecond : checked (α := α)
          (if rhs.size_ < v.size_ then do
            let p ← rhs.data_.plus (α := α) rhs.size_
            std_copy (α := α) rhs.data_.GetAddress p v.data_.GetAddress
            let q ← v.data_.plus (α := α) rhs.size_
            destroy_n (α := α) q (v.size_ - rhs.size_)
            pure ({ data_ := v.data_, size_ := rhs.size_ } : Vector)
          else do
            pure PUnit.unit
            pure ({ data_ := v.data_, size_ := rhs.size_ } : Vector))
          (fun r => v.data_.capacity_ ≤ r.data_.capacity_ ∧ r.size_ ≤ r.data_.capacity_) := by
        split
        · exact checked_then _ _ _ (no_assert_plus _ _ hr) fun _ =>
            checked_then _ _ _ (no_assert_std_copy _ _ _) fun _ =>
              checked_then _ _ _ (no_assert_plus _ _ hle2) fun _ =>
                checked_then _ _ _ (no_assert_destroy_n _ _) fun _ => hfin
        · exact checked_then _ _ _ (no_assert_pure _) fun _ => hfin
      split
      · rename_i hge
        have hvr : v.size_ ≤ rhs.data_.capacity_ := by omega
        exact checked_then _ _ _ (no_assert_plus _ _ hvr) fun _ =>
          checked_then _ _ _ (no_assert_std_copy _ _ _) fun _ =>
            checked_then _ _ _ (no_assert_plus _ _ hvr) fun _ =>
              checked_then _ _ _ (no_assert_copy_n _ _ _) fun _ => hsecond
      · exact checked_then _ _ _ (no_assert_pure _) fun _ => hsecond
  · exact checked_pure _ _ ⟨Nat.le_refl _, h⟩

theorem checked_Emplace {α : Type} (E : ElemType α) (v : Vector) (k : Nat) (x : α)
    (h : v.size_ ≤ v.data_.capacity_) (hk : k ≤ v.size_) :
    checked (v.Emplace E (v.begin.add k) x)
      (fun r => v.data_.capacity_ ≤ r.1.data_.capacity_ ∧
        r.1.size_ = v.size_ + 1 ∧ r.1.size_ ≤ r.1.data_.capacity_) := by
  unfold Vector.Emplace
  simp only [Vector.Capacity, RawMemory.Capacity]
  split
  · exact checked_bind _ _ _ _ (checked_EmplaceBack E v x h) fun r hr =>
      checked_then _ _ _ (no_assert_ptr_sub _ _) fun _ => checked_pure _ _ hr
  · refine checked_bind _ _ _ _ (checked_distance _ _) ?_
    intro i hi
    have hik : i = k := by
      rw [hi]
      simp [Vector.begin, RawMemory.GetAddress, Ptr.add]
    subst hik
    have htail : ∀ y : Vector, v.data_.capacity_ ≤ y.data_.capacity_ → y.size_ = v.size_ →
        y.size_ + 1 ≤ y.data_.capacity_ → checked (α := α)
        (pure ((({ data_ := y.data_, size_ := y.size_ + 1 } : Vector),
          ({ data_ := y.data_, size_ := y.size_ + 1 } : Vector).begin.add i) : Vector × Ptr))
        (fun r => v.data_.capacity_ ≤ r.1.data_.capacity_ ∧
          r.1.size_ = v.size_ + 1 ∧ r.1.size_ ≤ r.1.data_.capacity_) := fun y h1 h2 h3 =>
      checked_pure _ _ ⟨h1, by show y.size_ + 1 = v.size_ + 1; omega, h3⟩
    split
    · refine checked_bind _ _ _ _ (checked_create _) ?_
      intro d hd
      have hcap : v.size_ + 1 ≤ d.capacity_ := by rw [hd]; split <;> omega
      have hrest : checked (α := α) (do
          destroy_n (α := α) (v.data_.Swap d).2.GetAddress v.size_
          RawMemory.destructor (α := α) (v.data_.Swap d).2
          let y ← pure ({ v with data_ := (v.data_.Swap d).1 } : Vector)
          pure ((({ data_ := y.data_, size_ := y.size_ + 1 } : Vector),
            ({ data_ := y.data_, size_ := y.size_ + 1 } : Vector).begin.add i) : Vector × Ptr))
          (fun r => v.data_.capacity_ ≤ r.1.data_.capacity_ ∧
            r.1.size_ = v.size_ + 1 ∧ r.1.size_ ≤ r.1.data_.capacity_) :=
        checked_then _ _ _ (no_assert_destroy_n _ _) fun _ =>
          checked_then _ _ _ (no_assert_Deallocate _) fun _ =>
            checked_bind _ _ (fun y => y = ({ v with data_ := (v.data_.Swap d).1 } : Vector)) _
              (checked_pure _ _ rfl) fun y hy =>
                htail y (by rw [hy]; show v.data_.capacity_ ≤ d.capacity_; omega) (by rw [hy])
                  (by rw [hy]; show v.size_ + 1 ≤ d.capacity_; omega)
      refine checked_then _ _ _ (no_assert_plus _ _ (by omega)) fun _ => ?_
      refine checked_then _ _ _ (no_assert_construct_args _ _) fun _ => ?_
      split
      · exact checked_then _ _ _ (no_assert_move_n E _ _ _) fun _ =>
          checked_then _ _ _ (no_assert_plus _ _ (by omega)) fun _ =>
            checked_then _ _ _ (no_assert_move_n E _ _ _) fun _ => hrest
      · exact checked_then _ _ _ (no_assert_copy_n _ _ _) fun _ =>
          checked_then _ _ _ (no_assert_plus _ _ (by omega)) fun _ =>
            checked_then _ _ _ (no_assert_copy_n _ _ _) fun _ => hrest
    · rename_i hne
      have hlt : v.size_ < v.data_.capacity_ := by omega
      rw [if_pos hlt]
      exact checked_then _ _ _ (no_assert_tick _) fun _ =>
        checked_then _ _ _ (no_assert_ptr_sub _ _) fun _ =>
          checked_then _ _ _ (no_assert_plus _ _ h) fun _ =>
            checked_then _ _ _ (no_assert_construct_move E _ _) fun _ =>
              checked_then _ _ _ (no_assert_ptr_sub _ _) fun _ =>
                checked_then _ _ _ (no_assert_std_move_backward E _ _ _) fun _ =>
                  checked_then _ _ _ (no_assert_index _ _ (by omega)) fun _ =>
                    checked_then _ _ _ (no_assert_assign_move_local _ _) fun _ =>
                      checked_then _ _ _ (no_assert_tick _) fun _ =>
                        checked_bind _ _ (fun y => y = v) _ (checked_pure _ _ rfl) fun y hy =>
                          htail y (by rw [hy]) (by rw [hy]) (by rw [hy]; omega)

theorem ensures_Resize_on_size {α : Type} (E : ElemType α) (M : Machine) (v : Vector)
    (n : Nat) (h : v.size_ ≤ v.data_.capacity_) :
    ensures (v.Resize_on E M n) (fun r => r.1.size_ ≤ r.1.data_.capacity_) := by
  unfold Vector.Resize_on
  refine ensures_bind _ _ _ _ (ensures_Reserve_on E M v n) ?_
  rintro ⟨v1, e⟩ ⟨hsz, hge, hcap, herr⟩
  cases e with
  | error e =>
    refine ensures_pure _ _ ?_
    show v1.size_ ≤ v1.data_.capacity_
    simp only at hsz hge
    omega
  | ok u =>
    have hn : n ≤ v1.data_.capacity_ := hcap rfl
    show ensures (if _ then _ else _) _
    split
    · exact ensures_bind _ _ _ _ (ensures_true _) fun _ _ =>
        ensures_bind _ _ _ _ (ensures_true _) fun _ _ => ensures_pure _ _ hn
    · exact ensures_bind _ _ _ _ (ensures_true _) fun _ _ =>
        ensures_bind _ _ _ _ (ensures_true _) fun _ _ => ensures_pure _ _ hn

theorem checked_sized_on {α : Type} (E : ElemType α) (M : Machine) (n : Nat) :
    checked (Vector.sized_on E M n)
      (fun r => ∀ v : Vector, r = .ok v → v.size_ ≤ v.data_.capacity_) := by
  unfold Vector.sized_on
  refine checked_bind _ _ _ _ ⟨no_assert_create_on M n, ensures_create_on M n⟩ ?_
  intro r hr
  cases r with
  | error e => exact checked_pure _ _ (fun v hv => by cases hv)
  | ok d =>
    have hd : d.capacity_ = n := hr d rfl
    refine checked_then _ _ _ (no_assert_value_construct_n E _ _) fun _ =>
      checked_pure _ _ ?_
    intro v hv
    injection hv with hv
    rw [← hv]
    show n ≤ d.capacity_
    omega

/-- C19: the assertions in `RawMemory::operator+`, `RawMemory::operator[]`
and `Vector::operator[]` depend on `size_` and `capacity_` only.  In every
state of the memory whatsoever, for vectors `u` and `b` with
`Size() <= Capacity()`: `operator[]` with `index < Size()`, `Reserve(n)` and
`Resize(n)` for any `n` on any machine, `EmplaceBack`, `PushBack`, `Emplace`
and `Insert` at `begin() + k` with `k <= Size()`, `Erase`, `PopBack` on a
non-empty vector and the copy assignment `u = b` do not stop at a failed
assertion, and the vector each of them returns has `Size() <= Capacity()`
again, as have the vectors that the constructors, `Swap` and the move
assignment give; so no assertion fails in any reachable state.  Moreover, in
every state in which the vectors alive hold their elements in storage of
their own, these calls on a vector `v` alive return (`Reserve(n)` and
`Resize(n)` when `n <= Capacity()` or `n * sizeof(T)` is within `size_t`,
normally or with `std::bad_alloc`), except that `Emplace` and `Insert` in the
copying branch of the reallocation stop at the read behind the old
storage. -/
theorem C19_no_assertion_fails {α : Type} (E : ElemType α) (M : Machine) (w : World α)
    (v : Vector) (vs : List Vector) (hs : Separate w (v :: vs)) :
    (∀ (w0 : World α) (u b : Vector), u.Size ≤ u.Capacity → b.Size ≤ b.Capacity →
      (∀ i : Nat, i < u.Size → u.subscript i w0 ≠ .error .assertion) ∧
      (∀ n : Nat, u.Reserve_on E M n w0 ≠ .error .assertion ∧
        u.Resize_on E M n w0 ≠ .error .assertion) ∧
      (∀ x : α, u.EmplaceBack E x w0 ≠ .error .assertion ∧
        u.PushBack E x w0 ≠ .error .assertion) ∧
      (∀ (k : Nat) (x : α), k ≤ u.Size →
        u.Emplace E (u.begin.add k) x w0 ≠ .error .assertion ∧
        u.Insert E (u.begin.add k) x w0 ≠ .error .assertion) ∧
      (∀ pos : Ptr, u.Erase E pos w0 ≠ .error .assertion) ∧
      (0 < u.Size → u.PopBack w0 ≠ .error .assertion) ∧
      (∀ same : Bool, u.copy_assign b same w0 ≠ .error .assertion)) ∧
    (∀ (w0 w2 : World α) (u b u2 : Vector), u.Size ≤ u.Capacity → b.Size ≤ b.Capacity →
      (∀ (n : Nat) (r : Except Exn Unit), u.Reserve_on E M n w0 = .ok ((u2, r), w2) →
        u2.Size ≤ u2.Capacity) ∧
      (∀ (n : Nat) (r : Except Exn Unit), u.Resize_on E M n w0 = .ok ((u2, r), w2) →
        u2.Size ≤ u2.Capacity) ∧
      (∀ (x : α) (p : Ptr), u.EmplaceBack E x w0 = .ok ((u2, p), w2) →
        u2.Size ≤ u2.Capacity) ∧
      (∀ x : α, u.PushBack E x w0 = .ok (u2, w2) → u2.Size ≤ u2.Capacity) ∧
      (∀ (k : Nat) (x : α) (p : Ptr), k ≤ u.Size →
        u.Emplace E (u.begin.add k) x w0 = .ok ((u2, p), w2) → u2.Size ≤ u2.Capacity) ∧
      (∀ pos p : Ptr, u.Erase E pos w0 = .ok ((u2, p), w2) → u2.Size ≤ u2.Capacity) ∧
      (0 < u.Size → u.PopBack w0 = .ok (u2, w2) → u2.Size ≤ u2.Capacity) ∧
      (∀ same : Bool, u.copy_assign b same w0 = .ok (u2, w2) → u2.Size ≤ u2.Capacity) ∧
      (∀ n : Nat, Vector.sized_on E M n w0 = .ok (.ok u2, w2) → u2.Size ≤ u2.Capacity) ∧
      (Vector.copy u w0 = .ok (u2, w2) → u2.Size ≤ u2.Capacity) ∧
      (u.Swap b).1.Size ≤ (u.Swap b).1.Capacity ∧ (u.Swap b).2.Size ≤ (u.Swap b).2.Capacity ∧
      (Vector.move u).1.Size ≤ (Vector.move u).1.Capacity ∧
      (Vector.move u).2.Size ≤ (Vector.move u).2.Capacity ∧
      Vector.default.Size ≤ Vector.default.Capacity) ∧
    ((∀ i : Nat, i < v.Size → ∃ p : Ptr, v.subscript i w = .ok (p, w)) ∧
      (∀ n : Nat, (n ≤ v.Capacity ∨ n * M.sizeof_T < 2 ^ M.size_t_bits) →
        (∃ r, v.Reserve_on E M n w = .ok r) ∧ (∃ r, v.Resize_on E M n w = .ok r)) ∧
      (∀ x : α, ∃ r, v.EmplaceBack E x w = .ok r) ∧
      (∀ x : α, ∃ r, v.PushBack E x w = .ok r) ∧
      (∀ (k : Nat) (x : α), k ≤ v.Size →
        (∃ r, v.Emplace E (v.begin.add k) x w = .ok r) ∨
          v.Emplace E (v.begin.add k) x w = .error .bad_access) ∧
      (∀ k : Nat, k < v.Size → ∃ r, v.Erase E (v.begin.add k) w = .ok r) ∧
      (0 < v.Size → ∃ r, v.PopBack w = .ok r) ∧
      (∀ b ∈ vs, ∃ r, v.copy_assign b false w = .ok r) ∧
      (∃ r, v.copy_assign v true w = .ok r)) := by
  refine ⟨?_, ?_, ?_⟩
  · intro w0 u b hu hb
    have hu2 : u.size_ ≤ u.data_.capacity_ := hu
    have hb2 : b.size_ ≤ b.data_.capacity_ := hb
    refine ⟨fun i hi => no_assert_subscript u i hi hu2 w0,
      fun n => ⟨no_assert_Reserve_on E M u n w0, no_assert_Resize_on E M u n w0⟩,
      fun x => ⟨(checked_EmplaceBack E u x hu2).1 w0, (checked_PushBack E u x hu2).1 w0⟩,
      fun k x hk => ⟨(checked_Emplace E u k x hu2 hk).1 w0, (checked_Emplace E u k x hu2 hk).1 w0⟩,
      fun pos => (checked_Erase E u pos).1 w0,
      fun hpos => (checked_PopBack u hu2 hpos).1 w0,
      fun same => (checked_copy_assign u b same hu2 hb2).1 w0⟩
  · intro w0 w2 u b u2 hu hb
    have hu2 : u.size_ ≤ u.data_.capacity_ := hu
    have hb2 : b.size_ ≤ b.data_.capacity_ := hb
    have hsw : u.Swap b = (b, u) := Swap_eq _ _
    have hmv : Vector.move u = (u, Vector.default) := Swap_eq _ _
    rw [hsw, hmv]
    refine ⟨?_, ?_, ?_, ?_, ?_, ?_, ?_, ?_, ?_, ?_, hb, hu, hu, Nat.le_refl _, Nat.le_refl _⟩
    · intro n r hrun
      obtain ⟨h1, h2, -, -⟩ := ensures_Reserve_on E M u n w0 (u2, r) w2 hrun
      show u2.size_ ≤ u2.data_.capacity_
      simp only at h1 h2
      omega
    · intro n r hrun
      exact ensures_Resize_on_size E M u n hu2 w0 (u2, r) w2 hrun
    · intro x p hrun
      exact ((checked_EmplaceBack E u x hu2).2 w0 (u2, p) w2 hrun).2.2
    · intro x hrun
      exact ((checked_PushBack E u x hu2).2 w0 u2 w2 hrun).2.2
    · intro k x p hk hrun
      exact ((checked_Emplace E u k x hu2 hk).2 w0 (u2, p) w2 hrun).2.2
    · intro pos p hrun
      obtain ⟨h1, h2⟩ := (checked_Erase E u pos).2 w0 (u2, p) w2 hrun
      show u2.size_ ≤ u2.data_.capacity_
      simp only at h1 h2
      rw [h1, h2]
      omega
    · intro hpos hrun
      obtain ⟨h1, h2⟩ := (checked_PopBack (α := α) u hu2 hpos).2 w0 u2 w2 hrun
      show u2.size_ ≤ u2.data_.capacity_
      rw [h1, h2]
      omega
    · intro same hrun
      exact ((checked_copy_assign u b same hu2 hb2).2 w0 u2 w2 hrun).2
    · intro n hrun
      exact (checked_sized_on E M n).2 w0 _ w2 hrun u2 rfl
    · intro hrun
      obtain ⟨h1, h2⟩ := (checked_copy (α := α) u).2 w0 u2 w2 hrun
      show u2.size_ ≤ u2.data_.capacity_
      omega
  · obtain ⟨xs, hx⟩ := Separate_head _ _ _ hs
    have hsz : v.size_ = xs.length := hx.1
    refine ⟨?_, ?_, ?_, ?_, ?_, ?_, ?_, ?_, ⟨_, copy_assign_self_eq v w⟩⟩
    · intro i hi
      exact ⟨_, subscript_eq v xs w hx i (by rw [← hsz]; exact hi)⟩
    · intro n hfit
      obtain ⟨v2, r, w2, hrun, -⟩ := Reserve_on_spec E M v n xs w hx M.sizeof_pos hfit
      obtain ⟨v3, r3, w3, zs, hrun3, -⟩ := Resize_on_spec E M v n xs w hx M.sizeof_pos hfit
      exact ⟨⟨_, hrun⟩, ⟨_, hrun3⟩⟩
    · intro x
      obtain ⟨v2, w2, hrun, -⟩ := EmplaceBack_spec E v x xs w hx
      exact ⟨_, hrun⟩
    · intro x
      obtain ⟨v2, w2, hrun, -⟩ := PushBack_spec E v x xs w hx
      exact ⟨_, hrun⟩
    · intro k x hk
      rcases Emplace_index_spec E v x xs k w hx hk with ⟨v2, w2, hrun, -⟩ | ⟨-, -, -, hf⟩
      · exact Or.inl ⟨_, hrun⟩
      · exact Or.inr hf
    · intro k hk
      obtain ⟨w2, hrun, -⟩ := Erase_index_spec E v xs k w hx hk
      exact ⟨_, hrun⟩
    · intro hpos
      obtain ⟨w2, hrun, -⟩ := PopBack_pos_spec v xs w hx hpos
      exact ⟨_, hrun⟩
    · intro b hb
      obtain ⟨-, ⟨ys, hy⟩, hdis⟩ := Separate_mem w v b vs hs hb
      obtain ⟨a2, w2, hrun, -⟩ := copy_assign_frame_spec v b xs ys w hx hy hdis
      exact ⟨_, hrun⟩

/-- With `v = [1, 2]` of capacity 3 and `b = [7]`, on a machine with a 64-bit
`size_t` and 4-byte elements: `v[1]`, `v.Reserve(10)`, `v.PopBack()` and
`v = b` return, and `v.Reserve(1 << 62)` and `v.Insert(v.begin() + 1, 5)` do
not stop at an assertion. -/
theorem C19_no_assertion_fails_witness :
    Separate world_two [vec_12, vec_7] ∧
    (∃ p : Ptr, vec_12.subscript 1 world_two = .ok (p, world_two)) ∧
    (∃ r, vec_12.Reserve_on int_type machine_64 10 world_two = .ok r) ∧
    vec_12.Reserve_on int_type machine_64 (2 ^ 62) world_two ≠ .error .assertion ∧
    (∃ r, vec_12.PopBack world_two = .ok r) ∧
    (∃ r, vec_12.copy_assign vec_7 false world_two = .ok r) ∧
    vec_12.Insert int_type (vec_12.begin.add 1) 5 world_two ≠ .error .assertion := by
  have hs : Separate world_two [vec_12, vec_7] := by
    refine ⟨?_, ?_⟩
    · intro v hv
      simp only [List.mem_cons, List.mem_singleton, List.not_mem_nil, or_false] at hv
      rcases hv with hv | hv
      · exact ⟨[1, 2], by rw [hv]; decide⟩
      · exact ⟨[7], by rw [hv]; decide⟩
    · simp [vec_12, vec_7]
  obtain ⟨hfield, -, hsub, hret, -, -, -, -, hpop, hca, -⟩ :=
    C19_no_assertion_fails int_type machine_64 world_two vec_12 [vec_7] hs
  obtain ⟨-, hres, -, hemp, -⟩ := hfield world_two vec_12 vec_7 (by decide) (by decide)
  exact ⟨hs, hsub 1 (by decide), (hret 10 (Or.inr (by norm_num [machine_64]))).1,
    (hres _).1, hpop (by decide), hca vec_7 (by simp), (hemp 1 5 (by decide)).2⟩

/-- C20: in every state of the memory whatsoever, for vectors `u` and `b`
with `Size() <= Capacity()`: whenever `Reserve(n)` or `Resize(n)`, for any
`n` on any machine, `PushBack`, `EmplaceBack`, `Insert` or `Emplace` at
`begin() + k` with `k <= Size()`, `Erase`, `PopBack` or the copy assignment
`u = b` returns, `Capacity()` is at least what it was before the call, and
equal after `Erase` and `PopBack`.  Moreover, in every state in which the
vectors alive hold their elements in storage of their own, and so in every
reachable state, these calls on a vector `v` alive do return (`Reserve(n)`
and `Resize(n)` when `n <= Capacity()` or `n * sizeof(T)` is within `size_t`,
normally or with `std::bad_alloc`), `Resize` to at most `Size()` leaves
`Capacity()` equal, and `Insert` and `Emplace` return except in the copying
branch of the reallocation at an interior position, where the call reads the
slot behind the storage and, when that slot can be read, returns with twice
the capacity.  `Swap` and the move assignment give `v` the capacity of the
other vector and the move constructor leaves capacity 0 in its source, so
these lower the capacity of a vector whenever the other capacity is
smaller. -/
theorem C20_capacity_never_shrinks {α : Type} (E : ElemType α) (M : Machine) (w : World α)
    (v : Vector) (vs : List Vector) (hs : Separate w (v :: vs)) :
    (∀ (w0 w2 : World α) (u b u2 : Vector), u.Size ≤ u.Capacity → b.Size ≤ b.Capacity →
      (∀ (n : Nat) (r : Except Exn Unit), u.Reserve_on E M n w0 = .ok ((u2, r), w2) →
        u.Capacity ≤ u2.Capacity) ∧
      (∀ (n : Nat) (r : Except Exn Unit), u.Resize_on E M n w0 = .ok ((u2, r), w2) →
        u.Capacity ≤ u2.Capacity) ∧
      (∀ (x : α) (p : Ptr), u.EmplaceBack E x w0 = .ok ((u2, p), w2) →
        u.Capacity ≤ u2.Capacity) ∧
      (∀ x : α, u.PushBack E x w0 = .ok (u2, w2) → u.Capacity ≤ u2.Capacity) ∧
      (∀ (k : Nat) (x : α) (p : Ptr), k ≤ u.Size →
        (u.Emplace E (u.begin.add k) x w0 = .ok ((u2, p), w2) → u.Capacity ≤ u2.Capacity) ∧
        (u.Insert E (u.begin.add k) x w0 = .ok ((u2, p), w2) → u.Capacity ≤ u2.Capacity)) ∧
      (∀ pos p : Ptr, u.Erase E pos w0 = .ok ((u2, p), w2) → u2.Capacity = u.Capacity) ∧
      (0 < u.Size → u.PopBack w0 = .ok (u2, w2) → u2.Capacity = u.Capacity) ∧
      (∀ same : Bool, u.copy_assign b same w0 = .ok (u2, w2) → u.Capacity ≤ u2.Capacity)) ∧
    (∀ n : Nat, (n ≤ v.Capacity ∨ n * M.sizeof_T < 2 ^ M.size_t_bits) →
      (∃ (v2 : Vector) (r : Except Exn Unit) (w2 : World α),
        v.Reserve_on E M n w = .ok ((v2, r), w2) ∧ v.Capacity ≤ v2.Capacity) ∧
      (∃ (v2 : Vector) (r : Except Exn Unit) (w2 : World α),
        v.Resize_on E M n w = .ok ((v2, r), w2) ∧ v.Capacity ≤ v2.Capacity ∧
        (n ≤ v.Size → v2.Capacity = v.Capacity))) ∧
    (∀ x : α, ∃ (v2 : Vector) (w2 : World α), v.PushBack E x w = .ok (v2, w2) ∧
      v.Capacity ≤ v2.Capacity) ∧
    (∀ x : α, ∃ (v2 : Vector) (r : Ptr) (w2 : World α),
      v.EmplaceBack E x w = .ok ((v2, r), w2) ∧ v.Capacity ≤ v2.Capacity) ∧
    (∀ (k : Nat) (x : α), k ≤ v.Size →
      (∃ (v2 : Vector) (it : Ptr) (w2 : World α),
        v.Emplace E (v.begin.add k) x w = .ok ((v2, it), w2) ∧
        v.Insert E (v.begin.add k) x w = .ok ((v2, it), w2) ∧
        v.Capacity ≤ v2.Capacity) ∨
      (k < v.Size ∧ v.Size = v.Capacity ∧
        (!E.is_copy_constructible || E.is_nothrow_move_constructible) = false ∧
        v.Emplace E (v.begin.add k) x w = .error .bad_access ∧
        ∀ g : α, ∃ (v2 : Vector) (it : Ptr) (w2 : World α),
          v.Emplace E (v.begin.add k) x (w.behind v.data_.buffer_ g) = .ok ((v2, it), w2) ∧
          v.Insert E (v.begin.add k) x (w.behind v.data_.buffer_ g) = .ok ((v2, it), w2) ∧
          v2.Capacity = v.Capacity * 2 ∧ v.Capacity ≤ v2.Capacity)) ∧
    (∀ k : Nat, k < v.Size → ∃ (v2 : Vector) (it : Ptr) (w2 : World α),
      v.Erase E (v.begin.add k) w = .ok ((v2, it), w2) ∧ v2.Capacity = v.Capacity) ∧
    (0 < v.Size → ∃ (v2 : Vector) (w2 : World α), v.PopBack w = .ok (v2, w2) ∧
      v2.Capacity = v.Capacity) ∧
    (∀ b ∈ vs, ∃ (v2 : Vector) (w2 : World α), v.copy_assign b false w = .ok (v2, w2) ∧
      v.Capacity ≤ v2.Capacity) ∧
    (∀ b : Vector, (v.Swap b).1.Capacity = b.Capacity ∧
      (v.move_assign b).1.Capacity = b.Capacity ∧
      (b.Capacity < v.Capacity → (v.Swap b).1.Capacity < v.Capacity ∧
        (v.move_assign b).1.Capacity < v.Capacity)) ∧
    (Vector.move v).2.Capacity = 0 ∧
    (0 < v.Capacity → (Vector.move v).2.Capacity < v.Capacity) := by
  obtain ⟨xs, hx⟩ := Separate_head _ _ _ hs
  have hsz : v.size_ = xs.length := hx.1
  have hle : xs.length ≤ v.data_.capacity_ := hx.2.1
  refine ⟨?_, ?_, ?_, ?_, ?_, ?_, ?_, ?_, ?_, ?_, ?_⟩
  · intro w0 w2 u b u2 hu hb
    have hu2 : u.size_ ≤ u.data_.capacity_ := hu
    have hb2 : b.size_ ≤ b.data_.capacity_ := hb
    refine ⟨fun n r h => (ensures_Reserve_on E M u n w0 (u2, r) w2 h).2.1,
      fun n r h => ensures_Resize_on E M u n w0 (u2, r) w2 h,
      fun x p h => ((checked_EmplaceBack E u x hu2).2 w0 (u2, p) w2 h).1,
      fun x h => ((checked_PushBack E u x hu2).2 w0 u2 w2 h).1,
      fun k x p hk => ⟨fun h => ((checked_Emplace E u k x hu2 hk).2 w0 (u2, p) w2 h).1,
        fun h => ((checked_Emplace E u k x hu2 hk).2 w0 (u2, p) w2 h).1⟩,
      fun pos p h => congrArg RawMemory.capacity_ ((checked_Erase E u pos).2 w0 (u2, p) w2 h).1,
      fun hpos h => congrArg RawMemory.capacity_
        ((checked_PopBack (α := α) u hu2 hpos).2 w0 u2 w2 h).1,
      fun same h => ((checked_copy_assign u b same hu2 hb2).2 w0 u2 w2 h).1⟩
  · intro n hfit
    obtain ⟨v2, r, w2, hrun, -, hge, -⟩ := Reserve_on_spec E M v n xs w hx M.sizeof_pos hfit
    obtain ⟨v3, r3, w3, zs, hrun3, -, hge3, -⟩ :=
      Resize_on_spec E M v n xs w hx M.sizeof_pos hfit
    refine ⟨⟨v2, r, w2, hrun, hge⟩, ⟨v3, r3, w3, hrun3, hge3, ?_⟩⟩
    intro hn
    have hn2 : n ≤ v.size_ := hn
    obtain ⟨v4, w4, hrun4, -, hcap4, -⟩ := Resize_spec E v n xs w hx
    have hrun5 := Resize_on_of_Resize E M v v4 n w w4 (Or.inl (by omega)) hrun4
    rw [hrun5] at hrun3
    injection hrun3 with hrun3
    injection hrun3 with hrun3
    injection hrun3 with hv34
    show v3.data_.capacity_ = v.data_.capacity_
    rw [← hv34, hcap4, if_pos (by omega)]
  · intro x
    obtain ⟨v2, w2, hrun, -, hcap, -⟩ := PushBack_spec E v x xs w hx
    refine ⟨v2, w2, hrun, ?_⟩
    show v.data_.capacity_ ≤ v2.data_.capacity_
    rw [hcap]; split
    · split <;> omega
    · omega
  · intro x
    obtain ⟨v2, w2, hrun, -, hcap, -⟩ := EmplaceBack_spec E v x xs w hx
    refine ⟨v2, _, w2, hrun, ?_⟩
    show v.data_.capacity_ ≤ v2.data_.capacity_
    rw [hcap]; split
    · split <;> omega
    · omega
  · intro k x hk
    rcases Emplace_index_spec E v x xs k w hx hk with
      ⟨v1, w1, hrun1, -, hcap, -⟩ | ⟨hlt, hfull, hcopy, hf⟩
    · exact Or.inl ⟨v1, _, w1, hrun1, hrun1, hcap⟩
    · refine Or.inr ⟨hlt, hfull, hcopy, hf, ?_⟩
      intro g
      obtain ⟨v2, w2, hrun2, -, hcap2, -⟩ :=
        Emplace_past_end_spec E v x g xs k w hx hlt hfull hcopy
      refine ⟨v2, _, w2, hrun2, hrun2, hcap2, ?_⟩
      show v.data_.capacity_ ≤ v2.data_.capacity_
      omega
  · intro k hk
    obtain ⟨w2, hrun, -⟩ := Erase_index_spec E v xs k w hx hk
    exact ⟨_, _, w2, hrun, rfl⟩
  · intro hpos
    obtain ⟨w2, hrun, -⟩ := PopBack_pos_spec v xs w hx hpos
    exact ⟨_, w2, hrun, rfl⟩
  · intro b hb
    obtain ⟨-, ⟨ys, hy⟩, hdis⟩ := Separate_mem w v b vs hs hb
    obtain ⟨a2, w2, hrun, -, hcap, -⟩ := copy_assign_frame_spec v b xs ys w hx hy hdis
    exact ⟨a2, w2, hrun, hcap⟩
  · intro b
    have e1 : v.Swap b = (b, v) := Swap_eq _ _
    have e2 : v.move_assign b = (b, v) := Swap_eq _ _
    rw [e1, e2]
    exact ⟨rfl, rfl, fun h => ⟨h, h⟩⟩
  · rfl
  · intro h
    exact h

/-- With `v = [1, 2]` of capacity 3 and `b = [7]` of capacity 1, on a machine
with a 64-bit `size_t` and 4-byte elements: `v.Reserve(10)` and `v = b` do not
lower the capacity 3 of `v`, `v.PopBack()` keeps it, and `v.Swap(b)` lowers it
to 1. -/
theorem C20_capacity_never_shrinks_witness :
    Separate world_two [vec_12, vec_7] ∧ vec_12.Capacity = 3 ∧
    (∃ (v2 : Vector) (r : Except Exn Unit) (w2 : World Int),
      vec_12.Reserve_on int_type machine_64 10 world_two = .ok ((v2, r), w2) ∧
      3 ≤ v2.Capacity) ∧
    (∃ (v2 : Vector) (w2 : World Int), vec_12.PopBack world_two = .ok (v2, w2) ∧
      v2.Capacity = 3) ∧
    (∃ (v2 : Vector) (w2 : World Int),
      vec_12.copy_assign vec_7 false world_two = .ok (v2, w2) ∧ 3 ≤ v2.Capacity) ∧
    (vec_12.Swap vec_7).1.Capacity = 1 ∧ (vec_12.Swap vec_7).1.Capacity < vec_12.Capacity := by
  have hs : Separate world_two [vec_12, vec_7] := by
    refine ⟨?_, ?_⟩
    · intro v hv
      simp only [List.mem_cons, List.mem_singleton, List.not_mem_nil, or_false] at hv
      rcases hv with hv | hv
      · exact ⟨[1, 2], by rw [hv]; decide⟩
      · exact ⟨[7], by rw [hv]; decide⟩
    · simp [vec_12, vec_7]
  obtain ⟨-, hret, -, -, -, -, hpop, hca, hsw, -, -⟩ :=
    C20_capacity_never_shrinks int_type machine_64 world_two vec_12 [vec_7] hs
  obtain ⟨⟨v3, r3, w3, hr3, hc3⟩, -⟩ := hret 10 (Or.inr (by norm_num [machine_64]))
  obtain ⟨v4, w4, hr4, hc4⟩ := hpop (by decide)
  obtain ⟨v5, w5, hr5, hc5⟩ := hca vec_7 (by simp)
  obtain ⟨hs1, -, hs2⟩ := hsw vec_7
  exact ⟨hs, rfl, ⟨v3, r3, w3, hr3, hc3⟩, ⟨v4, w4, hr4, hc4⟩, ⟨v5, w5, hr5, hc5⟩, hs1,
    (hs2 (by decide)).1⟩

end simple_vector
